import Mathlib

/-!
# Numerical kernels of femus: ex7 (moving least squares), ex6 (Willmore surface) and the Laplacian

Shallow embedding of the routines of `applications/MPM_FEM/ex7/ex7.cpp`, of the Gauss point
kernels and the local layout of `applications/Willmore/WillmoreSurface/ex6/ex6.cpp`, and of
the element loop of `applications/OptimalControl/00_laplacian_all_dims/00_laplacian_all_dims.cpp`,
with the properties proved about them.  Definitions come first, theorems after.
-/

namespace Femus

/-! ## ex7.cpp: `GaussianElemination`

The augmented matrix `A` (a `std::vector<std::vector<double>>` with `n` rows of
`n + 1` entries) is a function `Nat → Nat → K` together with its row count `n`;
the entries are read in an exact field `K` instead of `double`.  The output
vector `x` is a function `Nat → K`.  `exit (0)` after printing
"The Matrix A is singular" is the result `none`. -/

section GaussianElemination

variable {K : Type} [Field K] [DecidableEq K]

/-- The assignment `A[r][c] = v`. -/
def setEntry (A : Nat → Nat → K) (r c : Nat) (v : K) : Nat → Nat → K :=
  fun r' c' => if r' = r ∧ c' = c then v else A r' c'

/-- The pivot search of lines 201-208, started at row `p`:
`while (A[p][i] == 0) { p++; if (p == n) exit (0); }`.
`none` is the singular exit.  The search is entered with `p = i < n - 1`, so `p + 1 ≤ n`
at every test and `¬ (p + 1 < n)` is the source's `p == n` after the increment. -/
def findPivot (A : Nat → Nat → K) (n i p : Nat) : Option Nat :=
  if A p i = 0 then
    if p + 1 < n then findPivot A n i (p + 1) else none
  else some p
termination_by n - p

/-- The row exchange of lines 210-215: for `j = 0 .. n`, swap `A[i][j]` and `A[p][j]`. -/
def swapRows (A : Nat → Nat → K) (n i p : Nat) : Nat → Nat → K :=
  (List.range (n + 1)).foldl
    (fun B j => let tmp := B i j; setEntry (setEntry B i j (B p j)) p j tmp) A

/-- Lines 218-221 for one row `j`: `mji = A[j][i] / A[i][i]`, then for `k = i .. n`
`A[j][k] -= mji * A[i][k]`. -/
def elimRow (A : Nat → Nat → K) (n i j : Nat) : Nat → Nat → K :=
  let mji := A j i / A i i
  (List.range' i (n + 1 - i)).foldl (fun B k => setEntry B j k (B j k - mji * B i k)) A

/-- The loop of line 217: rows `j = i + 1 .. n - 1` are reduced with pivot row `i`. -/
def elimBelow (A : Nat → Nat → K) (n i : Nat) : Nat → Nat → K :=
  (List.range' (i + 1) (n - (i + 1))).foldl (fun B j => elimRow B n i j) A

/-- One pass of the outer loop body (lines 201-222) for column `i`. -/
def elimStep (A : Nat → Nat → K) (n i : Nat) : Option (Nat → Nat → K) :=
  match findPivot A n i i with
  | none => none
  | some p => some (elimBelow (if p ≠ i then swapRows A n i p else A) n i)

/-- The elimination loop of lines 200-223: `for (i = 0; i < n - 1; i++)`. -/
def forwardElim (A : Nat → Nat → K) (n : Nat) : Option (Nat → Nat → K) :=
  (List.range (n - 1)).foldlM (fun B i => elimStep B n i) A

/-- Lines 231-235 for one row `i` of the back substitution:
`x[i] = A[i][n]`, then `x[i] -= A[i][j] * x[j]` for `j = i + 1 .. n - 1`, then
`x[i] /= A[i][i]`. -/
def backSubstRow (A : Nat → Nat → K) (n : Nat) (x : Nat → K) (i : Nat) : Nat → K :=
  let x1 := Function.update x i (A i n)
  let x2 := (List.range' (i + 1) (n - (i + 1))).foldl
    (fun y j => Function.update y i (y i - A i j * y j)) x1
  Function.update x2 i (x2 i / A i i)

/-- `GaussianElemination (A, x)` of ex7.cpp (lines 185-251) for `n = A.size () ≥ 1`.
The result is `none` when the routine prints "The Matrix A is singular" and exits;
otherwise it is the matrix as left in `A` and the vector written to `x`.
The loop `for (int i = n - 2; i >= 0; i--)` visits `n - 2, ..., 0`, which is the
reverse of `List.range (n - 1)` (empty for `n = 1`). -/
def GaussianElemination (A : Nat → Nat → K) (n : Nat) (x : Nat → K) :
    Option ((Nat → Nat → K) × (Nat → K)) :=
  match forwardElim A n with
  | none => none
  | some U =>
    if U (n - 1) (n - 1) = 0 then none
    else
      let x0 := Function.update x (n - 1) (U (n - 1) n / U (n - 1) (n - 1))
      some (U, (List.range (n - 1)).reverse.foldl (backSubstRow U n) x0)

/-- The coefficient block `M` of the augmented matrix, as a Mathlib matrix. -/
def coeffMatrix (A : Nat → Nat → K) (n : Nat) : Matrix (Fin n) (Fin n) K :=
  Matrix.of fun i j => A i.val j.val

/-- The right-hand side `b` (column `n`) of the augmented matrix. -/
def rhsVector (A : Nat → Nat → K) (n : Nat) : Fin n → K :=
  fun i => A i.val n

/-- Residual of row `r` of the augmented system at `x`, the right-hand side scaled by `t`
(`t = 1`: the system itself, `t = 0`: the homogeneous system). -/
def rowRes (A : Nat → Nat → K) (n : Nat) (x : Nat → K) (t : K) (r : Nat) : K :=
  (∑ c in Finset.range n, A r c * x c) - t * A r n

/-- All `n` row residuals vanish. -/
def Sol (A : Nat → Nat → K) (n : Nat) (x : Nat → K) (t : K) : Prop :=
  ∀ r, r < n → rowRes A n x t r = 0

/-- Columns `0 .. i - 1` are reduced: non-zero pivot, zeros below it. -/
def Echelon (A : Nat → Nat → K) (n i : Nat) : Prop :=
  ∀ c, c < i → A c c ≠ 0 ∧ ∀ r, c < r → r < n → A r c = 0

/-- Row `r` of an upper triangular system holds at `x`. -/
def RowOK (U : Nat → Nat → K) (n : Nat) (x : Nat → K) (r : Nat) : Prop :=
  U r r * x r + ∑ j in Finset.Ico (r + 1) n, U r j * x j = U r n

/-- A `3 × 3` system with the unique solution `(2, 3, -1)`:
`2x + y - z = 8`, `-3x - y + 2z = -11`, `-2x + y + 2z = -3`. -/
def sampleSystem : Nat → Nat → ℚ :=
  fun r c => (([[2, 1, -1, 8], [-3, -1, 2, -11], [-2, 1, 2, -3]] : List (List ℚ)).getD r []).getD c 0

/-- A singular `2 × 2` system: `x + 2y = 3`, `2x + 4y = 6`. -/
def singularSystem : Nat → Nat → ℚ :=
  fun r c => (([[1, 2, 3], [2, 4, 6]] : List (List ℚ)).getD r []).getD c 0

end GaussianElemination

/-! ## ex7.cpp: `ComputeIndexSet` -/

/-- Lines 287-291, the odometer step on `counters`:
`for (i = 0; counters[i] == degree; i++) counters[i] = 0;  ++counters[i];`.
The list is `counters[i], counters[i + 1], ...`; running off its end (an access past
`counters[dimension]` in the source) leaves the empty tail. -/
def advanceCounters (degree : Nat) : List Nat → List Nat
  | [] => []
  | c :: cs => if c = degree then 0 :: advanceCounters degree cs else (c + 1) :: cs

/-- Lines 270-273: `entrySum = counters[0] + ... + counters[dimension - 1]`. -/
def entrySum (dimension : Nat) (counters : List Nat) : Nat :=
  (List.range dimension).foldl (fun s j => s + counters.getD j 0) 0

/-- Lines 276-277: the row written to `Jp[index]`, `Jp[index][j] = counters[dimension - 1 - j]`. -/
def indexRow (dimension : Nat) (counters : List Nat) : List Nat :=
  (List.range dimension).map (fun j => counters.getD (dimension - 1 - j) 0)

/-- The `while (!counters[dimension])` loop of lines 268-292.  `Jp` is the list of rows
written so far (`Jp[0], ..., Jp[index - 1]`, so `index = Jp.length`); each turn of the loop
uses one unit of `fuel`, and `none` means the fuel ran out before the loop ended. -/
def indexSetLoop (degree dimension : Nat) :
    Nat → List Nat → List (List Nat) → Option (List (List Nat))
  | 0, _, _ => none
  | fuel + 1, counters, Jp =>
    if counters.getD dimension 0 ≠ 0 then some Jp
    else
      let Jp' := if entrySum dimension counters ≤ degree
        then Jp ++ [indexRow dimension counters] else Jp
      indexSetLoop degree dimension fuel (advanceCounters degree counters) Jp'

/-- `ComputeIndexSet (Jp, degree, dimension)` of ex7.cpp (lines 253-296): the rows written
to `Jp`, in the order of `index`.  `counters` starts as `dimension + 1` zeros (the `memset`);
the fuel `(degree + 1) ^ dimension + 1` is the number of loop tests of a full odometer run. -/
def ComputeIndexSet (degree dimension : Nat) : Option (List (List Nat)) :=
  indexSetLoop degree dimension ((degree + 1) ^ dimension + 1)
    (List.replicate (dimension + 1) 0) []

/-- Line 257: `dimJp`, the number of rows `Jp` is resized to, read as the exact binomial
coefficient. -/
def dimJp (degree dimension : Nat) : Nat := Nat.choose (dimension + degree) degree

/-- The `counters` array when the odometer has been advanced `v` times, in base `B`:
the digits of `v`, least significant first, followed by the carry `counters[dimension]`. -/
def odometer (B : Nat) : Nat → Nat → List Nat
  | 0, v => [v]
  | d + 1, v => (v % B) :: odometer B d (v / B)

/-- Digit `k` of `v` in base `B`. -/
def digit (B v k : Nat) : Nat := v / B ^ k % B

/-- Sum of the `d` lowest base-`B` digits of `v`. -/
def digitSum (B d v : Nat) : Nat := ∑ j in Finset.range d, digit B v j

/-- The `d` lowest base-`B` digits of `v`, most significant first. -/
def digitRow (B d v : Nat) : List Nat := (List.range d).map (fun j => digit B v (d - 1 - j))

/-- The `d` lowest base-`B` digits of `v`, most significant first, by recursion on the
leading digit. -/
def leadingDigits (B : Nat) : Nat → Nat → List Nat
  | 0, _ => []
  | d + 1, v => (v / B ^ d) :: leadingDigits B d (v % B ^ d)

/-- The number with the given base-`B` digits, most significant first. -/
def ofLeadingDigits (B : Nat) : List Nat → Nat
  | [] => 0
  | a :: m => a * B ^ m.length + ofLeadingDigits B m

/-- The odometer values below `B ^ d` with digit sum at most `D`. -/
def boundedSums (B d D : Nat) : Finset Nat :=
  (Finset.range (B ^ d)).filter (fun v => digitSum B d v ≤ D)

/-! ## ex7.cpp: `GetChebyshev` -/

section GetChebyshev

variable {K : Type} [CommRing K]

/-- `std::vector::resize (m)` on a vector of numbers: the first `m` entries are kept and
missing ones are value-initialised to `0`. -/
def resize (T : List K) (m : Nat) : List K :=
  T.take m ++ List.replicate (m - T.length) 0

/-- `GetChebyshev (T, n, x)` of ex7.cpp (lines 299-315), `T` being the vector passed in
and the result the vector left in `T`:
`T.resize (n + 1); T[0] = 1; T[1] = x; for (i = 2; i < n + 1; i++) T[i] = 2 * x * T[i-1] - T[i-2];`.
A write outside the vector, which `T[1] = x` is for `n = 0`, is dropped by `List.set`. -/
def GetChebyshev (T : List K) (n : Nat) (x : K) : List K :=
  let T0 := resize T (n + 1)
  let T1 := T0.set 0 1
  let T2 := T1.set 1 x
  (List.range' 2 (n + 1 - 2)).foldl
    (fun T i => T.set i (2 * x * T.getD (i - 1) 0 - T.getD (i - 2) 0)) T2

end GetChebyshev

/-! ## ex7.cpp: `GetMultiIndex` and `SetElementDofs`

`unsigned` values are natural numbers.  `static_cast<unsigned> (pow (a, b))` is the exact
power `a ^ b`: the cast is defined only for powers below `2 ^ 32`, and where every such
power fits no sum or product of these routines wraps. -/

/-- `GetMultiIndex (idx, dim, n, i)` of ex7.cpp (lines 317-322): the vector left in `idx`,
`idx[d] = (i % n^(dim - d)) / n^(dim - 1 - d)` for `d = 0 .. dim - 1`. -/
def GetMultiIndex (dim n i : Nat) : List Nat :=
  (List.range dim).map (fun d => (i % n ^ (dim - d)) / n ^ (dim - 1 - d))

/-- Lines 337-339 of `SetElementDofs`: `while (jj >= m) jj -= m;` with `m = 2u * sizeHalf`.
For `m = 0` the source loop does not end; `SetElementDofs` only runs it with
`sizeHalf ≥ 1`. -/
def reduceIndex (m jj : Nat) : Nat :=
  if 0 < m ∧ m ≤ jj then reduceIndex m (jj - m) else jj
termination_by jj
decreasing_by omega

/-- `SetElementDofs (elementDofs, idx, nve1d)` of ex7.cpp (lines 325-346): the vector left
in `elementDofs`.  The state of the outer loop is `(elementDofs, sizeHalf)`. -/
def SetElementDofs (idx : List Nat) (nve1d : Nat) : List Nat :=
  let dim := idx.length
  let size := 2 ^ dim
  ((List.range dim).foldl
    (fun (st : List Nat × Nat) d =>
      ((List.range size).foldl
        (fun e j =>
          let jj := reduceIndex (2 * st.2) j / st.2
          e.set j (e.getD j 0 + (idx.getD d 0 + jj) * nve1d ^ (dim - 1 - d)))
        st.1,
       st.2 / 2))
    (List.replicate size 0, size / 2)).1

/-- The commented-out direct formula of lines 353-359 for a 2-D cell. -/
def directElementDofs2 (i0 i1 nve1d : Nat) : List Nat :=
  [(i0 + 0) * nve1d + (i1 + 0), (i0 + 0) * nve1d + (i1 + 1),
   (i0 + 1) * nve1d + (i1 + 1), (i0 + 1) * nve1d + (i1 + 0)]

/-- Entry `j` of `SetElementDofs` after the first `k` turns of its outer loop. -/
def cornerSum (idx : List Nat) (nve1d k j : Nat) : Nat :=
  ∑ d in Finset.range k,
    (idx.getD d 0 + digit 2 j (idx.length - 1 - d)) * nve1d ^ (idx.length - 1 - d)

/-- The multi-index of corner `j` of cell `idx`: `idx[d]` plus bit `dim - 1 - d` of `j`. -/
def cornerIndex (idx : List Nat) (j : Nat) : List Nat :=
  (List.range idx.length).map (fun d => idx.getD d 0 + digit 2 j (idx.length - 1 - d))

/-! ## ex6.cpp: the metric, its inverse and the unit normal at a Gauss point

The same lines appear in `AssembleInit` (593-632), `AssemblePWillmore` (1126-1172) and
`AssemblePWillmore2` (2442-2487).  `solx_uv[K][j]`, `K < DIM = 3`, `j < dim = 2`, holds the
two tangent vectors; numbers are read in an exact field `K` instead of `double`. -/

section MetricKernel

variable {K : Type} [Field K]

/-- The metric `g`: `g[i][j]` starts at `0` and `g[i][j] += solx_uv[K][i] * solx_uv[K][j]`
for `K = 0, 1, 2`. -/
def metric (solx_uv : Fin 3 → Fin 2 → K) : Matrix (Fin 2) (Fin 2) K :=
  Matrix.of fun i j =>
    (List.finRange 3).foldl (fun s k => s + solx_uv k i * solx_uv k j) 0

/-- The determinant `detg = g[0][0] * g[1][1] - g[0][1] * g[1][0]`. -/
def detg (solx_uv : Fin 3 → Fin 2 → K) : K :=
  metric solx_uv 0 0 * metric solx_uv 1 1 - metric solx_uv 0 1 * metric solx_uv 1 0

/-- The metric inverse `gi`, by the cofactor formula of the source. -/
def metricInverse (solx_uv : Fin 3 → Fin 2 → K) : Matrix (Fin 2) (Fin 2) K :=
  !![metric solx_uv 1 1 / detg solx_uv, -metric solx_uv 0 1 / detg solx_uv;
     -metric solx_uv 1 0 / detg solx_uv, metric solx_uv 0 0 / detg solx_uv]

/-- The global constant `normalSign = -1.` of line 41. -/
def normalSign : K := -1

/-- The vector `normal`, with the square root function `sqrt` of the number type as a
parameter. -/
def normal (sqrt : K → K) (solx_uv : Fin 3 → Fin 2 → K) : Fin 3 → K :=
  ![normalSign * (solx_uv 1 0 * solx_uv 2 1 - solx_uv 2 0 * solx_uv 1 1) / sqrt (detg solx_uv),
    normalSign * (solx_uv 2 0 * solx_uv 0 1 - solx_uv 0 0 * solx_uv 2 1) / sqrt (detg solx_uv),
    normalSign * (solx_uv 0 0 * solx_uv 1 1 - solx_uv 1 0 * solx_uv 0 1) / sqrt (detg solx_uv)]

/-- The cross product `x_u × x_v` of the two tangent vectors (columns of `solx_uv`). -/
def tangentCross (solx_uv : Fin 3 → Fin 2 → K) : Fin 3 → K :=
  ![solx_uv 1 0 * solx_uv 2 1 - solx_uv 2 0 * solx_uv 1 1,
    solx_uv 2 0 * solx_uv 0 1 - solx_uv 0 0 * solx_uv 2 1,
    solx_uv 0 0 * solx_uv 1 1 - solx_uv 1 0 * solx_uv 0 1]

/-- A sample pair of tangent vectors, `x_u = (1, 0, 1)` and `x_v = (2, 1, 0)`. -/
def sampleTangents (K : Type) [Field K] : Fin 3 → Fin 2 → K :=
  ![![1, 2], ![0, 1], ![1, 0]]

end MetricKernel

/-! ## ex7.cpp: `main`, the moving-least-squares reconstruction (lines 40-182)

The particle positions `Xp[iel][p][d]`, drawn with `rand ()` in the source, are an input
`Xp : Nat → Nat → Nat → K`.  Numbers are read in an exact ordered field `K`; the decimal
constants of `Xv` and `hv` are the fractions they denote. -/

namespace ex7

section MovingLeastSquares

variable {K : Type} [LinearOrderedField K]

/-- Line 49: `pOrder = 3`. -/
def pOrder : Nat := 3

/-- Line 50: `dim = 2`. -/
def dim : Nat := 2

/-- Line 53: `nve1d = 5u`. -/
def nve1d : Nat := 5

/-- Line 54: `nve = pow (nve1d, dim)`. -/
def nve : Nat := nve1d ^ dim

/-- Line 55: `nel1d = nve1d - 1u`. -/
def nel1d : Nat := nve1d - 1

/-- Line 56: `nel = pow (nel1d, dim)`. -/
def nel : Nat := nel1d ^ dim

/-- Line 58: `Xv[5] = {0., 0.1, 0.5, 1., 1.3}`. -/
def Xv (K : Type) [LinearOrderedField K] : List K := [0, 1 / 10, 1 / 2, 1, 13 / 10]

/-- Line 59: `hv[5] = {0.1, 0.4, 0.5, 0.5, 0.3}`. -/
def hv (K : Type) [LinearOrderedField K] : List K := [1 / 10, 2 / 5, 1 / 2, 1 / 2, 3 / 10]

/-- Lines 61-64: `elSize[iel] = Xv[iel + 1] - Xv[iel]` for `iel < nel1d`. -/
def elSize (K : Type) [LinearOrderedField K] : List K :=
  (List.range nel1d).map (fun iel => (Xv K).getD (iel + 1) 0 - (Xv K).getD iel 0)

/-- Line 66: `nDofs = pow (2, dim)`. -/
def nDofs : Nat := 2 ^ dim

/-- Lines 68-74: `elemDofs[iel] = SetElementDofs (GetMultiIndex (dim, nel1d, iel), nve1d)`. -/
def elemDofs : List (List Nat) :=
  (List.range nel).map (fun iel => SetElementDofs (GetMultiIndex dim nel1d iel) nve1d)

/-- Lines 104-107: `rhs = 1; for d: rhs *= T[0][aIdx[j][d]]`. -/
def rhsEntry (idxSet : List (List Nat)) (T0 : List K) (j : Nat) : K :=
  (List.range dim).foldl (fun rhs d => rhs * T0.getD ((idxSet.getD j []).getD d 0) 0) 1

/-- Lines 91-110: the matrices `M[i]` are zero-filled, `T[0]` is the Chebyshev vector
at `0`, and column `aIdx.size ()` of every `M[i]` receives the right-hand side. -/
def initMoments (idxSet : List (List Nat)) : Nat → Nat → Nat → K :=
  (List.range nve).foldl
    (fun M i => (List.range idxSet.length).foldl
      (fun M j => Function.update M i
        (setEntry (M i) j idxSet.length (rhsEntry idxSet (GetChebyshev [] pOrder 0) j)))
      M)
    (fun _ _ _ => 0)

/-- Line 124 (and 158): the vector `T[d]` after
`GetChebyshev (T[d], pOrder, (Xv[ndIdx[d]] - Xp[iel][p][d]) / hv[ndIdx[d]])`.
The vector passed in is resized to the same length and rewritten entry by entry, so it is
taken empty. -/
def particleT (Xp : Nat → Nat → Nat → K) (iel p : Nat) (ndIdx : List Nat) (d : Nat) : List K :=
  GetChebyshev [] pOrder
    (((Xv K).getD (ndIdx.getD d 0) 0 - Xp iel p d) / (hv K).getD (ndIdx.getD d 0) 0)

/-- Lines 121-126 (and 156-160): `W = 1; for d:
W *= 1 - fabs (Xv[ndIdx[d]] - Xp[iel][p][d]) / elSize[elIdx[d]]`. -/
def particleW (Xp : Nat → Nat → Nat → K) (iel p : Nat) (elIdx ndIdx : List Nat) : K :=
  (List.range dim).foldl
    (fun W d => W * (1 - |(Xv K).getD (ndIdx.getD d 0) 0 - Xp iel p d|
      / (elSize K).getD (elIdx.getD d 0) 0))
    1

/-- Lines 129-132: `TkTl = 1; for d: TkTl *= T[d][aIdx[k][d]] * T[d][aIdx[l][d]]`. -/
def TkTl (idxSet : List (List Nat)) (T : Nat → List K) (k l : Nat) : K :=
  (List.range dim).foldl
    (fun s d => s * ((T d).getD ((idxSet.getD k []).getD d 0) 0
      * (T d).getD ((idxSet.getD l []).getD d 0) 0))
    1

/-- Lines 127-135 on the matrix `M[i]`: `M[i][k][l] += W * TkTl` for all `k`, `l`. -/
def accumulate (idxSet : List (List Nat)) (T : Nat → List K) (W : K) (A : Nat → Nat → K) :
    Nat → Nat → K :=
  (List.range idxSet.length).foldl
    (fun A k => (List.range idxSet.length).foldl
      (fun A l => setEntry A k l (A k l + W * TkTl idxSet T k l)) A)
    A

/-- Lines 117-136: the body of the `idof` loop of the moment assembly. -/
def addMoment (idxSet : List (List Nat)) (Xp : Nat → Nat → Nat → K) (iel p : Nat)
    (M : Nat → Nat → Nat → K) (idof : Nat) : Nat → Nat → Nat → K :=
  let elIdx := GetMultiIndex dim nel1d iel
  let i := (elemDofs.getD iel []).getD idof 0
  let ndIdx := GetMultiIndex dim nve1d i
  Function.update M i
    (accumulate idxSet (particleT Xp iel p ndIdx) (particleW Xp iel p elIdx ndIdx) (M i))

/-- Lines 91-138: the moment matrices `M[i]` with their right-hand sides, `Np` being
`aIdx.size () + 5` (line 76). -/
def momentMatrices (idxSet : List (List Nat)) (Xp : Nat → Nat → Nat → K) : Nat → Nat → Nat → K :=
  (List.range nel).foldl
    (fun M iel => (List.range (idxSet.length + 5)).foldl
      (fun M p => (List.range nDofs).foldl (addMoment idxSet Xp iel p) M) M)
    (initMoments idxSet)

/-- Lines 142-143 for one node: `alpha[i].resize (aIdx.size ())` and
`GaussianElemination (M[i], alpha[i], false)`. -/
def solveNode (idxSet : List (List Nat)) (M : Nat → Nat → Nat → K) (alpha : Nat → Nat → K)
    (i : Nat) : Option (Nat → Nat → K) :=
  match GaussianElemination (M i) idxSet.length (fun _ => 0) with
  | none => none
  | some (_, x) => some (Function.update alpha i x)

/-- Lines 140-144: `alpha[i]` is resized to `aIdx.size ()` zeros and
`GaussianElemination (M[i], alpha[i])` is run for `i = 0 .. nve - 1`; a singular exit ends
the program.  The matrix left in `M[i]` is not read again. -/
def solveNodes (idxSet : List (List Nat)) (M : Nat → Nat → Nat → K) : Option (Nat → Nat → K) :=
  (List.range nve).foldlM (solveNode idxSet M) (fun _ _ => 0)

/-- Lines 164-167: `Tk = 1; for d: Tk *= T[d][aIdx[k][d]]`. -/
def Tk (idxSet : List (List Nat)) (T : Nat → List K) (k : Nat) : K :=
  (List.range dim).foldl (fun Tk d => Tk * (T d).getD ((idxSet.getD k []).getD d 0) 0) 1

/-- Lines 162-169: `sumAlphaT = 0; for k: sumAlphaT += alpha[i][k] * Tk`. -/
def sumAlphaT (idxSet : List (List Nat)) (T : Nat → List K) (alphai : Nat → K) : K :=
  (List.range idxSet.length).foldl (fun s k => s + alphai k * Tk idxSet T k) 0

/-- Lines 151-171: the body of the `idof` loop of the reconstruction,
`Ur[i] += W * sumAlphaT * pow (Xp[iel][p][0], pOrder)`. -/
def addReconstruction (idxSet : List (List Nat)) (Xp : Nat → Nat → Nat → K)
    (alpha : Nat → Nat → K) (iel p : Nat) (Ur : Nat → K) (idof : Nat) : Nat → K :=
  let elIdx := GetMultiIndex dim nel1d iel
  let i := (elemDofs.getD iel []).getD idof 0
  let ndIdx := GetMultiIndex dim nve1d i
  Function.update Ur i
    (Ur i + particleW Xp iel p elIdx ndIdx
      * sumAlphaT idxSet (particleT Xp iel p ndIdx) (alpha i) * Xp iel p 0 ^ pOrder)

/-- Lines 146-173: the reconstructed values `Ur[i]`. -/
def reconstruct (idxSet : List (List Nat)) (Xp : Nat → Nat → Nat → K) (alpha : Nat → Nat → K) :
    Nat → K :=
  (List.range nel).foldl
    (fun Ur iel => (List.range (idxSet.length + 5)).foldl
      (fun Ur p => (List.range nDofs).foldl (addReconstruction idxSet Xp alpha iel p) Ur) Ur)
    (fun _ => 0)

/-- Lines 48-51: `aIdx`, the index set `ComputeIndexSet (aIdx, pOrder, dim)`. -/
def aIdx : List (List Nat) := (ComputeIndexSet pOrder dim).getD []

/-- `main` of ex7.cpp as a function of the particle positions: the pairs printed by
lines 176-179, `pow (Xv[ndIdx[0]], pOrder)` and `Ur[i]` for `i = 0 .. nve - 1`, or `none`
when `GaussianElemination` exits at some node. -/
def main (Xp : Nat → Nat → Nat → K) : Option (List (K × K)) :=
  match ComputeIndexSet pOrder dim with
  | none => none
  | some aIdx =>
    match solveNodes aIdx (momentMatrices aIdx Xp) with
    | none => none
    | some alpha =>
      some ((List.range nve).map (fun i =>
        ((Xv K).getD ((GetMultiIndex dim nve1d i).getD 0 0) 0 ^ pOrder,
          reconstruct aIdx Xp alpha i)))

/-- The node `elemDofs[iel][idof]`. -/
def dofOf (iel idof : Nat) : Nat := (elemDofs.getD iel []).getD idof 0

/-- What one turn of the `idof` loop adds to the moment matrices. -/
def momentTerm (idxSet : List (List Nat)) (Xp : Nat → Nat → Nat → K) (iel p idof : Nat) :
    Nat → Nat → Nat → K :=
  fun i k l =>
    if i = dofOf iel idof ∧ k < idxSet.length ∧ l < idxSet.length then
      particleW Xp iel p (GetMultiIndex dim nel1d iel) (GetMultiIndex dim nve1d (dofOf iel idof))
        * TkTl idxSet (particleT Xp iel p (GetMultiIndex dim nve1d (dofOf iel idof))) k l
    else 0

/-- What one turn of the `idof` loop adds to `Ur`. -/
def reconstructionTerm (idxSet : List (List Nat)) (Xp : Nat → Nat → Nat → K)
    (alpha : Nat → Nat → K) (iel p idof : Nat) : Nat → K :=
  fun i =>
    if i = dofOf iel idof then
      particleW Xp iel p (GetMultiIndex dim nel1d iel) (GetMultiIndex dim nve1d (dofOf iel idof))
        * sumAlphaT idxSet (particleT Xp iel p (GetMultiIndex dim nve1d (dofOf iel idof)))
            (alpha (dofOf iel idof))
        * Xp iel p 0 ^ pOrder
    else 0

/-- The accumulated moment matrix `M[i]` of node `i` (its coefficient block, without the
right-hand side column) is non-singular. -/
def nonsingularNode (Xp : Nat → Nat → Nat → K) (i : Nat) : Prop :=
  (coeffMatrix (momentMatrices aIdx Xp i) aIdx.length).det ≠ 0

/-- The coefficients of `(X - h z)^3` in the tensor Chebyshev basis of `aIdx`, `z` being
the first scaled coordinate: rows `(0,0)`, `(1,0)`, `(2,0)`, `(3,0)` are rows `0`, `4`, `7`, `9`. -/
def cubicCoef (X h : K) : Nat → K :=
  fun l =>
    if l = 0 then X ^ 3 + 3 * X * h ^ 2 / 2
    else if l = 4 then -(3 * X ^ 2 * h) - 3 * h ^ 3 / 4
    else if l = 7 then 3 * X * h ^ 2 / 2
    else if l = 9 then -(h ^ 3) / 4
    else 0

end MovingLeastSquares

end ex7

namespace ex7

section SampleRun

/-- Sample particle positions for element `0`: scaled by `-10` they are the ten points
`(a, b)` with `a, b ∈ {0, 2, 3, -2}` taken in a triangular array, followed by five
copies of `(1, 0)`, where the weight vanishes. -/
def sampleParticles : List (List ℚ) :=
  [[0, 0],
   [0, (-1) / 5],
   [0, (-3) / 10],
   [0, 1 / 5],
   [(-1) / 5, 0],
   [(-1) / 5, (-1) / 5],
   [(-1) / 5, (-3) / 10],
   [(-3) / 10, 0],
   [(-3) / 10, (-1) / 5],
   [1 / 5, 0],
   [(-1) / 10, 0],
   [(-1) / 10, 0],
   [(-1) / 10, 0],
   [(-1) / 10, 0],
   [(-1) / 10, 0]]

/-- Sample particle positions: `sampleParticles` in element `0`, the origin elsewhere. -/
def sampleXp : Nat → Nat → Nat → ℚ :=
  fun iel p d => if iel = 0 then (sampleParticles.getD p []).getD d 0 else 0

/-- The moment matrix of node `0` for `sampleXp`. -/
def sampleMoment : List (List ℚ) :=
  [[(-2), 6, 10, 78, 6, 28, 130, 10, 130, 78],
   [6, 4, 42, 52, 28, 68, 316, 130, 316, 604],
   [10, 42, 46, 546, 130, 316, 1542, 622, 1390, 2650],
   [78, 52, 546, 676, 604, 1604, 8188, 2650, 6988, 10972],
   [6, 28, 130, 604, 4, 68, 316, 42, 316, 52],
   [28, 68, 316, 1604, 68, 160, 716, 316, 716, 1604],
   [130, 316, 1542, 8188, 316, 716, 3364, 1390, 3052, 6988],
   [10, 130, 622, 2650, 42, 316, 1390, 46, 1542, 546],
   [130, 316, 1390, 6988, 316, 716, 3052, 1542, 3364, 8188],
   [78, 604, 2650, 10972, 52, 1604, 6988, 546, 8188, 676]]

/-- The inverse of `sampleMoment`. -/
def sampleMomentInverse : List (List ℚ) :=
  [[35 / 64, (-1057) / 3840, (-13) / 128, 23 / 1280, (-1057) / 3840, 53 / 96, (-1) / 24, (-13) / 128, (-1) / 24, 23 / 1280],
   [(-1057) / 3840, (-16949) / 38400, 23 / 3840, 1849 / 115200, (-913) / 11520, 2603 / 5760, (-839) / 11520, 1 / 32, (-37) / 2304, (-11) / 5760],
   [(-13) / 128, 23 / 3840, 1 / 128, (-1) / 3840, 1 / 32, (-1) / 64, (-1) / 384, 1 / 64, 1 / 384, (-1) / 384],
   [23 / 1280, 1849 / 115200, (-1) / 3840, (-83) / 115200, (-11) / 5760, (-37) / 1920, 43 / 11520, (-1) / 384, 1 / 2304, 1 / 2304],
   [(-1057) / 3840, (-913) / 11520, 1 / 32, (-11) / 5760, (-16949) / 38400, 2603 / 5760, (-37) / 2304, 23 / 3840, (-839) / 11520, 1849 / 115200],
   [53 / 96, 2603 / 5760, (-1) / 64, (-37) / 1920, 2603 / 5760, 2 / 9, (-1) / 36, (-1) / 64, (-1) / 36, (-37) / 1920],
   [(-1) / 24, (-839) / 11520, (-1) / 384, 43 / 11520, (-37) / 2304, (-1) / 36, 0, 1 / 384, 1 / 144, 1 / 2304],
   [(-13) / 128, 1 / 32, 1 / 64, (-1) / 384, 23 / 3840, (-1) / 64, 1 / 384, 1 / 128, (-1) / 384, (-1) / 3840],
   [(-1) / 24, (-37) / 2304, 1 / 384, 1 / 2304, (-839) / 11520, (-1) / 36, 1 / 144, (-1) / 384, 0, 43 / 11520],
   [23 / 1280, (-11) / 5760, (-1) / 384, 1 / 2304, 1849 / 115200, (-37) / 1920, 1 / 2304, (-1) / 3840, 43 / 11520, (-83) / 115200]]

/-- A table of rows as a `10 × 10` matrix, `10` being the size of `aIdx`. -/
def tableMatrix (t : List (List ℚ)) : Matrix (Fin 10) (Fin 10) ℚ :=
  Matrix.of fun k l => (t.getD k.val []).getD l.val 0

end SampleRun

end ex7

/-! ## ex6.cpp: the reduced Jacobian and the tangential gradients at a Gauss point

`AssembleInit` (646-688), `AssemblePWillmore` (1174-1215) and `AssemblePWillmore2`
(2489-2521) compute `Jir` and every `*_Xtan` array by the same two loops. -/

section TangentKernel

variable {K : Type} [Field K]

/-- The "reduced Jacobian" `Jir`: `Jir[i][J]` starts at `0` and
`Jir[i][J] += gi[i][k] * solx_uv[J][k]` for `k = 0, 1`. -/
def Jir (solx_uv : Fin 3 → Fin 2 → K) : Fin 2 → Fin 3 → K :=
  fun i J => (List.finRange 2).foldl (fun s k => s + metricInverse solx_uv i k * solx_uv J k) 0

/-- The tangential gradient of a field with `(u, v)` derivatives `f_uv`, on the surface with
tangent vectors `solx_uv`: `f_Xtan[I][J]` starts at `0` and
`f_Xtan[I][J] += f_uv[I][k] * Jir[k][J]` for `k = 0, 1`.  The source applies these lines to
`solx_uv`, `solxNew_uv`, `solxOld_uv`, `solY_uv`, `solW_uv`, ... alike. -/
def Xtan (f_uv solx_uv : Fin 3 → Fin 2 → K) : Fin 3 → Fin 3 → K :=
  fun I J => (List.finRange 2).foldl (fun s k => s + f_uv I k * Jir solx_uv k J) 0

/-- The array `solx_Xtan`: the tangential gradient of the position field itself. -/
def solx_Xtan (solx_uv : Fin 3 → Fin 2 → K) : Fin 3 → Fin 3 → K :=
  Xtan solx_uv solx_uv

/-- A sample field derivative `f_uv`, used with `sampleTangents`. -/
def sampleField (K : Type) [Field K] : Fin 3 → Fin 2 → K :=
  ![![3, -1], ![2, 5], ![0, 4]]

end TangentKernel

/-! ## ex6.cpp: the Lagrange multiplier equations of `AssemblePWillmore` and
`AssemblePWillmore2`

The two routines share these lines word for word (1085-1110 and 2408-2425 for the values at
the Gauss point, 1292-1306 and 2599-2614 for the two equations).  `solx[K][i]` and
`solxOld[K][i]`, `K < 3`, `i < nxDofs`, are the nodal positions at the new and the old time. -/

section ConstraintKernel

variable {K : Type} [Field K]

/-- What the finite element provides at one Gauss point: the weight, the shape functions
`phix[i]` and their derivatives `phix_uv[j][i]`. -/
structure GaussPoint (K : Type) where
  /-- The value `GetGaussWeight (ig)`. -/
  weight : K
  /-- The array `GetPhi (ig)`. -/
  phix : Nat → K
  /-- The arrays `GetDPhiDXi (ig)` and `GetDPhiDEta (ig)`. -/
  phix_uv : Fin 2 → Nat → K

/-- The values `solxNewg` and `solxOldg` (called with `solx` and with `solxOld`):
`solxNewg[K]` starts at `0` and `solxNewg[K] += phix[i] * solx[K][i]` for `i < nxDofs`. -/
def solxNewg (nxDofs : Nat) (phix : Nat → K) (solx : Fin 3 → Nat → K) : Fin 3 → K :=
  fun k => (List.range nxDofs).foldl (fun s i => s + phix i * solx k i) 0

/-- The derivatives `solxNew_uv` and `solxOld_uv` (called with `solx` and with `solxOld`):
`solxNew_uv[K][j] += phix_uv[j][i] * solx[K][i]` for `i < nxDofs`. -/
def solxNew_uv (nxDofs : Nat) (phix_uv : Fin 2 → Nat → K) (solx : Fin 3 → Nat → K) :
    Fin 3 → Fin 2 → K :=
  fun k j => (List.range nxDofs).foldl (fun s i => s + phix_uv j i * solx k i) 0

/-- The midpoint derivatives `solx_uv`:
`solx_uv[K][j] += phix_uv[j][i] * 0.5 * (solx[K][i] + solxOld[K][i])` for `i < nxDofs`. -/
def solxMid_uv (nxDofs : Nat) (phix_uv : Fin 2 → Nat → K) (solx solxOld : Fin 3 → Nat → K) :
    Fin 3 → Fin 2 → K :=
  fun k j => (List.range nxDofs).foldl
    (fun s i => s + phix_uv j i * (1 / 2) * (solx k i + solxOld k i)) 0

/-- The area element `Area = weight * sqrt (detg)`. -/
def Area (sqrt : K → K) (weight : K) (solx_uv : Fin 3 → Fin 2 → K) : K :=
  weight * sqrt (detg solx_uv)

/-- The volume multiplier equation at one Gauss point, inside the loop over `K = 0, 1, 2`:
`if (volumeConstraint) aResLambda1 += ((solxNewg[K] - solxOldg[K]) * normal[K]) * Area`.
The metric, the normal and `Area` are those of the midpoint surface `solx_uv`. -/
def volumeEquation (sqrt : K → K) (volumeConstraint : Bool) (nxDofs : Nat)
    (solx solxOld : Fin 3 → Nat → K) (aResLambda1 : K) (gp : GaussPoint K) : K :=
  let solx_uv := solxMid_uv nxDofs gp.phix_uv solx solxOld
  (List.finRange 3).foldl
    (fun a k =>
      if volumeConstraint then
        a + ((solxNewg nxDofs gp.phix solx k - solxNewg nxDofs gp.phix solxOld k)
              * normal sqrt solx_uv k) * Area sqrt gp.weight solx_uv
      else a)
    aResLambda1

/-- The element value of `aResLambda1`: set to `0` before the Gauss point loop, then
updated at every Gauss point. -/
def aResLambda1 (sqrt : K → K) (volumeConstraint : Bool) (nxDofs : Nat)
    (solx solxOld : Fin 3 → Nat → K) (gauss : List (GaussPoint K)) : K :=
  gauss.foldl (volumeEquation sqrt volumeConstraint nxDofs solx solxOld) 0

/-- The inner sum `term1t` of the area multiplier equation for one `K`:
`term1t += solx_Xtan[K][J] * (solxNew_Xtan[K][J] - solxOld_Xtan[K][J])` for `J = 0, 1, 2`. -/
def term1t (nxDofs : Nat) (solx solxOld : Fin 3 → Nat → K) (gp : GaussPoint K) (k : Fin 3) : K :=
  let solx_uv := solxMid_uv nxDofs gp.phix_uv solx solxOld
  (List.finRange 3).foldl
    (fun t J => t + solx_Xtan solx_uv k J
      * (Xtan (solxNew_uv nxDofs gp.phix_uv solx) solx_uv k J
          - Xtan (solxNew_uv nxDofs gp.phix_uv solxOld) solx_uv k J))
    0

/-- The area multiplier equation at one Gauss point, inside the loop over `K = 0, 1, 2`:
`if (areaConstraint) aResLambda2 += term1t * Area`. -/
def areaEquation (sqrt : K → K) (areaConstraint : Bool) (nxDofs : Nat)
    (solx solxOld : Fin 3 → Nat → K) (aResLambda2 : K) (gp : GaussPoint K) : K :=
  let solx_uv := solxMid_uv nxDofs gp.phix_uv solx solxOld
  (List.finRange 3).foldl
    (fun a k =>
      if areaConstraint then
        a + term1t nxDofs solx solxOld gp k * Area sqrt gp.weight solx_uv
      else a)
    aResLambda2

/-- The tangential gradient `G` of the midpoint position `0.5 * (x_new + x_old)`, in the
words of the specification: the field is differentiated in `(u, v)` with the shape function
derivatives and projected with the `Jir` of the midpoint surface `solx_uv`. -/
def midpointGradient (nxDofs : Nat) (solx solxOld : Fin 3 → Nat → K) (gp : GaussPoint K) :
    Fin 3 → Fin 3 → K :=
  Xtan (solxNew_uv nxDofs gp.phix_uv (fun k i => 1 / 2 * (solx k i + solxOld k i)))
    (solxMid_uv nxDofs gp.phix_uv solx solxOld)

/-- The tangential gradient `D` of the displacement `x_new - x_old`, in the words of the
specification, taken with the same midpoint surface metric. -/
def displacementGradient (nxDofs : Nat) (solx solxOld : Fin 3 → Nat → K) (gp : GaussPoint K) :
    Fin 3 → Fin 3 → K :=
  Xtan (solxNew_uv nxDofs gp.phix_uv (fun k i => solx k i - solxOld k i))
    (solxMid_uv nxDofs gp.phix_uv solx solxOld)

/-- Nodes of a flat triangle, `(0, 0, 0)`, `(1, 0, 0)`, `(0, 1, 0)`: entry `[K][i]` is
coordinate `K` of node `i`. -/
def sampleNodes (K : Type) [Field K] : Fin 3 → Nat → K :=
  fun k i => (([[0, 1, 0], [0, 0, 1], [0, 0, 0]] : List (List K)).getD k.val []).getD i 0

/-- The same triangle with its third node lifted to `(0, 1, 1)`. -/
def sampleNodesOld (K : Type) [Field K] : Fin 3 → Nat → K :=
  fun k i => (([[0, 1, 0], [0, 0, 1], [0, 0, 1]] : List (List K)).getD k.val []).getD i 0

/-- The centroid rule of the linear triangle: weight `1 / 2`, `phix = (1/3, 1/3, 1/3)`,
`phix_u = (-1, 1, 0)`, `phix_v = (-1, 0, 1)`. -/
def sampleGauss (K : Type) [Field K] : GaussPoint K where
  weight := 1 / 2
  phix := fun _ => 1 / 3
  phix_uv := fun j i => (([[-1, 1, 0], [-1, 0, 1]] : List (List K)).getD j.val []).getD i 0

end ConstraintKernel

/-! ## ex7.cpp: `GaussianElemination` with its exit state and its divisors

The same lines 200-237 as `GaussianElemination` above, read once more with the whole program
state in view: the matrix `A`, the output vector `x`, and a record of every divisor at the
moment it is used.  `exit (0)` is the result `Except.error`, carrying the state in which the
routine stops. -/

section GaussianEleminationLog

variable {K : Type} [Field K] [DecidableEq K]

/-- The program state of `GaussianElemination`, with the divisors used so far (in the order
of use). -/
structure GEState (K : Type) where
  /-- The augmented matrix `A`. -/
  A : Nat → Nat → K
  /-- The output vector `x`. -/
  x : Nat → K
  /-- The divisors used so far. -/
  divisors : List K

/-- Lines 218-221 for one row `j`: the division `A[j][i] / A[i][i]` of `mji` is recorded,
then row `j` is reduced. -/
def elimRowLog (n i : Nat) (s : GEState K) (j : Nat) : GEState K :=
  { A := elimRow s.A n i j, x := s.x, divisors := s.divisors ++ [s.A i i] }

/-- The loop of line 217 over `j = i + 1 .. n - 1`. -/
def elimBelowLog (n i : Nat) (s : GEState K) : GEState K :=
  (List.range' (i + 1) (n - (i + 1))).foldl (elimRowLog n i) s

/-- One pass of the outer loop body (lines 201-222) for column `i`; the singular exit of
line 206 returns the state unchanged as an error. -/
def elimStepLog (n : Nat) (s : GEState K) (i : Nat) : Except (GEState K) (GEState K) :=
  match findPivot s.A n i i with
  | none => Except.error s
  | some p =>
    Except.ok (elimBelowLog n i
      { A := if p ≠ i then swapRows s.A n i p else s.A, x := s.x, divisors := s.divisors })

/-- The elimination loop of lines 200-223. -/
def forwardElimLog (n : Nat) (s : GEState K) : Except (GEState K) (GEState K) :=
  (List.range (n - 1)).foldlM (elimStepLog n) s

/-- Lines 231-235 for one row `i`; the division `x[i] /= A[i][i]` is recorded. -/
def backSubstRowLog (n : Nat) (s : GEState K) (i : Nat) : GEState K :=
  { A := s.A, x := backSubstRow s.A n s.x i, divisors := s.divisors ++ [s.A i i] }

/-- `GaussianElemination (A, x)` of ex7.cpp with the exit state and the divisors: an error
carries the state at `exit (0)`, a normal return the final state. -/
def GaussianEleminationLog (A : Nat → Nat → K) (n : Nat) (x : Nat → K) :
    Except (GEState K) (GEState K) :=
  match forwardElimLog n { A := A, x := x, divisors := [] } with
  | Except.error s => Except.error s
  | Except.ok s =>
    if s.A (n - 1) (n - 1) = 0 then Except.error s
    else
      let s0 : GEState K :=
        { A := s.A
          x := Function.update s.x (n - 1) (s.A (n - 1) n / s.A (n - 1) (n - 1))
          divisors := s.divisors ++ [s.A (n - 1) (n - 1)] }
      Except.ok ((List.range (n - 1)).reverse.foldl (backSubstRowLog n) s0)

/-- The state in which the routine stops, at `exit (0)` or at its normal return. -/
def exitState (r : Except (GEState K) (GEState K)) : GEState K :=
  match r with
  | Except.error s => s
  | Except.ok s => s

end GaussianEleminationLog

/-! ## 00_laplacian_all_dims.cpp: the element loop body of `AssembleProblem`

Lines 286-361 for one element with `nDof_u` local unknowns.  The quadrature data of lines
303-305 (`weight = detJac_qp * GaussWeights[ig]`, `phi_u[i]`, `phi_u_x[i * space_dim + d]`) is
what the framework hands over at each Gauss point; numbers are read in an exact field `K`
instead of `double`.  With one scalar unknown, `nDof_AllVars = nDof_max = nDof_u`. -/

section Laplacian

variable {K : Type} [Field K]

/-- The constant `space_dim = 3` of line 207. -/
def space_dim : Nat := 3

/-- The quadrature data at one Gauss point. -/
structure QuadraturePoint (K : Type) where
  /-- The product `detJac_qp * GaussWeights[ig]` of line 305. -/
  weight : K
  /-- The shape functions `phi_u[i]`. -/
  phi_u : Nat → K
  /-- The shape function gradients `phi_u_x[i * space_dim + d]`. -/
  phi_u_x : Nat → K

/-- The local arrays `Res` and `Jac` of one element. -/
structure LocalSystem (K : Type) where
  /-- The local residual `Res[i]`. -/
  Res : Nat → K
  /-- The local matrix `Jac[i * nDof_AllVars + j]`. -/
  Jac : Nat → K

/-- Lines 313-318: `sol_u_x_gss` is filled with `0.`, then
`sol_u_x_gss[d] += sol_u[i] * phi_u_x[i * space_dim + d]` for `i < nDof_u`, `d < space_dim`.
(The scalar `sol_u_gss` of line 316 is accumulated too but never read.) -/
def sol_u_x_gss (nDof_u : Nat) (sol_u : Nat → K) (qp : QuadraturePoint K) : Nat → K :=
  (List.range nDof_u).foldl
    (fun g i => (List.range space_dim).foldl
      (fun g d => Function.update g d (g d + sol_u i * qp.phi_u_x (i * space_dim + d))) g)
    (fun _ => 0)

/-- Lines 326-329: `laplace_res_du_u_i` starts at `0.` and, for `kdim < space_dim`,
`if (i < nDof_u) laplace_res_du_u_i += phi_u_x[i * space_dim + kdim] * sol_u_x_gss[kdim]`. -/
def laplace_res_du_u_i (nDof_u : Nat) (gss : Nat → K) (qp : QuadraturePoint K) (i : Nat) : K :=
  (List.range space_dim).foldl
    (fun s kdim => if i < nDof_u then s + qp.phi_u_x (i * space_dim + kdim) * gss kdim else s) 0

/-- Lines 344-349: `laplace_mat_du_u` starts at `0.` and, for `kdim < space_dim`,
`if (i < nDof_u && j < nDof_u)
laplace_mat_du_u += phi_u_x[i * space_dim + kdim] * phi_u_x[j * space_dim + kdim]`. -/
def laplace_mat_du_u (nDof_u : Nat) (qp : QuadraturePoint K) (i j : Nat) : K :=
  (List.range space_dim).foldl
    (fun s kdim =>
      if i < nDof_u ∧ j < nDof_u then
        s + qp.phi_u_x (i * space_dim + kdim) * qp.phi_u_x (j * space_dim + kdim)
      else s) 0

/-- Line 335:
`if (i < nDof_u) Res[0 + i] += - weight * (phi_u[i] * (-1.) - laplace_res_du_u_i)`. -/
def residualRow (nDof_u : Nat) (sol_u : Nat → K) (qp : QuadraturePoint K) (Res : Nat → K)
    (i : Nat) : Nat → K :=
  if i < nDof_u then
    Function.update Res i (Res i + -qp.weight
      * (qp.phi_u i * (-1) - laplace_res_du_u_i nDof_u (sol_u_x_gss nDof_u sol_u qp) qp i))
  else Res

/-- Lines 338-357: when `assembleMatrix`, for `j < nDof_max`,
`if (i < nDof_u && j < nDof_u) Jac[(0 + i) * nDof_AllVars + (0 + j)] += weight * laplace_mat_du_u`. -/
def jacobianRow (assembleMatrix : Bool) (nDof_u : Nat) (qp : QuadraturePoint K) (Jac : Nat → K)
    (i : Nat) : Nat → K :=
  if assembleMatrix then
    (List.range nDof_u).foldl
      (fun J j =>
        if i < nDof_u ∧ j < nDof_u then
          Function.update J (i * nDof_u + j)
            (J (i * nDof_u + j) + qp.weight * laplace_mat_du_u nDof_u qp i j)
        else J) Jac
  else Jac

/-- The `phi_i` loop (lines 323-359) at one Gauss point. -/
def gaussPoint (assembleMatrix : Bool) (nDof_u : Nat) (sol_u : Nat → K) (loc : LocalSystem K)
    (qp : QuadraturePoint K) : LocalSystem K :=
  (List.range nDof_u).foldl
    (fun l i =>
      { Res := residualRow nDof_u sol_u qp l.Res i
        Jac := jacobianRow assembleMatrix nDof_u qp l.Jac i }) loc

/-- The local system of one element: `Res` and `Jac` are filled with `0.` (lines 289-290),
then every Gauss point adds its part (lines 300-361). -/
def elementSystem (assembleMatrix : Bool) (nDof_u : Nat) (sol_u : Nat → K)
    (gauss : List (QuadraturePoint K)) : LocalSystem K :=
  gauss.foldl (gaussPoint assembleMatrix nDof_u sol_u) { Res := fun _ => 0, Jac := fun _ => 0 }

/-- The weak form residual in the words of the specification, the negated quadrature of
`grad u . grad phi_i - f * phi_i` with `f = 1`:
`sum over Gauss points of weight * (phi_u[i] - sum_k phi_u_x[i][k] * sol_u_x_gss[k])`. -/
def weakFormResidual (nDof_u : Nat) (sol_u : Nat → K) (gauss : List (QuadraturePoint K))
    (i : Nat) : K :=
  (gauss.map fun qp => qp.weight * (qp.phi_u i
    - ∑ k in Finset.range space_dim,
        qp.phi_u_x (i * space_dim + k) * sol_u_x_gss nDof_u sol_u qp k)).sum

/-- The product `Jac * sol_u` of the local matrix with the local solution vector, row `i`. -/
def jacTimes (nDof_u : Nat) (Jac : Nat → K) (sol_u : Nat → K) (i : Nat) : K :=
  ∑ j in Finset.range nDof_u, Jac (i * nDof_u + j) * sol_u j

/-- One Gauss point of weight `1` on an element with a single unknown: `phi_u = (1)`,
`grad phi_u = (1, 0, 0)`. -/
def sampleQuadrature (K : Type) [Field K] : QuadraturePoint K where
  weight := 1
  phi_u := fun _ => 1
  phi_u_x := fun k => if k = 0 then 1 else 0

end Laplacian

/-! ## The global system `(KK, RES)` and the five assembly routines

Every routine has the same frame: optional `zero ()` calls, an element loop that adds each
local block with `add_vector_blocked` / `add_matrix_blocked`, and `close ()`.  The global
matrix is a function of (row, column), the global vector a function of the index. -/

section GlobalAssembly

variable {K : Type} [Field K]

/-- The global matrix `KK` and the global residual `RES`. -/
structure GlobalSystem (K : Type) where
  /-- The sparse matrix `KK`, by (row, column). -/
  KK : Nat → Nat → K
  /-- The vector `RES`. -/
  RES : Nat → K

/-- A local block ready for the scatter: the map `SYSDOF` (`l2GMap_AllVars` in the
Laplacian), the local vector `Res` and the local matrix `Jac`, stored by rows of length
`SYSDOF.size ()`. -/
structure LocalBlock (K : Type) where
  /-- The global index of every local unknown. -/
  SYSDOF : List Nat
  /-- The local residual. -/
  Res : Nat → K
  /-- The local matrix, entry `(i, j)` at `i * SYSDOF.size () + j`. -/
  Jac : Nat → K

/-- Modelled from the spec: the framework call `RES->add_vector_blocked (Res, SYSDOF)`
("accumulates into the global residual vector", accumulate semantics): for every local index
`i`, `RES[SYSDOF[i]] += Res[i]`. -/
def add_vector_blocked (RES : Nat → K) (Res : Nat → K) (SYSDOF : List Nat) : Nat → K :=
  (List.range SYSDOF.length).foldl
    (fun R i => Function.update R (SYSDOF.getD i 0) (R (SYSDOF.getD i 0) + Res i)) RES

/-- Modelled from the spec: the framework call `KK->add_matrix_blocked (Jac, rows, columns)`
(accumulate semantics): for every local pair `(i, j)`,
`KK[rows[i]][columns[j]] += Jac[i * columns.size () + j]`. -/
def add_matrix_blocked (KK : Nat → Nat → K) (Jac : Nat → K) (rows columns : List Nat) :
    Nat → Nat → K :=
  (List.range rows.length).foldl
    (fun M i => (List.range columns.length).foldl
      (fun M j => setEntry M (rows.getD i 0) (columns.getD j 0)
        (M (rows.getD i 0) (columns.getD j 0) + Jac (i * columns.length + j))) M) KK

/-- Modelled from the spec: the framework call `KK->zero ()` sets every entry of the global
matrix to zero. -/
def KK_zero (sys : GlobalSystem K) : GlobalSystem K :=
  { KK := fun _ _ => 0, RES := sys.RES }

/-- Modelled from the spec: the framework call `RES->zero ()` sets every entry of the global
vector to zero.  (`close ()` finalises the accumulation and changes no entry.) -/
def RES_zero (sys : GlobalSystem K) : GlobalSystem K :=
  { KK := sys.KK, RES := fun _ => 0 }

/-- The two scatter calls at the end of an element of ex6.cpp:
`RES->add_vector_blocked (Res, SYSDOF)` and `KK->add_matrix_blocked (Jac, SYSDOF, SYSDOF)`. -/
def scatter (sys : GlobalSystem K) (b : LocalBlock K) : GlobalSystem K :=
  { KK := add_matrix_blocked sys.KK b.Jac b.SYSDOF b.SYSDOF
    RES := add_vector_blocked sys.RES b.Res b.SYSDOF }

/-- `AssembleInit` of ex6.cpp on the global system: `KK->zero (); RES->zero ();` (lines
457-458), then the element loop.  `blocks` holds, element by element, the local block the
routine computes from the field values. -/
def AssembleInit (blocks : List (LocalBlock K)) (sys : GlobalSystem K) : GlobalSystem K :=
  blocks.foldl scatter (RES_zero (KK_zero sys))

/-- `AssembleO2ConformalMinimization` of ex6.cpp on the global system: `KK->zero ();
RES->zero ();` (lines 1546-1547), then the element loop. -/
def AssembleO2ConformalMinimization (blocks : List (LocalBlock K)) (sys : GlobalSystem K) :
    GlobalSystem K :=
  blocks.foldl scatter (RES_zero (KK_zero sys))

/-- The rows added before the element loop of `AssemblePWillmore` and `AssemblePWillmore2`
(lines 921-932 and 2237-2248): for every listed row dof `r`,
`KK->add_matrix_blocked (value, row, columns)` with `value = (1, -1)`, `row = (r)` and
`columns = (r, c)`. -/
def multiplierRows (rows : List Nat) (c : Nat) (sys : GlobalSystem K) : GlobalSystem K :=
  { KK := rows.foldl
      (fun M r => add_matrix_blocked M (fun k => if k = 0 then 1 else -1) [r] [r, c]) sys.KK
    RES := sys.RES }

/-- `AssemblePWillmore` of ex6.cpp on the global system: `KK->zero (); RES->zero ();` (lines
876-877), the multiplier rows, then the element loop. -/
def AssemblePWillmore (rows : List Nat) (c : Nat) (blocks : List (LocalBlock K))
    (sys : GlobalSystem K) : GlobalSystem K :=
  blocks.foldl scatter (multiplierRows rows c (RES_zero (KK_zero sys)))

/-- `AssemblePWillmore2` of ex6.cpp on the global system: `KK->zero (); RES->zero ();` (lines
2192-2193), the multiplier rows, then the element loop. -/
def AssemblePWillmore2 (rows : List Nat) (c : Nat) (blocks : List (LocalBlock K))
    (sys : GlobalSystem K) : GlobalSystem K :=
  blocks.foldl scatter (multiplierRows rows c (RES_zero (KK_zero sys)))

/-- What `AssembleProblem` reads for one element of the Laplacian: the local solution
`sol_u`, the map `l2GMap_u` and the quadrature data. -/
structure LaplaceElement (K : Type) where
  /-- The map `l2GMap_u`; its length is `nDof_u`. -/
  l2GMap_u : List Nat
  /-- The local solution `sol_u`. -/
  sol_u : Nat → K
  /-- The quadrature data of the element. -/
  gauss : List (QuadraturePoint K)

/-- One pass of the element loop of `AssembleProblem` (lines 267-370): the local system, then
`RES->add_vector_blocked (Res, l2GMap_AllVars)` and, `if (assembleMatrix)`,
`KK->add_matrix_blocked (Jac, l2GMap_AllVars, l2GMap_AllVars)`. -/
def laplaceElementStep (assembleMatrix : Bool) (sys : GlobalSystem K) (e : LaplaceElement K) :
    GlobalSystem K :=
  let loc := elementSystem assembleMatrix e.l2GMap_u.length e.sol_u e.gauss
  { KK := if assembleMatrix then add_matrix_blocked sys.KK loc.Jac e.l2GMap_u e.l2GMap_u
          else sys.KK
    RES := add_vector_blocked sys.RES loc.Res e.l2GMap_u }

/-- `AssembleProblem` of 00_laplacian_all_dims.cpp on the global system:
`if (assembleMatrix) KK->zero ();` (line 249; `RES` is not zeroed), then the element loop. -/
def AssembleProblem (assembleMatrix : Bool) (elements : List (LaplaceElement K))
    (sys : GlobalSystem K) : GlobalSystem K :=
  elements.foldl (laplaceElementStep assembleMatrix)
    (if assembleMatrix then KK_zero sys else sys)

/-- The global system with every entry zero. -/
def zeroSystem (K : Type) [Field K] : GlobalSystem K :=
  { KK := fun _ _ => 0, RES := fun _ => 0 }

/-- A mesh of one element with a single unknown, global index `0`, `sol_u = (0)`, and the
sample quadrature point. -/
def sampleMesh (K : Type) [Field K] : List (LaplaceElement K) :=
  [{ l2GMap_u := [0], sol_u := fun _ => 0, gauss := [sampleQuadrature K] }]

end GlobalAssembly

/-! ## ex6.cpp: the equation for `W` in `AssembleInit`, and the local layout of
`AssemblePWillmore` / `AssemblePWillmore2` -/

section CurvatureInit

variable {K : Type} [LinearOrderedField K]

/-- The exponents `const unsigned P[3] = {2, 3, 4}` of line 30. -/
def P : Fin 3 → Nat := ![2, 3, 4]

/-- The coefficients `const double ap[3] = {1, 0., 0.}` of line 31. -/
def ap : Fin 3 → K := ![1, 0, 0]

/-- Lines 611-616: `YdotN` starts at `0.` and `YdotN += solYg[K] * normal[K]`. -/
def YdotN (solYg normal : Fin 3 → K) : K :=
  (List.finRange 3).foldl (fun s k => s + solYg k * normal k) 0

/-- Lines 611-616: `YdotY` starts at `0.` and `YdotY += solYg[K] * solYg[K]`. -/
def YdotY (solYg : Fin 3 → K) : K :=
  (List.finRange 3).foldl (fun s k => s + solYg k * solYg k) 0

/-- Line 618: `signYdotN = (YdotN.value () >= 0.) ? 1. : -1.`. -/
def signYdotN (solYg normal : Fin 3 → K) : K :=
  if YdotN solYg normal ≥ 0 then 1 else -1

/-- Lines 620-624: `sumP1` starts at `0.` and, for `p = 0, 1, 2`, with
`signP = (P[p] % 2u == 0) ? 1. : signYdotN`,
`sumP1 += signP * ap[p] * P[p] * pow (YdotY, (P[p] - 2.) / 2.)`.  The library function
`pow` of the number type is a parameter. -/
def sumP1 (pow : K → K → K) (solYg normal : Fin 3 → K) : K :=
  (List.finRange 3).foldl
    (fun s p =>
      let signP : K := if P p % 2 = 0 then 1 else signYdotN solYg normal
      s + signP * ap p * (P p : K) * pow (YdotY solYg) (((P p : K) - 2) / 2))
    0

/-- Line 707, what one Gauss point adds to `aResW[K][i]`:
`(solWg[K] - sumP1 * solYg[K]) * phiW[i] * weight`. -/
def aResW (pow : K → K → K) (solWg solYg normal : Fin 3 → K) (phiW_i weight : K) (k : Fin 3) :
    K :=
  (solWg k - sumP1 pow solYg normal * solYg k) * phiW_i * weight

end CurvatureInit

section LocalLayout

/-- The local unknowns of one element of `AssemblePWillmore` / `AssemblePWillmore2`:
`solx[K][i]`, `solY[K][i]`, `solW[K][i]` and the two multipliers (the residuals `aResx[K][i]`,
`aResY[K][i]`, `aResW[K][i]`, `aResLambda1`, `aResLambda2` are named alike). -/
inductive LocalUnknown where
  | x (K i : Nat)
  | Y (K i : Nat)
  | W (K i : Nat)
  | Lambda1
  | Lambda2

/-- The size `sizeAll = DIM * (nxDofs + nYDofs + nWDofs) + volumeConstraint + areaConstraint`
with `DIM = 3`; a `bool` counts as `0` or `1`. -/
def sizeAll (nxDofs nYDofs nWDofs : Nat) (volumeConstraint areaConstraint : Bool) : Nat :=
  3 * (nxDofs + nYDofs + nWDofs) + volumeConstraint.toNat + areaConstraint.toNat

/-- The index at which `SYSDOF` and `Res` hold each unknown (lines 2295-2349 and 2632-2656):
`K * nxDofs + i`, `DIM * nxDofs + K * nYDofs + i`, `DIM * (nxDofs + nYDofs) + K * nWDofs + i`,
`sizeAll - 1u - areaConstraint` and `sizeAll - 1u`.  The two subtractions are evaluated only
when the multiplier is enabled, where they do not wrap. -/
def position (nxDofs nYDofs nWDofs : Nat) (volumeConstraint areaConstraint : Bool) :
    LocalUnknown → Nat
  | LocalUnknown.x K i => K * nxDofs + i
  | LocalUnknown.Y K i => 3 * nxDofs + K * nYDofs + i
  | LocalUnknown.W K i => 3 * (nxDofs + nYDofs) + K * nWDofs + i
  | LocalUnknown.Lambda1 =>
    sizeAll nxDofs nYDofs nWDofs volumeConstraint areaConstraint - 1 - areaConstraint.toNat
  | LocalUnknown.Lambda2 =>
    sizeAll nxDofs nYDofs nWDofs volumeConstraint areaConstraint - 1

/-- The order in which the unknowns are declared to the tape (lines 2677-2695; the residuals
are declared in the same order, lines 2663-2677): `s.independent (&solx[K][0], nxDofs)` for
`K = 0, 1, 2`, then `solY`, then `solW`, then `solLambda1` if `volumeConstraint`, then
`solLambda2` if `areaConstraint`. -/
def tapeOrder (nxDofs nYDofs nWDofs : Nat) (volumeConstraint areaConstraint : Bool) :
    List LocalUnknown :=
  ((List.range 3).flatMap fun K => (List.range nxDofs).map (LocalUnknown.x K))
    ++ ((List.range 3).flatMap fun K => (List.range nYDofs).map (LocalUnknown.Y K))
    ++ ((List.range 3).flatMap fun K => (List.range nWDofs).map (LocalUnknown.W K))
    ++ (if volumeConstraint then [LocalUnknown.Lambda1] else [])
    ++ (if areaConstraint then [LocalUnknown.Lambda2] else [])

end LocalLayout



/-! ## ex7.cpp: `GetChebyshev` with every element access checked

The same lines 299-305, with `T[i]` read as an access that is defined only for
`i < T.size ()`: a read or write outside the vector gives `none`. -/

section GetChebyshevChecked

variable {K : Type} [CommRing K]

/-- The write `T[i] = v`, defined only inside the vector. -/
def writeAt (T : List K) (i : Nat) (v : K) : Option (List K) :=
  if i < T.length then some (T.set i v) else none

/-- Line 304: `T[i] = 2 * x * T[i - 1] - T[i - 2]`, with its two reads and its write. -/
def chebyshevStep (x : K) (T : List K) (i : Nat) : Option (List K) :=
  match T[i - 1]?, T[i - 2]? with
  | some a, some b => writeAt T i (2 * x * a - b)
  | _, _ => none

/-- `GetChebyshev (T, n, x)` of ex7.cpp (lines 299-305) with checked accesses:
`T.resize (n + 1); T[0] = 1; T[1] = x; for (i = 2; i < n + 1; i++) T[i] = ...`.
The result is `none` as soon as an access falls outside the vector. -/
def GetChebyshevChecked (T : List K) (n : Nat) (x : K) : Option (List K) :=
  match writeAt (resize T (n + 1)) 0 1 with
  | none => none
  | some T1 =>
    match writeAt T1 1 x with
    | none => none
    | some T2 => (List.range' 2 (n + 1 - 2)).foldlM (chebyshevStep x) T2

end GetChebyshevChecked

/-! ## ex7.cpp: `ComputeIndexSet` with the accesses of the carry loop and of `Jp` checked

The same lines 264-292.  `counters` has `dimension + 1` entries and `Jp` has `dimJp` rows; a
read of `counters[i]` past `counters[dimension]` or a write of a row `Jp[index]` with
`index >= dimJp` ends the run as `Run.outOfBounds`. -/

/-- How a run with checked accesses ends. -/
inductive Run (α : Type) where
  | done (a : α)
  | outOfBounds
  | outOfFuel

/-- Lines 287-291 with the read `counters[i]` checked.  The list is
`counters[i], counters[i + 1], ...`; the empty list means `i` is past `counters[dimension]`. -/
def advanceCountersChecked (degree : Nat) : List Nat → Option (List Nat)
  | [] => none
  | c :: cs =>
    if c = degree then (advanceCountersChecked degree cs).map (fun t => 0 :: t)
    else some ((c + 1) :: cs)

/-- The `while (!counters[dimension])` loop of lines 268-292 with checked accesses; `Jp` is
the list of rows written so far, so the next row goes to `Jp[Jp.length]`, which exists only
if `Jp.length < dimJp`.  (The reads `counters[dimension]`, `counters[j]` and
`counters[dimension - 1 - j]`, `j < dimension`, have indices `<= dimension` as written.) -/
def indexSetLoopChecked (degree dimension : Nat) :
    Nat → List Nat → List (List Nat) → Run (List (List Nat))
  | 0, _, _ => Run.outOfFuel
  | fuel + 1, counters, Jp =>
    if counters.getD dimension 0 ≠ 0 then Run.done Jp
    else if entrySum dimension counters ≤ degree ∧ dimJp degree dimension ≤ Jp.length then
      Run.outOfBounds
    else
      let Jp' := if entrySum dimension counters ≤ degree
        then Jp ++ [indexRow dimension counters] else Jp
      match advanceCountersChecked degree counters with
      | none => Run.outOfBounds
      | some counters' => indexSetLoopChecked degree dimension fuel counters' Jp'

/-- `ComputeIndexSet (Jp, degree, dimension)` with checked accesses, started as the source
starts it and with the fuel of `ComputeIndexSet`. -/
def ComputeIndexSetChecked (degree dimension : Nat) : Run (List (List Nat)) :=
  indexSetLoopChecked degree dimension ((degree + 1) ^ dimension + 1)
    (List.replicate (dimension + 1) 0) []

/-! ## ex6.cpp: `ChangeTriangleConfiguration1`, `ChangeTriangleConfiguration2` and the
reference triangle of `AssembleO2ConformalMinimization`

`ENVN[j]` is the number of elements around vertex `j`, `angle[j]` the angle assigned to it.
Numbers are read in an exact field; the constant `M_PI` and the library functions `sin`,
`tan`, `sqrt` are parameters. -/

section TriangleConfiguration

variable {K : Type} [Field K]

/-- `ChangeTriangleConfiguration1 (ENVN, angle)` of ex6.cpp (lines 1996-2038): the vector
left in `angle`.  `scale` is computed before the two entries are multiplied by it; when no
branch applies `angle` is returned as it came. -/
def ChangeTriangleConfiguration1 (pi : K) (ENVN : Fin 3 → Nat) (angle : Fin 3 → K) :
    Fin 3 → K :=
  if ENVN 0 < ENVN 1 ∧ ENVN 0 < ENVN 2 then
    let scale := (pi - angle 0) / (angle 1 + angle 2)
    ![angle 0, angle 1 * scale, angle 2 * scale]
  else if ENVN 0 < ENVN 1 ∧ ENVN 0 = ENVN 2 then
    ![angle 0, pi - 2 * angle 0, angle 2]
  else if ENVN 0 ≤ ENVN 1 ∧ ENVN 0 > ENVN 2 then
    let scale := (pi - angle 2) / (angle 1 + angle 0)
    ![angle 0 * scale, angle 1 * scale, angle 2]
  else if ENVN 0 = ENVN 1 ∧ ENVN 0 < ENVN 2 then
    ![angle 0, angle 1, pi - 2 * angle 0]
  else if ENVN 0 = ENVN 1 ∧ ENVN 0 = ENVN 2 then
    ![pi / 3, pi / 3, pi / 3]
  else if ENVN 0 > ENVN 1 ∧ ENVN 0 ≤ ENVN 2 then
    let scale := (pi - angle 1) / (angle 0 + angle 2)
    ![angle 0 * scale, angle 1, angle 2 * scale]
  else if ENVN 0 > ENVN 1 ∧ ENVN 0 > ENVN 2 then
    if ENVN 1 < ENVN 2 then
      let scale := (pi - angle 1) / (angle 0 + angle 2)
      ![angle 0 * scale, angle 1, angle 2 * scale]
    else if ENVN 1 = ENVN 2 then
      ![pi - 2 * angle 1, angle 1, angle 2]
    else if ENVN 1 > ENVN 2 then
      let scale := (pi - angle 2) / (angle 0 + angle 1)
      ![angle 0 * scale, angle 1 * scale, angle 2]
    else angle
  else angle

/-- The conditions of the branches of `ChangeTriangleConfiguration1`, in source order, the
last branch split into its three inner branches. -/
def branchConditions1 (ENVN : Fin 3 → Nat) : List Bool :=
  [decide (ENVN 0 < ENVN 1 ∧ ENVN 0 < ENVN 2),
   decide (ENVN 0 < ENVN 1 ∧ ENVN 0 = ENVN 2),
   decide (ENVN 0 ≤ ENVN 1 ∧ ENVN 0 > ENVN 2),
   decide (ENVN 0 = ENVN 1 ∧ ENVN 0 < ENVN 2),
   decide (ENVN 0 = ENVN 1 ∧ ENVN 0 = ENVN 2),
   decide (ENVN 0 > ENVN 1 ∧ ENVN 0 ≤ ENVN 2),
   decide ((ENVN 0 > ENVN 1 ∧ ENVN 0 > ENVN 2) ∧ ENVN 1 < ENVN 2),
   decide ((ENVN 0 > ENVN 1 ∧ ENVN 0 > ENVN 2) ∧ ENVN 1 = ENVN 2),
   decide ((ENVN 0 > ENVN 1 ∧ ENVN 0 > ENVN 2) ∧ ENVN 1 > ENVN 2)]

/-- Lines 2042-2053 of `ChangeTriangleConfiguration2`: the value of `type`, initially `3`. -/
def leadingType (ENVN : Fin 3 → Nat) : Nat :=
  if ENVN 0 < ENVN 1 then
    if ENVN 0 < ENVN 2 then 0
    else if ENVN 0 > ENVN 2 then 2
    else 3
  else if ENVN 0 > ENVN 1 then
    if ENVN 1 < ENVN 2 then 1
    else if ENVN 1 > ENVN 2 then 2
    else 3
  else
    if ENVN 0 > ENVN 2 then 2 else 3

/-- `ChangeTriangleConfiguration2 (ENVN, angle)` of ex6.cpp (lines 2041-2077): the vector
left in `angle`. -/
def ChangeTriangleConfiguration2 (pi : K) (ENVN : Fin 3 → Nat) (angle : Fin 3 → K) :
    Fin 3 → K :=
  if leadingType ENVN = 0 then
    let scale := (pi - angle 0) / (angle 1 + angle 2)
    ![angle 0, angle 1 * scale, angle 2 * scale]
  else if leadingType ENVN = 1 then
    let scale := (pi - angle 1) / (angle 0 + angle 2)
    ![angle 0 * scale, angle 1, angle 2 * scale]
  else if leadingType ENVN = 2 then
    let scale := (pi - angle 2) / (angle 1 + angle 0)
    ![angle 0 * scale, angle 1 * scale, angle 2]
  else
    let scale := pi / (angle 0 + angle 1 + angle 2)
    ![angle 0 * scale, angle 1 * scale, angle 2 * scale]

/-- Line 1623, the angles the caller passes: `angle[j] = 2 * M_PI / ENVN[j]`. -/
def initialAngle (pi : K) (ENVN : Fin 3 → Nat) : Fin 3 → K :=
  fun j => 2 * pi / (ENVN j : K)

/-- Lines 1616 and 1637-1644 for a triangle: the reference triangle `xT` rebuilt from
`angle[0]` and `angle[1]`.  `xT[0][0] = -0.5`, `xT[1][0] = 0.` and `xT[1][1] = 0.` keep the
values of lines 1470-1476; `xT[0][1]` is reset to `0.5` first. -/
def referenceTriangle (sin tan sqrt : K → K) (angle : Fin 3 → K) : Fin 2 → Fin 3 → K :=
  let xT00 : K := -(1 / 2)
  let xT01 : K := 1 / 2
  let l := xT01 - xT00
  let d := l * sin (angle 0) * sin (angle 1) / sin (angle 0 + angle 1)
  let scale := sqrt ((sqrt 3 / 2) / (l * d))
  let l' := l * scale
  let d' := d * scale
  ![![xT00, xT00 + l', xT00 + d' / tan (angle 0)], ![0, 0, d']]

end TriangleConfiguration

/-! ## ex6.cpp: the surface diagnostic of `AssemblePWillmore` and `AssemblePWillmore2`

Lines 1310-1312 and 2617-2619 are the same: at the end of every Gauss point,
`for (K = 0; K < DIM; K++) surface += Area.value ();`. -/

section SurfaceDiagnostic

variable {K : Type} [Field K]

/-- One element as the diagnostic reads it: the nodal positions at the new and the old
time and the quadrature data. -/
structure SurfaceElement (K : Type) where
  /-- The number of nodes `nxDofs`. -/
  nxDofs : Nat
  /-- The positions `solx[K][i]`. -/
  solx : Fin 3 → Nat → K
  /-- The positions `solxOld[K][i]`. -/
  solxOld : Fin 3 → Nat → K
  /-- The Gauss points of the element. -/
  gauss : List (GaussPoint K)

/-- Lines 2617-2619 at one Gauss point: `for (K = 0; K < DIM; K++) surface += Area.value ()`,
with `Area = weight * sqrt (detg)` of the midpoint surface. -/
def surfaceGaussPoint (sqrt : K → K) (e : SurfaceElement K) (surface : K) (gp : GaussPoint K) :
    K :=
  (List.finRange 3).foldl
    (fun s _ => s + Area sqrt gp.weight (solxMid_uv e.nxDofs gp.phix_uv e.solx e.solxOld))
    surface

/-- The accumulator `surface` after the element loop: `0.` at line 2252 (936 in `AssemblePWillmore`), then updated at
every Gauss point of every element. -/
def surface (sqrt : K → K) (elements : List (SurfaceElement K)) : K :=
  elements.foldl (fun s e => e.gauss.foldl (surfaceGaussPoint sqrt e) s) 0

/-- The computed surface area in the words of the specification: the sum over all elements
and Gauss points of the area element `Area = weight * sqrt (detg)`, each Gauss point
counted once. -/
def surfaceArea (sqrt : K → K) (elements : List (SurfaceElement K)) : K :=
  (elements.map fun e =>
    (e.gauss.map fun gp =>
      Area sqrt gp.weight (solxMid_uv e.nxDofs gp.phix_uv e.solx e.solxOld)).sum).sum

/-- The flat sample triangle at rest, with the centroid rule. -/
def sampleSurfaceElement (K : Type) [Field K] : SurfaceElement K where
  nxDofs := 3
  solx := sampleNodes K
  solxOld := sampleNodes K
  gauss := [sampleGauss K]

end SurfaceDiagnostic

/-! ## ex6.cpp: the local residuals of `AssemblePWillmore` and `AssemblePWillmore2`

The Gauss point values (lines 1083-1123 and 2403-2439), the residual equations (lines
1237-1307 and 2546-2615) and the copy into `Res` (lines 1323-1348 and 2632-2656) of the two
routines, for one element.  Each entry `aRes*[K][i]` starts at `0.` and receives one
increment per Gauss point. -/

section PWillmore

variable {K : Type} [LinearOrderedField K]

/-- What the finite elements provide at one Gauss point for the three fields: the data for
`x` (weight, `phix`, `phix_uv`), `phiY`, and `phiW` with `phiW_uv`. -/
structure WillmoreGauss (K : Type) extends GaussPoint K where
  /-- The array `phiY`. -/
  phiY : Nat → K
  /-- The array `phiW`. -/
  phiW : Nat → K
  /-- The arrays `phiW_uv[0]` and `phiW_uv[1]`. -/
  phiW_uv : Fin 2 → Nat → K

/-- The nodal values of one element: `solx`, `solY`, `solW` at the new time and their `Old`
counterparts. -/
structure WillmoreElement (K : Type) where
  /-- The number of nodes of `x`. -/
  nxDofs : Nat
  /-- The number of nodes of `Y`. -/
  nYDofs : Nat
  /-- The number of nodes of `W`. -/
  nWDofs : Nat
  /-- The array `solx[K][i]`. -/
  solx : Fin 3 → Nat → K
  /-- The array `solxOld[K][i]`. -/
  solxOld : Fin 3 → Nat → K
  /-- The array `solY[K][i]`. -/
  solY : Fin 3 → Nat → K
  /-- The array `solYOld[K][i]`. -/
  solYOld : Fin 3 → Nat → K
  /-- The array `solW[K][i]`. -/
  solW : Fin 3 → Nat → K
  /-- The array `solWOld[K][i]`. -/
  solWOld : Fin 3 → Nat → K

/-- What both routines read besides the element: the time step, the two multipliers, the
two switches, and the library functions `sqrt` and `pow`. -/
structure WillmoreData (K : Type) where
  /-- The library function `sqrt`. -/
  sqrt : K → K
  /-- The library function `pow`. -/
  pow : K → K → K
  /-- The time step `dt`. -/
  dt : K
  /-- The multiplier `solLambda1`. -/
  solLambda1 : K
  /-- The multiplier `solLambda2`. -/
  solLambda2 : K
  /-- The switch `volumeConstraint`. -/
  volumeConstraint : Bool
  /-- The switch `areaConstraint`. -/
  areaConstraint : Bool

/-- The midpoint values of `AssemblePWillmore` (lines 1092 and 1096):
`solYg[K] += phiY[i] * 0.5 * (solYOld[K][i] + solY[K][i])` for `i < nYDofs`, and the same
for `solWg`. -/
def solMidg (n : Nat) (phi : Nat → K) (solOld sol : Fin 3 → Nat → K) : Fin 3 → K :=
  fun k => (List.range n).foldl (fun s i => s + phi i * (1 / 2) * (solOld k i + sol k i)) 0

/-- Lines 620-624 for `sumP2`: `sumP2 += signP * ap[p] * (1. - P[p]) * pow (YdotY, P[p] / 2.)`. -/
def sumP2 (pow : K → K → K) (solYg normal : Fin 3 → K) : K :=
  (List.finRange 3).foldl
    (fun s p =>
      let signP : K := if P p % 2 = 0 then 1 else signYdotN solYg normal
      s + signP * ap p * (1 - (P p : K)) * pow (YdotY solYg) ((P p : K) / 2))
    0

/-- The gradient of a test function: `phi_Xtan[J][i]` starts at `0.` and
`phi_Xtan[J][i] += phi_uv[k][i] * Jir[k][J]` for `k = 0, 1`. -/
def phi_Xtan (phi_uv : Fin 2 → Nat → K) (solx_uv : Fin 3 → Fin 2 → K) (J : Fin 3) (i : Nat) : K :=
  (List.finRange 2).foldl (fun s k => s + phi_uv k i * Jir solx_uv k J) 0

/-- A loop `for (J = 0; J < DIM; J++) t += f (J)` started at `t = 0.`. -/
def sumDIM (f : Fin 3 → K) : K :=
  (List.finRange 3).foldl (fun t J => t + f J) 0

/-- The sum `term3` of both routines: for each `J`,
`term4 += solxOld_Xtan[L][J] * solWOld_Xtan[L][K] + solxOld_Xtan[L][K] * solWOld_Xtan[L][J]`
over `L`, then `term3 += phiW_Xtan[J][i] * term4`. -/
def term3 (solxOld_Xtan solWOld_Xtan : Fin 3 → Fin 3 → K) (phiW_Xtan_i : Fin 3 → K)
    (k : Fin 3) : K :=
  sumDIM fun J => phiW_Xtan_i J * sumDIM fun L =>
    solxOld_Xtan L J * solWOld_Xtan L k + solxOld_Xtan L k * solWOld_Xtan L J

/-- `AssemblePWillmore`, line 1247: the increment of `aResx[K][i]` at one Gauss point,
`(solYg[K] * phix[i] + term1) * Area` with
`term1 += solxNew_Xtan[K][J] * phix_Xtan[J][i]`.  (`term2` of line 1245 is not used.) -/
def aResx_PWillmore (D : WillmoreData K) (e : WillmoreElement K) (gp : WillmoreGauss K)
    (k : Fin 3) (i : Nat) : K :=
  let solx_uv := solxMid_uv e.nxDofs gp.phix_uv e.solx e.solxOld
  let solYg := solMidg e.nYDofs gp.phiY e.solYOld e.solY
  let term1 := sumDIM fun J =>
    Xtan (solxNew_uv e.nxDofs gp.phix_uv e.solx) solx_uv k J * phi_Xtan gp.phix_uv solx_uv J i
  (solYg k * gp.phix i + term1) * Area D.sqrt gp.weight solx_uv

/-- `AssemblePWillmore2`, line 2555: the increment of `aResx[K][i]`,
`(solYNewg[K] * phix[i] + term1) * Area`. -/
def aResx_PWillmore2 (D : WillmoreData K) (e : WillmoreElement K) (gp : WillmoreGauss K)
    (k : Fin 3) (i : Nat) : K :=
  let solx_uv := solxMid_uv e.nxDofs gp.phix_uv e.solx e.solxOld
  let solYNewg := solxNewg e.nYDofs gp.phiY e.solY
  let term1 := sumDIM fun J =>
    Xtan (solxNew_uv e.nxDofs gp.phix_uv e.solx) solx_uv k J * phi_Xtan gp.phix_uv solx_uv J i
  (solYNewg k * gp.phix i + term1) * Area D.sqrt gp.weight solx_uv

/-- `AssemblePWillmore`, line 1252: the increment of `aResY[K][i]`,
`(solWg[K] - sumP1 * solYg[K]) * phiY[i] * Area`; `sumP1` is taken at the midpoint `solYg`. -/
def aResY_PWillmore (D : WillmoreData K) (e : WillmoreElement K) (gp : WillmoreGauss K)
    (k : Fin 3) (i : Nat) : K :=
  let solx_uv := solxMid_uv e.nxDofs gp.phix_uv e.solx e.solxOld
  let solYg := solMidg e.nYDofs gp.phiY e.solYOld e.solY
  let solWg := solMidg e.nWDofs gp.phiW e.solWOld e.solW
  (solWg k - sumP1 D.pow solYg (normal D.sqrt solx_uv) * solYg k) * gp.phiY i
    * Area D.sqrt gp.weight solx_uv

/-- `AssemblePWillmore2`, line 2560: the increment of `aResY[K][i]`,
`(solWNewg[K] - sumP1 * solYNewg[K]) * phiY[i] * Area`; `sumP1` is taken at `solYOldg`. -/
def aResY_PWillmore2 (D : WillmoreData K) (e : WillmoreElement K) (gp : WillmoreGauss K)
    (k : Fin 3) (i : Nat) : K :=
  let solx_uv := solxMid_uv e.nxDofs gp.phix_uv e.solx e.solxOld
  let solYNewg := solxNewg e.nYDofs gp.phiY e.solY
  let solYOldg := solxNewg e.nYDofs gp.phiY e.solYOld
  let solWNewg := solxNewg e.nWDofs gp.phiW e.solW
  (solWNewg k - sumP1 D.pow solYOldg (normal D.sqrt solx_uv) * solYNewg k) * gp.phiY i
    * Area D.sqrt gp.weight solx_uv

/-- `AssemblePWillmore`, lines 1256-1290: the increment of `aResW[K][i]`.  `term1` uses the
midpoint `solx_Xtan`, `term2` the midpoint `solW_Xtan`, and `sumP2` the midpoint `solYg`. -/
def aResW_PWillmore (D : WillmoreData K) (e : WillmoreElement K) (gp : WillmoreGauss K)
    (k : Fin 3) (i : Nat) : K :=
  let solx_uv := solxMid_uv e.nxDofs gp.phix_uv e.solx e.solxOld
  let solYg := solMidg e.nYDofs gp.phiY e.solYOld e.solY
  let nrm := normal D.sqrt solx_uv
  let phiW_Xtan_i : Fin 3 → K := fun J => phi_Xtan gp.phiW_uv solx_uv J i
  let term0 := sumDIM fun J =>
    Xtan (solxNew_uv e.nWDofs gp.phiW_uv e.solW) solx_uv k J * phiW_Xtan_i J
  let term1 := sumDIM fun J => solx_Xtan solx_uv k J * phiW_Xtan_i J
  let term2 := sumDIM fun J =>
    Xtan (solxMid_uv e.nWDofs gp.phiW_uv e.solW e.solWOld) solx_uv J J
  let t3 := term3 (Xtan (solxNew_uv e.nxDofs gp.phix_uv e.solxOld) solx_uv)
    (Xtan (solxNew_uv e.nWDofs gp.phiW_uv e.solWOld) solx_uv) phiW_Xtan_i k
  ((D.solLambda1 * nrm k
      + (solxNewg e.nxDofs gp.phix e.solx k - solxNewg e.nxDofs gp.phix e.solxOld k) / D.dt)
        * gp.phiW i
    + D.solLambda2 * term1
    - term0
    + sumP2 D.pow solYg nrm * term1
    - term2 * phiW_Xtan_i k
    + t3) * Area D.sqrt gp.weight solx_uv

/-- `AssemblePWillmore2`, lines 2564-2596: the increment of `aResW[K][i]`.  `term1` uses
`solxNew_Xtan`, `term2` uses `solWNew_Xtan`, and `sumP2` is taken at `solYOldg`. -/
def aResW_PWillmore2 (D : WillmoreData K) (e : WillmoreElement K) (gp : WillmoreGauss K)
    (k : Fin 3) (i : Nat) : K :=
  let solx_uv := solxMid_uv e.nxDofs gp.phix_uv e.solx e.solxOld
  let solYOldg := solxNewg e.nYDofs gp.phiY e.solYOld
  let nrm := normal D.sqrt solx_uv
  let phiW_Xtan_i : Fin 3 → K := fun J => phi_Xtan gp.phiW_uv solx_uv J i
  let term0 := sumDIM fun J =>
    Xtan (solxNew_uv e.nWDofs gp.phiW_uv e.solW) solx_uv k J * phiW_Xtan_i J
  let term1 := sumDIM fun J =>
    Xtan (solxNew_uv e.nxDofs gp.phix_uv e.solx) solx_uv k J * phiW_Xtan_i J
  let term2 := sumDIM fun J => Xtan (solxNew_uv e.nWDofs gp.phiW_uv e.solW) solx_uv J J
  let t3 := term3 (Xtan (solxNew_uv e.nxDofs gp.phix_uv e.solxOld) solx_uv)
    (Xtan (solxNew_uv e.nWDofs gp.phiW_uv e.solWOld) solx_uv) phiW_Xtan_i k
  ((D.solLambda1 * nrm k
      + (solxNewg e.nxDofs gp.phix e.solx k - solxNewg e.nxDofs gp.phix e.solxOld k) / D.dt)
        * gp.phiW i
    + D.solLambda2 * term1
    - term0
    + sumP2 D.pow solYOldg nrm * term1
    - term2 * phiW_Xtan_i k
    + t3) * Area D.sqrt gp.weight solx_uv

/-- An entry `aRes[K][i]` after the Gauss point loop: `0.` from `assign`, then one increment
per Gauss point. -/
def accumulateGauss (inc : WillmoreGauss K → Fin 3 → Nat → K) (gauss : List (WillmoreGauss K))
    (k : Fin 3) (i : Nat) : K :=
  gauss.foldl (fun a gp => a + inc gp k i) 0

/-- The element value of `aResLambda2`: set to `0.` before the Gauss point loop, then
updated by the area multiplier equation at every Gauss point. -/
def aResLambda2 (sqrt : K → K) (areaConstraint : Bool) (nxDofs : Nat)
    (solx solxOld : Fin 3 → Nat → K) (gauss : List (GaussPoint K)) : K :=
  gauss.foldl (areaEquation sqrt areaConstraint nxDofs solx solxOld) 0

/-- A loop `for (i = 0; i < n; i++) Res[c + i] = v (i)`. -/
def writeRange (c n : Nat) (v : Nat → K) (Res : Nat → K) : Nat → K :=
  (List.range n).foldl (fun R i => Function.update R (c + i) (v i)) Res

/-- One of the three copy loops of lines 2632-2648:
`for (K = 0; K < DIM; K++) for (i = 0; i < n; i++) Res[base + K * n + i] = -aRes[K][i]`. -/
def writeBlock (base n : Nat) (aRes : Fin 3 → Nat → K) (Res : Nat → K) : Nat → K :=
  (List.finRange 3).foldl
    (fun R k => writeRange (base + k.val * n) n (fun i => -(aRes k i)) R) Res

/-- Lines 1323-1348 and 2632-2656, the same in both routines: the local residual vector
`Res`, of `sizeAll` entries, written from the accumulated `aRes` values; `Res0` is what the
vector held before. -/
def localRes (e : WillmoreElement K) (volumeConstraint areaConstraint : Bool)
    (aResx aResY aResW : Fin 3 → Nat → K) (aResL1 aResL2 : K) (Res0 : Nat → K) : Nat → K :=
  let size := sizeAll e.nxDofs e.nYDofs e.nWDofs volumeConstraint areaConstraint
  let R1 := writeBlock 0 e.nxDofs aResx Res0
  let R2 := writeBlock (3 * e.nxDofs) e.nYDofs aResY R1
  let R3 := writeBlock (3 * (e.nxDofs + e.nYDofs)) e.nWDofs aResW R2
  let R4 := if volumeConstraint then
      Function.update R3 (size - 1 - areaConstraint.toNat) (-aResL1) else R3
  if areaConstraint then Function.update R4 (size - 1) (-aResL2) else R4

/-- The local residual vector `Res` of `AssemblePWillmore` for one element.  The loop of
line 1251 runs `i` to `nWDofs`, so `aResY[K][i]` is incremented for `i < nWDofs` only. -/
def AssemblePWillmore_Res (D : WillmoreData K) (e : WillmoreElement K)
    (gauss : List (WillmoreGauss K)) (Res0 : Nat → K) : Nat → K :=
  localRes e D.volumeConstraint D.areaConstraint
    (accumulateGauss (aResx_PWillmore D e) gauss)
    (fun k i => if i < e.nWDofs then accumulateGauss (aResY_PWillmore D e) gauss k i else 0)
    (accumulateGauss (aResW_PWillmore D e) gauss)
    (aResLambda1 D.sqrt D.volumeConstraint e.nxDofs e.solx e.solxOld
      (gauss.map WillmoreGauss.toGaussPoint))
    (aResLambda2 D.sqrt D.areaConstraint e.nxDofs e.solx e.solxOld
      (gauss.map WillmoreGauss.toGaussPoint))
    Res0

/-- The local residual vector `Res` of `AssemblePWillmore2` for one element.  The loop of
line 2559 runs `i` to `nWDofs`, as in `AssemblePWillmore`. -/
def AssemblePWillmore2_Res (D : WillmoreData K) (e : WillmoreElement K)
    (gauss : List (WillmoreGauss K)) (Res0 : Nat → K) : Nat → K :=
  localRes e D.volumeConstraint D.areaConstraint
    (accumulateGauss (aResx_PWillmore2 D e) gauss)
    (fun k i => if i < e.nWDofs then accumulateGauss (aResY_PWillmore2 D e) gauss k i else 0)
    (accumulateGauss (aResW_PWillmore2 D e) gauss)
    (aResLambda1 D.sqrt D.volumeConstraint e.nxDofs e.solx e.solxOld
      (gauss.map WillmoreGauss.toGaussPoint))
    (aResLambda2 D.sqrt D.areaConstraint e.nxDofs e.solx e.solxOld
      (gauss.map WillmoreGauss.toGaussPoint))
    Res0

/-- The flat sample triangle at rest, carrying `Y` and `W` on the same three nodes. -/
def sampleWillmoreElement (K : Type) [Field K] : WillmoreElement K where
  nxDofs := 3
  nYDofs := 3
  nWDofs := 3
  solx := sampleNodes K
  solxOld := sampleNodes K
  solY := sampleNodesOld K
  solYOld := sampleNodesOld K
  solW := sampleNodes K
  solWOld := sampleNodes K

/-- The centroid rule of the linear triangle for all three fields. -/
def sampleWillmoreGauss (K : Type) [Field K] : WillmoreGauss K where
  toGaussPoint := sampleGauss K
  phiY := fun _ => 1 / 3
  phiW := fun _ => 1 / 3
  phiW_uv := (sampleGauss K).phix_uv

/-- Sample data: `dt = 1 / 100`, multipliers `1` and `2`, both constraints enabled. -/
def sampleWillmoreData (sqrt : K → K) (pow : K → K → K) : WillmoreData K where
  sqrt := sqrt
  pow := pow
  dt := 1 / 100
  solLambda1 := 1
  solLambda2 := 2
  volumeConstraint := true
  areaConstraint := true

end PWillmore

/-! # Theorems -/

section GaussianEleminationProofs

variable {K : Type} [Field K] [DecidableEq K]

omit [Field K] [DecidableEq K] in
theorem swapRows_fold_apply (A : Nat → Nat → K) (i p m r c : Nat) :
    (List.range m).foldl
      (fun B j => let tmp := B i j; setEntry (setEntry B i j (B p j)) p j tmp) A r c
      = if c < m then (if r = i then A p c else if r = p then A i c else A r c)
        else A r c := by
  induction m generalizing r c with
  | zero => simp
  | succ m ih =>
    rw [List.range_succ, List.foldl_append]
    simp only [List.foldl_cons, List.foldl_nil, setEntry]
    by_cases hc : c = m
    · subst hc
      simp only [ih, lt_irrefl, if_false, Nat.lt_succ_self, if_true, and_true]
      by_cases hrp : r = p
      · subst hrp
        by_cases hri : r = i
        · subst hri; simp
        · simp [hri]
      · by_cases hri : r = i
        · subst hri; simp [hrp]
        · simp [hri, hrp]
    · simp only [hc, and_false, if_false, ih]
      exact if_congr (by omega) rfl rfl

omit [Field K] [DecidableEq K] in
theorem swapRows_apply (A : Nat → Nat → K) (n i p r c : Nat) :
    swapRows A n i p r c
      = if c ≤ n then (if r = i then A p c else if r = p then A i c else A r c)
        else A r c := by
  unfold swapRows
  rw [swapRows_fold_apply]
  exact if_congr (by omega) rfl rfl

omit [DecidableEq K] in
theorem elimRow_fold_apply (A : Nat → Nat → K) (i j m : Nat) (mji : K) (hij : i ≠ j)
    (r c : Nat) :
    (List.range' i m).foldl (fun B k => setEntry B j k (B j k - mji * B i k)) A r c
      = if r = j ∧ i ≤ c ∧ c < i + m then A j c - mji * A i c else A r c := by
  induction m generalizing r c with
  | zero =>
    simp only [List.range', List.foldl_nil]
    rw [if_neg]; omega
  | succ m ih =>
    rw [List.range'_concat, List.foldl_append]
    simp only [List.foldl_cons, List.foldl_nil, setEntry, Nat.mul_one, one_mul]
    by_cases h : r = j ∧ c = i + m
    · obtain ⟨rfl, rfl⟩ := h
      rw [if_pos ⟨rfl, rfl⟩, ih, ih, if_neg (by omega), if_neg (by omega), if_pos (by omega)]
    · rw [if_neg h, ih]
      exact if_congr (by omega) rfl rfl

omit [DecidableEq K] in
theorem elimRow_apply (A : Nat → Nat → K) (n i j : Nat) (hij : i ≠ j) (r c : Nat) :
    elimRow A n i j r c
      = if r = j ∧ i ≤ c ∧ c ≤ n then A j c - (A j i / A i i) * A i c else A r c := by
  unfold elimRow
  rw [elimRow_fold_apply A i j _ _ hij]
  exact if_congr (by omega) rfl rfl

omit [DecidableEq K] in
theorem elimBelow_fold_apply (A : Nat → Nat → K) (n i m r c : Nat) :
    (List.range' (i + 1) m).foldl (fun B j => elimRow B n i j) A r c
      = if i < r ∧ r < i + 1 + m ∧ i ≤ c ∧ c ≤ n
        then A r c - (A r i / A i i) * A i c else A r c := by
  induction m generalizing r c with
  | zero =>
    simp only [List.range', List.foldl_nil]
    rw [if_neg]; omega
  | succ m ih =>
    rw [List.range'_concat, List.foldl_append]
    simp only [List.foldl_cons, List.foldl_nil, Nat.one_mul]
    rw [elimRow_apply _ _ _ _ (by omega)]
    have hrow : ∀ c', (List.range' (i + 1) m).foldl (fun B j => elimRow B n i j) A (i + 1 + m) c'
        = A (i + 1 + m) c' := by
      intro c'; rw [ih, if_neg]; omega
    have hpiv : ∀ c', (List.range' (i + 1) m).foldl (fun B j => elimRow B n i j) A i c'
        = A i c' := by
      intro c'; rw [ih, if_neg]; omega
    by_cases h : r = i + 1 + m ∧ i ≤ c ∧ c ≤ n
    · rw [if_pos h, hrow, hrow, hpiv, hpiv, if_pos (by omega)]
      rw [h.1]
    · rw [if_neg h, ih]
      exact if_congr (by omega) rfl rfl

omit [DecidableEq K] in
theorem elimBelow_apply (A : Nat → Nat → K) (n i : Nat) (r c : Nat) :
    elimBelow A n i r c
      = if i < r ∧ r < n ∧ i ≤ c ∧ c ≤ n
        then A r c - (A r i / A i i) * A i c else A r c := by
  unfold elimBelow
  rw [elimBelow_fold_apply]
  exact if_congr (by omega) rfl rfl

theorem findPivot_some (A : Nat → Nat → K) (n i : Nat) :
    ∀ k p q, n - p = k → p < n → findPivot A n i p = some q →
      p ≤ q ∧ q < n ∧ A q i ≠ 0 := by
  intro k
  induction k with
  | zero => intro p q hk hp; omega
  | succ k ih =>
    intro p q hk hp h
    rw [findPivot] at h
    by_cases h0 : A p i = 0
    · rw [if_pos h0] at h
      by_cases h1 : p + 1 < n
      · rw [if_pos h1] at h
        have := ih (p + 1) q (by omega) h1 h
        exact ⟨by omega, this.2.1, this.2.2⟩
      · rw [if_neg h1] at h; cases h
    · rw [if_neg h0] at h
      cases h
      exact ⟨le_refl _, hp, h0⟩

theorem findPivot_none (A : Nat → Nat → K) (n i : Nat) :
    ∀ k p, n - p = k → findPivot A n i p = none →
      ∀ q, p ≤ q → q < n → A q i = 0 := by
  intro k
  induction k with
  | zero => intro p hk _ q hq hqn; omega
  | succ k ih =>
    intro p hk h q hq hqn
    rw [findPivot] at h
    by_cases h0 : A p i = 0
    · rw [if_pos h0] at h
      by_cases h1 : p + 1 < n
      · rw [if_pos h1] at h
        by_cases hpq : p = q
        · rw [← hpq]; exact h0
        · exact ih (p + 1) (by omega) h q (by omega) hqn
      · have : p = q := by omega
        rw [← this]; exact h0
    · rw [if_neg h0] at h; cases h

omit [DecidableEq K] in
theorem rowRes_swapRows (A : Nat → Nat → K) (n i p : Nat) (x : Nat → K) (t : K) (r : Nat) :
    rowRes (swapRows A n i p) n x t r
      = rowRes A n x t (if r = i then p else if r = p then i else r) := by
  unfold rowRes
  have h1 : ∀ c ∈ Finset.range n, swapRows A n i p r c * x c
      = A (if r = i then p else if r = p then i else r) c * x c := by
    intro c hc
    rw [swapRows_apply, if_pos (by have := Finset.mem_range.mp hc; omega)]
    split_ifs <;> rfl
  rw [Finset.sum_congr rfl h1, swapRows_apply, if_pos (le_refl n)]
  split_ifs <;> rfl

omit [DecidableEq K] in
theorem Sol_swapRows (A : Nat → Nat → K) (n i p : Nat) (hi : i < n) (hp : p < n)
    (x : Nat → K) (t : K) :
    Sol (swapRows A n i p) n x t ↔ Sol A n x t := by
  constructor
  · intro h r hr
    have := h (if r = i then p else if r = p then i else r) (by split_ifs <;> assumption)
    rw [rowRes_swapRows] at this
    rw [← this]
    congr 1
    split_ifs <;> omega
  · intro h r hr
    rw [rowRes_swapRows]
    exact h _ (by split_ifs <;> assumption)

omit [DecidableEq K] in
theorem rowRes_elimBelow (A : Nat → Nat → K) (n i : Nat) (hz : ∀ c, c < i → A i c = 0)
    (x : Nat → K) (t : K) (r : Nat) :
    rowRes (elimBelow A n i) n x t r
      = if i < r ∧ r < n then rowRes A n x t r - (A r i / A i i) * rowRes A n x t i
        else rowRes A n x t r := by
  unfold rowRes
  by_cases h : i < r ∧ r < n
  · rw [if_pos h]
    have h1 : ∀ c ∈ Finset.range n, elimBelow A n i r c * x c
        = A r c * x c - (A r i / A i i) * (A i c * x c) := by
      intro c hc
      have hc := Finset.mem_range.mp hc
      rw [elimBelow_apply]
      by_cases hic : i ≤ c
      · rw [if_pos (by omega)]; ring
      · rw [if_neg (by omega), hz c (by omega)]; ring
    rw [Finset.sum_congr rfl h1, elimBelow_apply, if_pos (by omega), Finset.sum_sub_distrib,
      ← Finset.mul_sum]
    ring
  · rw [if_neg h]
    have h1 : ∀ c ∈ Finset.range n, elimBelow A n i r c * x c = A r c * x c := by
      intro c _
      rw [elimBelow_apply, if_neg (by omega)]
    rw [Finset.sum_congr rfl h1, elimBelow_apply, if_neg (by omega)]

omit [DecidableEq K] in
theorem Sol_elimBelow (A : Nat → Nat → K) (n i : Nat) (hi : i < n)
    (hz : ∀ c, c < i → A i c = 0) (x : Nat → K) (t : K) :
    Sol (elimBelow A n i) n x t ↔ Sol A n x t := by
  constructor
  · intro h
    have hpiv : rowRes A n x t i = 0 := by
      have := h i hi
      rw [rowRes_elimBelow A n i hz, if_neg (by omega)] at this
      exact this
    intro r hr
    have := h r hr
    rw [rowRes_elimBelow A n i hz] at this
    by_cases h2 : i < r ∧ r < n
    · rw [if_pos h2, hpiv] at this
      simpa using this
    · rw [if_neg h2] at this; exact this
  · intro h r hr
    rw [rowRes_elimBelow A n i hz]
    split_ifs
    · rw [h r hr, h i hi]; ring
    · exact h r hr

theorem elimStep_none (A : Nat → Nat → K) (n i : Nat) (h : elimStep A n i = none) :
    ∀ q, i ≤ q → q < n → A q i = 0 := by
  unfold elimStep at h
  cases hp : findPivot A n i i with
  | none => exact findPivot_none A n i _ i rfl hp
  | some p => rw [hp] at h; cases h

theorem elimStep_some (A U : Nat → Nat → K) (n i : Nat) (hi : i < n)
    (hE : Echelon A n i) (h : elimStep A n i = some U) :
    Echelon U n (i + 1) ∧ ∀ x t, Sol U n x t ↔ Sol A n x t := by
  unfold elimStep at h
  cases hp : findPivot A n i i with
  | none => rw [hp] at h; cases h
  | some p =>
    rw [hp] at h
    obtain ⟨hip, hpn, hpiv⟩ := findPivot_some A n i _ i p rfl hi hp
    simp only [Option.some.injEq] at h
    -- the matrix after the optional exchange
    have key : ∀ B : Nat → Nat → K,
        (∀ r c, c ≤ n → B r c = if r = i then A p c else if r = p then A i c else A r c) ∨
          (p = i ∧ B = A) →
        (∀ x t, Sol B n x t ↔ Sol A n x t) →
        Echelon (elimBelow B n i) n (i + 1) ∧
          ∀ x t, Sol (elimBelow B n i) n x t ↔ Sol A n x t := by
      intro B hB hS
      have hBval : ∀ r c, c ≤ n →
          B r c = if r = i then A p c else if r = p then A i c else A r c := by
        rcases hB with hB | ⟨hpi, rfl⟩
        · exact hB
        · intro r c _; subst hpi; split_ifs with h1 <;> simp [h1]
      have hz : ∀ c, c < i → B i c = 0 := by
        intro c hc
        rw [hBval _ _ (by omega), if_pos rfl]
        exact (hE c hc).2 p (by omega) hpn
      have hBii : B i i ≠ 0 := by rw [hBval _ _ (by omega), if_pos rfl]; exact hpiv
      refine ⟨?_, fun x t => (Sol_elimBelow B n i hi hz x t).trans (hS x t)⟩
      intro c hc
      by_cases hci : c = i
      · subst hci
        constructor
        · rw [elimBelow_apply, if_neg (by omega)]; exact hBii
        · intro r hr hrn
          rw [elimBelow_apply, if_pos (by omega)]
          field_simp
      · have hc' : c < i := by omega
        constructor
        · rw [elimBelow_apply, if_neg (by omega), hBval _ _ (by omega), if_neg (by omega),
            if_neg (by omega)]
          exact (hE c hc').1
        · intro r hr hrn
          rw [elimBelow_apply, if_neg (by omega), hBval _ _ (by omega)]
          split_ifs
          · exact (hE c hc').2 p (by omega) hpn
          · exact (hE c hc').2 i (by omega) hi
          · exact (hE c hc').2 r hr hrn
    by_cases hpi : p = i
    · rw [if_neg (by simpa using hpi)] at h
      rw [← h]
      exact key A (Or.inr ⟨hpi, rfl⟩) (fun _ _ => Iff.rfl)
    · rw [if_pos hpi] at h
      rw [← h]
      refine key _ (Or.inl ?_) (fun x t => Sol_swapRows A n i p hi hpn x t)
      intro r c hc
      rw [swapRows_apply, if_pos hc]

omit [DecidableEq K] in
theorem rowRes_eq_mulVec (A : Nat → Nat → K) (n : Nat) (x : Nat → K) (t : K) (r : Fin n) :
    rowRes A n x t r.val
      = (coeffMatrix A n).mulVec (fun j => x j.val) r - t * rhsVector A n r := by
  unfold rowRes coeffMatrix rhsVector
  rw [Finset.sum_range]
  rfl

omit [DecidableEq K] in
theorem Sol_one_iff (A : Nat → Nat → K) (n : Nat) (x : Nat → K) :
    Sol A n x 1 ↔ (coeffMatrix A n).mulVec (fun j => x j.val) = rhsVector A n := by
  constructor
  · intro h
    funext r
    have := h r.val r.isLt
    rw [rowRes_eq_mulVec, one_mul, sub_eq_zero] at this
    exact this
  · intro h r hr
    have := rowRes_eq_mulVec A n x 1 ⟨r, hr⟩
    rw [h, one_mul, sub_self] at this
    exact this

omit [DecidableEq K] in
theorem Sol_zero_iff (A : Nat → Nat → K) (n : Nat) (x : Nat → K) :
    Sol A n x 0 ↔ (coeffMatrix A n).mulVec (fun j => x j.val) = 0 := by
  constructor
  · intro h
    funext r
    have := h r.val r.isLt
    rw [rowRes_eq_mulVec, zero_mul, sub_zero] at this
    exact this
  · intro h r hr
    have := rowRes_eq_mulVec A n x 0 ⟨r, hr⟩
    rw [h, zero_mul, sub_zero] at this
    exact this

omit [DecidableEq K] in
/-- Two augmented matrices with the same homogeneous solutions are singular together. -/
theorem det_eq_zero_of_kernel (A B : Nat → Nat → K) (n : Nat)
    (h : ∀ x, Sol A n x 0 → Sol B n x 0) (hA : (coeffMatrix A n).det = 0) :
    (coeffMatrix B n).det = 0 := by
  classical
  obtain ⟨v, hv, hAv⟩ := Matrix.exists_mulVec_eq_zero_iff.mpr hA
  apply Matrix.exists_mulVec_eq_zero_iff.mp
  refine ⟨v, hv, ?_⟩
  let x : Nat → K := fun j => if hj : j < n then v ⟨j, hj⟩ else 0
  have hx : (fun j : Fin n => x j.val) = v := by
    funext j
    simp [x]
  have h1 : Sol A n x 0 := by rw [Sol_zero_iff, hx]; exact hAv
  have h2 := (Sol_zero_iff B n x).mp (h x h1)
  rw [hx] at h2
  exact h2

omit [DecidableEq K] in
/-- A fully reduced matrix has the product of its pivots as determinant. -/
theorem det_of_Echelon (U : Nat → Nat → K) (n : Nat) (hE : Echelon U n (n - 1)) :
    (coeffMatrix U n).det = ∏ i : Fin n, U i.val i.val := by
  classical
  have hT : (coeffMatrix U n).BlockTriangular id := by
    intro r c hrc
    have hrc' : c.val < r.val := hrc
    exact (hE c.val (by have := r.isLt; omega)).2 r.val hrc' r.isLt
  rw [Matrix.det_of_upperTriangular hT]
  rfl

omit [DecidableEq K] in
/-- A reduced matrix whose next column has no pivot candidate is singular. -/
theorem det_eq_zero_of_no_pivot (B : Nat → Nat → K) (n i : Nat) (hi : i < n)
    (hE : Echelon B n i) (h0 : ∀ q, i ≤ q → q < n → B q i = 0) :
    (coeffMatrix B n).det = 0 := by
  classical
  have hT : (coeffMatrix B n).BlockTriangular (fun j : Fin n => min j.val (i + 1)) := by
    intro r c hrc
    have hrc' : min c.val (i + 1) < min r.val (i + 1) := hrc
    have h1 : c.val < r.val := by omega
    have h2 : c.val ≤ i := by omega
    by_cases hci : c.val = i
    · have := h0 r.val (by omega) r.isLt
      show B r.val c.val = 0
      rw [hci]; exact this
    · exact (hE c.val (by omega)).2 r.val h1 r.isLt
  rw [hT.det]
  apply Finset.prod_eq_zero (i := i)
  · rw [Finset.mem_image]
    exact ⟨⟨i, hi⟩, Finset.mem_univ _, by simp⟩
  · apply Matrix.det_eq_zero_of_row_eq_zero ⟨⟨i, hi⟩, by simp⟩
    intro j
    have hj : min j.val.val (i + 1) = i := j.property
    have hji : j.val.val = i := by omega
    show B i j.val.val = 0
    rw [hji]
    exact h0 i (le_refl _) hi

theorem forwardElim_fold (A : Nat → Nat → K) (n m : Nat) (hm : m ≤ n) :
    match (List.range m).foldlM (fun B i => elimStep B n i) A with
    | some U => Echelon U n m ∧ ∀ x t, Sol U n x t ↔ Sol A n x t
    | none => (coeffMatrix A n).det = 0 := by
  induction m with
  | zero =>
    show Echelon A n 0 ∧ ∀ x t, Sol A n x t ↔ Sol A n x t
    exact ⟨fun c hc => absurd hc (Nat.not_lt_zero c), fun _ _ => Iff.rfl⟩
  | succ m ih =>
    have ih := ih (by omega)
    rw [List.range_succ, List.foldlM_append]
    cases h1 : (List.range m).foldlM (fun B i => elimStep B n i) A with
    | none =>
      rw [h1] at ih
      exact ih
    | some B =>
      rw [h1] at ih
      obtain ⟨hE, hS⟩ := ih
      have e : ((some B : Option (Nat → Nat → K)) >>= fun C =>
          List.foldlM (fun B i => elimStep B n i) C [m]) = elimStep B n m := by
        show List.foldlM (fun B i => elimStep B n i) B [m] = elimStep B n m
        rw [List.foldlM_cons]
        cases elimStep B n m <;> rfl
      rw [e]
      cases h2 : elimStep B n m with
      | none =>
        have hB := det_eq_zero_of_no_pivot B n m (by omega) hE (elimStep_none B n m h2)
        exact det_eq_zero_of_kernel B A n (fun x hx => (hS x 0).mp hx) hB
      | some U =>
        obtain ⟨hE', hS'⟩ := elimStep_some B U n m (by omega) hE h2
        exact ⟨hE', fun x t => (hS' x t).trans (hS x t)⟩

omit [DecidableEq K] in
theorem backSubst_inner (U : Nat → Nat → K) (i s m : Nat) (his : i < s) (y0 : Nat → K) :
    (List.range' s m).foldl (fun y j => Function.update y i (y i - U i j * y j)) y0
      = Function.update y0 i (y0 i - ∑ j in Finset.Ico s (s + m), U i j * y0 j) := by
  induction m with
  | zero => simp
  | succ m ih =>
    rw [List.range'_concat, List.foldl_append, ih]
    simp only [List.foldl_cons, List.foldl_nil, Nat.one_mul, Function.update_same,
      Function.update_idem]
    rw [Function.update_noteq (by omega : s + m ≠ i), ← Nat.add_assoc,
      Finset.sum_Ico_succ_top (by omega : s ≤ s + m), sub_sub]

omit [DecidableEq K] in
theorem backSubstRow_apply (U : Nat → Nat → K) (n : Nat) (x : Nat → K) (i : Nat) :
    backSubstRow U n x i
      = Function.update x i ((U i n - ∑ j in Finset.Ico (i + 1) n, U i j * x j) / U i i) := by
  unfold backSubstRow
  simp only
  rw [backSubst_inner U i (i + 1) _ (by omega)]
  simp only [Function.update_same, Function.update_idem]
  have hs : ∑ j in Finset.Ico (i + 1) (i + 1 + (n - (i + 1))),
      U i j * Function.update x i (U i n) j = ∑ j in Finset.Ico (i + 1) n, U i j * x j := by
    by_cases h : i + 1 ≤ n
    · rw [Nat.add_sub_cancel' h]
      apply Finset.sum_congr rfl
      intro j hj
      rw [Function.update_noteq]
      have := (Finset.mem_Ico.mp hj).1
      omega
    · rw [Finset.Ico_eq_empty (by omega), Finset.Ico_eq_empty (by omega), Finset.sum_empty,
        Finset.sum_empty]
  rw [hs]

omit [DecidableEq K] in
theorem RowOK_backSubstRow (U : Nat → Nat → K) (n : Nat) (x : Nat → K) (i r : Nat)
    (hii : U i i ≠ 0) (hir : i ≤ r) (h : i < r → RowOK U n x r) :
    RowOK U n (backSubstRow U n x i) r := by
  unfold RowOK
  rw [backSubstRow_apply]
  have hsum : ∀ s, i < s → ∑ j in Finset.Ico s n, U r j * Function.update x i
      ((U i n - ∑ j in Finset.Ico (i + 1) n, U i j * x j) / U i i) j
      = ∑ j in Finset.Ico s n, U r j * x j := by
    intro s hs
    apply Finset.sum_congr rfl
    intro j hj
    rw [Function.update_noteq]
    have := (Finset.mem_Ico.mp hj).1
    omega
  rw [hsum (r + 1) (by omega)]
  by_cases hri : r = i
  · subst hri
    rw [Function.update_same]
    field_simp
  · rw [Function.update_noteq hri]
    exact h (by omega)

omit [DecidableEq K] in
theorem backSubst_fold (U : Nat → Nat → K) (n : Nat) (hdiag : ∀ r, r < n → U r r ≠ 0) :
    ∀ m x0, m ≤ n → (∀ r, m ≤ r → r < n → RowOK U n x0 r) →
      ∀ r, r < n → RowOK U n ((List.range m).reverse.foldl (backSubstRow U n) x0) r := by
  intro m
  induction m with
  | zero =>
    intro x0 _ h r hr
    simpa using h r (Nat.zero_le r) hr
  | succ m ih =>
    intro x0 hm h r hr
    rw [List.range_succ, List.reverse_append, List.reverse_singleton, List.singleton_append,
      List.foldl_cons]
    apply ih _ (by omega) _ r hr
    intro r' hr' hr'n
    exact RowOK_backSubstRow U n x0 m r' (hdiag m (by omega)) hr'
      (fun hlt => h r' (by omega) hr'n)

omit [DecidableEq K] in
theorem Sol_of_RowOK (U : Nat → Nat → K) (n : Nat) (hE : Echelon U n (n - 1)) (x : Nat → K)
    (h : ∀ r, r < n → RowOK U n x r) : Sol U n x 1 := by
  intro r hr
  unfold rowRes
  have h0 : ∑ c in Finset.Ico 0 r, U r c * x c = 0 := by
    apply Finset.sum_eq_zero
    intro c hc
    have hc := (Finset.mem_Ico.mp hc).2
    rw [(hE c (by omega)).2 r hc hr, zero_mul]
  rw [Finset.range_eq_Ico, ← Finset.sum_Ico_consecutive _ (Nat.zero_le r) (le_of_lt hr), h0,
    Finset.sum_eq_sum_Ico_succ_bot hr, zero_add, one_mul, sub_eq_zero]
  exact h r hr

/-- The outcome of `GaussianElemination` decides singularity, and a returned vector solves
the system that was passed in. -/
theorem GaussianElemination_spec (A : Nat → Nat → K) (n : Nat) (hn : 1 ≤ n) (x : Nat → K) :
    match GaussianElemination A n x with
    | none => (coeffMatrix A n).det = 0
    | some (_, y) => (coeffMatrix A n).det ≠ 0 ∧ Sol A n y 1 := by
  unfold GaussianElemination forwardElim
  have hf := forwardElim_fold A n (n - 1) (by omega)
  cases h1 : (List.range (n - 1)).foldlM (fun B i => elimStep B n i) A with
  | none => rw [h1] at hf; exact hf
  | some U =>
    rw [h1] at hf
    obtain ⟨hE, hS⟩ := hf
    have hdet := det_of_Echelon U n hE
    by_cases hlast : U (n - 1) (n - 1) = 0
    · simp only [hlast, if_true]
      apply det_eq_zero_of_kernel U A n (fun y hy => (hS y 0).mp hy)
      rw [hdet]
      exact Finset.prod_eq_zero (Finset.mem_univ (⟨n - 1, by omega⟩ : Fin n)) hlast
    · simp only [hlast, if_false]
      have hdiag : ∀ r, r < n → U r r ≠ 0 := by
        intro r hr
        by_cases hr' : r = n - 1
        · rw [hr']; exact hlast
        · exact (hE r (by omega)).1
      constructor
      · intro hA
        have hU := det_eq_zero_of_kernel A U n (fun y hy => (hS y 0).mpr hy) hA
        rw [hdet, Finset.prod_eq_zero_iff] at hU
        obtain ⟨r, _, hr⟩ := hU
        exact hdiag r.val r.isLt hr
      · apply (hS _ 1).mp
        apply Sol_of_RowOK U n hE
        apply backSubst_fold U n hdiag (n - 1) _ (by omega)
        intro r hr hrn
        have hr' : r = n - 1 := by omega
        subst hr'
        unfold RowOK
        rw [Function.update_same, Finset.Ico_eq_empty (by omega), Finset.sum_empty, add_zero]
        field_simp

/-- C1. Over an exact field, for `n ≥ 1` and an augmented matrix `[M | b]` with
non-singular coefficient block `M`, `GaussianElemination` does not take the singular exit
and the vector it writes solves `M x = b` for the matrix and right-hand side that were
passed in; that solution is the only one. -/
theorem GaussianElemination_solves (A : Nat → Nat → K) (n : Nat) (hn : 1 ≤ n) (x : Nat → K)
    (hdet : (coeffMatrix A n).det ≠ 0) :
    ∃ U y, GaussianElemination A n x = some (U, y) ∧
      (coeffMatrix A n).mulVec (fun j => y j.val) = rhsVector A n ∧
      ∀ z : Fin n → K, (coeffMatrix A n).mulVec z = rhsVector A n → z = fun j => y j.val := by
  have h := GaussianElemination_spec A n hn x
  cases hg : GaussianElemination A n x with
  | none => rw [hg] at h; exact absurd h hdet
  | some Uy =>
    obtain ⟨U, y⟩ := Uy
    rw [hg] at h
    have hy := (Sol_one_iff A n y).mp h.2
    refine ⟨U, y, rfl, hy, ?_⟩
    intro z hz
    have hunit : IsUnit (coeffMatrix A n).det := isUnit_iff_ne_zero.mpr hdet
    exact Matrix.mulVec_injective_iff_isUnit.mpr
      ((Matrix.isUnit_iff_isUnit_det _).mpr hunit) (hz.trans hy.symm)

/-- C2. Over an exact field, for `n ≥ 1` and an augmented matrix whose coefficient block
has determinant `0`, `GaussianElemination` takes the "The Matrix A is singular" exit and
returns no solution vector. -/
theorem GaussianElemination_singular (A : Nat → Nat → K) (n : Nat) (hn : 1 ≤ n) (x : Nat → K)
    (hdet : (coeffMatrix A n).det = 0) :
    GaussianElemination A n x = none := by
  have h := GaussianElemination_spec A n hn x
  cases hg : GaussianElemination A n x with
  | none => rfl
  | some Uy =>
    obtain ⟨U, y⟩ := Uy
    rw [hg] at h
    exact absurd hdet h.1

/-- C1 at a `3 × 3` system with determinant `-1`. -/
theorem GaussianElemination_solves_witness :
    (coeffMatrix sampleSystem 3).det ≠ 0 ∧
      ∃ U y, GaussianElemination sampleSystem 3 (fun _ => 0) = some (U, y) ∧
        (coeffMatrix sampleSystem 3).mulVec (fun j => y j.val) = rhsVector sampleSystem 3 ∧
        ∀ z : Fin 3 → ℚ, (coeffMatrix sampleSystem 3).mulVec z = rhsVector sampleSystem 3 →
          z = fun j => y j.val :=
  have h : (coeffMatrix sampleSystem 3).det ≠ 0 := by
    simp [coeffMatrix, Matrix.det_fin_three, sampleSystem]
    norm_num
  ⟨h, GaussianElemination_solves sampleSystem 3 (by decide) (fun _ => 0) h⟩

/-- C2 at a singular `2 × 2` system. -/
theorem GaussianElemination_singular_witness :
    (coeffMatrix singularSystem 2).det = 0 ∧
      GaussianElemination singularSystem 2 (fun _ => 0) = none :=
  have h : (coeffMatrix singularSystem 2).det = 0 := by
    simp [coeffMatrix, Matrix.det_fin_two, singularSystem]
    norm_num
  ⟨h, GaussianElemination_singular singularSystem 2 (by decide) (fun _ => 0) h⟩

end GaussianEleminationProofs

theorem odometer_zero (B d : Nat) : odometer B d 0 = List.replicate (d + 1) 0 := by
  induction d with
  | zero => rfl
  | succ d ih => simp [odometer, ih, List.replicate_succ]

theorem odometer_length (B d v : Nat) : (odometer B d v).length = d + 1 := by
  induction d generalizing v with
  | zero => rfl
  | succ d ih => simp [odometer, ih]

theorem advanceCounters_odometer (degree : Nat) (hdeg : 1 ≤ degree) (d v : Nat)
    (hv : v < (degree + 1) ^ d) :
    advanceCounters degree (odometer (degree + 1) d v) = odometer (degree + 1) d (v + 1) := by
  induction d generalizing v with
  | zero =>
    have : v = 0 := by simpa using hv
    subst this
    simp only [odometer, advanceCounters]
    rw [if_neg (by omega)]
  | succ d ih =>
    have hq : v / (degree + 1) < (degree + 1) ^ d := by
      rw [Nat.div_lt_iff_lt_mul (by omega)]
      rw [pow_succ] at hv
      exact hv
    have hm := Nat.mod_lt v (by omega : degree + 1 > 0)
    have hdm := Nat.div_add_mod v (degree + 1)
    simp only [odometer, advanceCounters]
    by_cases h : v % (degree + 1) = degree
    · rw [if_pos h, ih _ hq]
      have e1 : (v + 1) % (degree + 1) = 0 := by
        rw [Nat.add_mod, h]; simp
      have e2 : (v + 1) / (degree + 1) = v / (degree + 1) + 1 := by
        have : v + 1 = (v / (degree + 1) + 1) * (degree + 1) := by
          rw [Nat.add_mul, Nat.one_mul, Nat.mul_comm]; omega
        rw [this, Nat.mul_div_cancel _ (by omega : 0 < degree + 1)]
      rw [e1, e2]
    · rw [if_neg h]
      have hlt : v % (degree + 1) + 1 < degree + 1 := by omega
      have e1 : (v + 1) % (degree + 1) = v % (degree + 1) + 1 := by
        rw [Nat.add_mod, Nat.mod_eq_of_lt (by omega : 1 < degree + 1), Nat.mod_eq_of_lt hlt]
      have e2 : (v + 1) / (degree + 1) = v / (degree + 1) := by
        have : v + 1 = (v % (degree + 1) + 1) + (degree + 1) * (v / (degree + 1)) := by omega
        rw [this, Nat.add_mul_div_left _ _ (by omega : 0 < degree + 1), Nat.div_eq_of_lt hlt,
          Nat.zero_add]
      rw [e1, e2]

theorem odometer_getD_top (B d v : Nat) : (odometer B d v).getD d 0 = v / B ^ d := by
  induction d generalizing v with
  | zero => simp [odometer]
  | succ d ih =>
    simp only [odometer, List.getD_cons_succ, ih]
    rw [Nat.div_div_eq_div_mul, pow_succ']

theorem odometer_getD_lt (B d v j : Nat) (hj : j < d) :
    (odometer B d v).getD j 0 = digit B v j := by
  induction d generalizing v j with
  | zero => omega
  | succ d ih =>
    cases j with
    | zero => simp [odometer, digit]
    | succ j =>
      simp only [odometer, List.getD_cons_succ]
      rw [ih _ _ (by omega)]
      unfold digit
      rw [Nat.div_div_eq_div_mul, pow_succ']

theorem foldl_add_eq_sum (f : Nat → Nat) (d a : Nat) :
    (List.range d).foldl (fun s j => s + f j) a = a + ∑ j in Finset.range d, f j := by
  induction d with
  | zero => simp
  | succ d ih =>
    rw [List.range_succ, List.foldl_append, ih, Finset.sum_range_succ]
    simp [Nat.add_assoc]

theorem entrySum_odometer (B d v : Nat) : entrySum d (odometer B d v) = digitSum B d v := by
  unfold entrySum digitSum
  rw [foldl_add_eq_sum, Nat.zero_add]
  apply Finset.sum_congr rfl
  intro j hj
  exact odometer_getD_lt B d v j (Finset.mem_range.mp hj)

theorem indexRow_odometer (B d v : Nat) : indexRow d (odometer B d v) = digitRow B d v := by
  unfold indexRow digitRow
  apply List.map_congr_left
  intro j hj
  exact odometer_getD_lt B d v _ (by have := List.mem_range.mp hj; omega)

theorem indexSetLoop_odometer (degree d : Nat) (hdeg : 1 ≤ degree) :
    ∀ k v fuel Jp, (degree + 1) ^ d - v = k → v ≤ (degree + 1) ^ d → k + 1 ≤ fuel →
      indexSetLoop degree d fuel (odometer (degree + 1) d v) Jp
        = some (Jp ++ ((List.range' v k).filter
            (fun w => decide (digitSum (degree + 1) d w ≤ degree))).map
              (digitRow (degree + 1) d)) := by
  intro k
  induction k with
  | zero =>
    intro v fuel Jp hk hv hf
    obtain ⟨f, rfl⟩ : ∃ f, fuel = f + 1 := ⟨fuel - 1, by omega⟩
    have hv' : v = (degree + 1) ^ d := by omega
    simp only [indexSetLoop, odometer_getD_top]
    rw [if_pos]
    · simp
    · rw [hv', Nat.div_self (by positivity)]; omega
  | succ k ih =>
    intro v fuel Jp hk hv hf
    obtain ⟨f, rfl⟩ : ∃ f, fuel = f + 1 := ⟨fuel - 1, by omega⟩
    have hv' : v < (degree + 1) ^ d := by omega
    simp only [indexSetLoop, odometer_getD_top]
    rw [if_neg (by rw [Nat.div_eq_of_lt hv']; simp), advanceCounters_odometer degree hdeg d v hv',
      ih (v + 1) f _ (by omega) (by omega) (by omega), entrySum_odometer, indexRow_odometer]
    congr 1
    rw [List.range'_succ, List.filter_cons]
    by_cases h : digitSum (degree + 1) d v ≤ degree
    · simp [h]
    · simp [h]

/-- The rows written by `ComputeIndexSet`: the odometer values `0 .. (degree+1)^dimension - 1`
whose digit sum is at most `degree`, each as its digit row. -/
theorem ComputeIndexSet_eq (degree dimension : Nat) (hdeg : 1 ≤ degree) :
    ComputeIndexSet degree dimension
      = some (((List.range ((degree + 1) ^ dimension)).filter
          (fun w => decide (digitSum (degree + 1) dimension w ≤ degree))).map
            (digitRow (degree + 1) dimension)) := by
  unfold ComputeIndexSet
  rw [← odometer_zero (degree + 1) dimension,
    indexSetLoop_odometer degree dimension hdeg _ 0 _ [] rfl (Nat.zero_le _) (by omega)]
  simp [List.range_eq_range']

theorem digit_mod_pow (B v d k : Nat) (hk : k < d) : digit B (v % B ^ d) k = digit B v k := by
  unfold digit
  rw [← Nat.mod_mul_right_div_self, ← Nat.mod_mul_right_div_self, ← pow_succ,
    Nat.mod_mod_of_dvd _ (pow_dvd_pow B (by omega : k + 1 ≤ d))]

theorem digitRow_eq_leadingDigits (B d v : Nat) (hv : v < B ^ d) :
    digitRow B d v = leadingDigits B d v := by
  induction d generalizing v with
  | zero => rfl
  | succ d ih =>
    have hB : 0 < B := by
      rcases Nat.eq_zero_or_pos B with h | h
      · subst h; simp at hv
      · exact h
    have hr : v % B ^ d < B ^ d := Nat.mod_lt _ (by positivity)
    unfold digitRow leadingDigits
    rw [List.range_succ_eq_map, List.map_cons, List.map_map]
    congr 1
    · show v / B ^ (d + 1 - 1 - 0) % B = v / B ^ d
      rw [Nat.add_sub_cancel, Nat.sub_zero, Nat.mod_eq_of_lt]
      rw [Nat.div_lt_iff_lt_mul (by positivity), ← pow_succ']
      rw [pow_succ'] at hv ⊢
      exact hv
    · rw [← ih _ hr]
      unfold digitRow
      apply List.map_congr_left
      intro j hj
      have hj := List.mem_range.mp hj
      show digit B v (d + 1 - 1 - (j + 1)) = digit B (v % B ^ d) (d - 1 - j)
      rw [digit_mod_pow B v d _ (by omega)]
      congr 1
      omega

theorem sum_map_range (f : Nat → Nat) (d : Nat) :
    ((List.range d).map f).sum = ∑ j in Finset.range d, f j := by
  induction d with
  | zero => simp
  | succ d ih => rw [List.range_succ, List.map_append, List.sum_append, ih,
      Finset.sum_range_succ]; simp

theorem digitRow_sum (B d v : Nat) : (digitRow B d v).sum = digitSum B d v := by
  unfold digitRow digitSum
  rw [sum_map_range, Finset.sum_range_reflect]

theorem digitRow_length (B d v : Nat) : (digitRow B d v).length = d := by
  simp [digitRow]

theorem leadingDigits_length (B d v : Nat) : (leadingDigits B d v).length = d := by
  induction d generalizing v with
  | zero => rfl
  | succ d ih => simp [leadingDigits, ih]

theorem ofLeadingDigits_leadingDigits (B d v : Nat) (hv : v < B ^ d) :
    ofLeadingDigits B (leadingDigits B d v) = v := by
  induction d generalizing v with
  | zero =>
    have : v = 0 := by simpa using hv
    subst this; rfl
  | succ d ih =>
    have hB : 0 < B := by
      rcases Nat.eq_zero_or_pos B with h | h
      · subst h; simp at hv
      · exact h
    have hr : v % B ^ d < B ^ d := Nat.mod_lt _ (by positivity)
    simp only [leadingDigits, ofLeadingDigits, leadingDigits_length, ih _ hr]
    exact Nat.div_add_mod' v (B ^ d)

theorem leadingDigits_ofLeadingDigits (B : Nat) (m : List Nat) (hm : ∀ a ∈ m, a < B) :
    ofLeadingDigits B m < B ^ m.length ∧
      leadingDigits B m.length (ofLeadingDigits B m) = m := by
  induction m with
  | nil => simp [ofLeadingDigits, leadingDigits]
  | cons a m ih =>
    obtain ⟨h1, h2⟩ := ih (fun b hb => hm b (List.mem_cons_of_mem a hb))
    have ha : a < B := hm a (List.mem_cons_self a m)
    have hpos : 0 < B ^ m.length := by
      have : 0 < B := by omega
      positivity
    simp only [ofLeadingDigits, List.length_cons, leadingDigits]
    constructor
    · calc a * B ^ m.length + ofLeadingDigits B m
          < a * B ^ m.length + B ^ m.length := by omega
        _ = (a + 1) * B ^ m.length := by ring
        _ ≤ B * B ^ m.length := Nat.mul_le_mul_right _ ha
        _ = B ^ (m.length + 1) := by rw [pow_succ']
    · have e1 : (a * B ^ m.length + ofLeadingDigits B m) / B ^ m.length = a := by
        rw [Nat.add_comm, Nat.add_mul_div_right _ _ hpos, Nat.div_eq_of_lt h1, Nat.zero_add]
      have e2 : (a * B ^ m.length + ofLeadingDigits B m) % B ^ m.length
          = ofLeadingDigits B m := by
        rw [Nat.add_comm, Nat.add_mul_mod_self_right, Nat.mod_eq_of_lt h1]
      rw [e1, e2, h2]

theorem leadingDigits_lex (B d : Nat) :
    ∀ v w, v < w → w < B ^ d →
      List.Lex (fun a b : Nat => a < b) (leadingDigits B d v) (leadingDigits B d w) := by
  induction d with
  | zero => intro v w hvw hw; simp at hw; omega
  | succ d ih =>
    intro v w hvw hw
    have hB : 0 < B := by
      rcases Nat.eq_zero_or_pos B with h | h
      · subst h; simp at hw
      · exact h
    have hpos : 0 < B ^ d := by positivity
    simp only [leadingDigits]
    have hle : v / B ^ d ≤ w / B ^ d := Nat.div_le_div_right (le_of_lt hvw)
    rcases Nat.lt_or_eq_of_le hle with h | h
    · exact List.Lex.rel h
    · rw [h]
      apply List.Lex.cons
      apply ih _ _ _ (Nat.mod_lt _ hpos)
      have h1 := Nat.div_add_mod v (B ^ d)
      have h2 := Nat.div_add_mod w (B ^ d)
      rw [h] at h1
      omega

theorem digitSum_succ (B d v : Nat) :
    digitSum B (d + 1) v = v % B + digitSum B d (v / B) := by
  unfold digitSum
  rw [Finset.sum_range_succ', Nat.add_comm]
  congr 1
  · simp [digit]
  · apply Finset.sum_congr rfl
    intro j _
    unfold digit
    rw [Nat.div_div_eq_div_mul, pow_succ']

theorem boundedSums_succ (B d D : Nat) (hD : D < B) :
    boundedSums B (d + 1) D
      = (Finset.range (D + 1)).biUnion
          (fun a => (boundedSums B d (D - a)).image (fun q => a + B * q)) := by
  have hB : 0 < B := by omega
  ext v
  simp only [boundedSums, Finset.mem_filter, Finset.mem_range, Finset.mem_biUnion,
    Finset.mem_image, digitSum_succ]
  constructor
  · rintro ⟨hv, hs⟩
    refine ⟨v % B, by omega, v / B, ⟨?_, by omega⟩, Nat.mod_add_div v B⟩
    rw [Nat.div_lt_iff_lt_mul hB, ← pow_succ]
    exact hv
  · rintro ⟨a, ha, q, ⟨hq, hs⟩, rfl⟩
    have e1 : (a + B * q) % B = a := by
      rw [Nat.add_mul_mod_self_left, Nat.mod_eq_of_lt (by omega)]
    have e2 : (a + B * q) / B = q := by
      rw [Nat.add_mul_div_left _ _ hB, Nat.div_eq_of_lt (by omega), Nat.zero_add]
    rw [e1, e2]
    refine ⟨?_, by omega⟩
    calc a + B * q < B + B * q := by omega
      _ = B * (q + 1) := by ring
      _ ≤ B * B ^ d := Nat.mul_le_mul_left _ hq
      _ = B ^ (d + 1) := by rw [pow_succ']

theorem sum_choose_diagonal (d D : Nat) :
    ∑ j in Finset.range (D + 1), Nat.choose (d + j) j = Nat.choose (d + D + 1) D := by
  induction D with
  | zero => simp
  | succ D ih =>
    rw [Finset.sum_range_succ, ih]
    have : d + (D + 1) + 1 = (d + D + 1) + 1 := by omega
    rw [this, Nat.choose_succ_succ (d + D + 1) D]
    rfl

theorem card_boundedSums (B d : Nat) :
    ∀ D, D < B → (boundedSums B d D).card = Nat.choose (d + D) D := by
  induction d with
  | zero =>
    intro D _
    simp [boundedSums, digitSum]
  | succ d ih =>
    intro D hD
    have hB : 0 < B := by omega
    rw [boundedSums_succ B d D hD, Finset.card_biUnion]
    · have h1 : ∀ a ∈ Finset.range (D + 1),
          ((boundedSums B d (D - a)).image (fun q => a + B * q)).card
            = Nat.choose (d + (D - a)) (D - a) := by
        intro a _
        rw [Finset.card_image_of_injective, ih _ (by omega)]
        intro q q' h
        have h' : B * q = B * q' := Nat.add_left_cancel h
        exact Nat.eq_of_mul_eq_mul_left hB h'
      rw [Finset.sum_congr rfl h1]
      have h2 := Finset.sum_range_reflect (fun j => Nat.choose (d + j) j) (D + 1)
      simp only [Nat.add_sub_cancel] at h2
      rw [h2, sum_choose_diagonal]
      congr 1
      omega
    · intro a ha a' ha' hne
      rw [Finset.disjoint_left]
      intro v hv hv'
      simp only [Finset.mem_image] at hv hv'
      obtain ⟨q, _, rfl⟩ := hv
      obtain ⟨q', _, h⟩ := hv'
      have ha := Finset.mem_range.mp ha
      have ha' := Finset.mem_range.mp ha'
      have := congrArg (· % B) h
      simp only [Nat.add_mul_mod_self_left] at this
      rw [Nat.mod_eq_of_lt (by omega), Nat.mod_eq_of_lt (by omega)] at this
      exact hne this.symm

theorem length_filter_range (n : Nat) (p : Nat → Prop) [DecidablePred p] :
    ((List.range n).filter (fun w => decide (p w))).length
      = ((Finset.range n).filter p).card := by
  rfl

/-- C3. For every `degree ≥ 1` and every `dimension`, `ComputeIndexSet` returns, fills
exactly `C(dimension + degree, degree)` rows of `Jp`, every row has entry sum at most
`degree`, and no two rows are equal. -/
theorem ComputeIndexSet_count (degree dimension : Nat) (hdeg : 1 ≤ degree)
    (_hdim : 1 ≤ dimension) :
    ∃ Jp, ComputeIndexSet degree dimension = some Jp ∧
      Jp.length = dimJp degree dimension ∧
      (∀ row ∈ Jp, row.sum ≤ degree) ∧
      Jp.Nodup := by
  refine ⟨_, ComputeIndexSet_eq degree dimension hdeg, ?_, ?_, ?_⟩
  · rw [List.length_map, length_filter_range]
    exact card_boundedSums (degree + 1) dimension degree (by omega)
  · intro row hrow
    obtain ⟨w, hw, rfl⟩ := List.mem_map.mp hrow
    rw [digitRow_sum]
    simpa using (List.mem_filter.mp hw).2
  · apply List.Nodup.map_on
    · intro v hv w hw h
      have hv' := List.mem_range.mp (List.mem_filter.mp hv).1
      have hw' := List.mem_range.mp (List.mem_filter.mp hw).1
      rw [digitRow_eq_leadingDigits _ _ _ hv', digitRow_eq_leadingDigits _ _ _ hw'] at h
      rw [← ofLeadingDigits_leadingDigits _ _ _ hv', ← ofLeadingDigits_leadingDigits _ _ _ hw', h]
    · exact List.Nodup.filter _ (List.nodup_range _)

/-- C3, at the values of `main`: for `degree = 3`, `dimension = 2` exactly `10` distinct
rows with entry sum at most `3` are written. -/
theorem ComputeIndexSet_count_witness :
    ∃ Jp, ComputeIndexSet 3 2 = some Jp ∧ Jp.length = dimJp 3 2 ∧
      (∀ row ∈ Jp, row.sum ≤ 3) ∧ Jp.Nodup :=
  ComputeIndexSet_count 3 2 (by decide) (by decide)

/-- C4. For every `degree ≥ 1` and every `dimension`, the rows of `Jp` in output order are
precisely all multi-indices of length `dimension` with entry sum at most `degree`, listed in
strictly increasing lexicographic order, component `0` being the most significant. -/
theorem ComputeIndexSet_lex (degree dimension : Nat) (hdeg : 1 ≤ degree)
    (_hdim : 1 ≤ dimension) :
    ∃ Jp, ComputeIndexSet degree dimension = some Jp ∧
      (∀ m : List Nat, m ∈ Jp ↔ m.length = dimension ∧ m.sum ≤ degree) ∧
      Jp.Pairwise (List.Lex (fun a b : Nat => a < b)) := by
  refine ⟨_, ComputeIndexSet_eq degree dimension hdeg, ?_, ?_⟩
  · intro m
    constructor
    · intro hm
      obtain ⟨w, hw, rfl⟩ := List.mem_map.mp hm
      refine ⟨digitRow_length _ _ _, ?_⟩
      rw [digitRow_sum]
      simpa using (List.mem_filter.mp hw).2
    · rintro ⟨hlen, hsum⟩
      have hlt : ∀ a ∈ m, a < degree + 1 := by
        intro a ha
        have := List.single_le_sum (fun _ _ => Nat.zero_le _) a ha
        omega
      obtain ⟨h1, h2⟩ := leadingDigits_ofLeadingDigits (degree + 1) m hlt
      rw [hlen] at h1 h2
      have h3 := digitRow_eq_leadingDigits _ _ _ h1
      rw [h2] at h3
      apply List.mem_map.mpr
      refine ⟨ofLeadingDigits (degree + 1) m, ?_, h3⟩
      apply List.mem_filter.mpr
      refine ⟨List.mem_range.mpr h1, ?_⟩
      rw [← digitRow_sum, h3]
      simpa using hsum
  · rw [List.pairwise_map]
    have hlt : (List.range ((degree + 1) ^ dimension)).Pairwise (fun a b => a < b) :=
      List.pairwise_lt_range _
    have hsub := List.Pairwise.sublist (List.filter_sublist
      (p := fun w => decide (digitSum (degree + 1) dimension w ≤ degree))
      (List.range ((degree + 1) ^ dimension))) hlt
    have hmem : ∀ w ∈ (List.range ((degree + 1) ^ dimension)).filter
        (fun w => decide (digitSum (degree + 1) dimension w ≤ degree)),
        w < (degree + 1) ^ dimension := by
      intro w hw
      exact List.mem_range.mp (List.mem_filter.mp hw).1
    refine (List.Pairwise.and_mem.mp hsub).imp ?_
    rintro v w ⟨hv, hw, hvw⟩
    rw [digitRow_eq_leadingDigits _ _ _ (hmem v hv), digitRow_eq_leadingDigits _ _ _ (hmem w hw)]
    exact leadingDigits_lex _ _ _ _ hvw (hmem w hw)

/-- C4, at the values of `main` (`degree = 3`, `dimension = 2`). -/
theorem ComputeIndexSet_lex_witness :
    ∃ Jp, ComputeIndexSet 3 2 = some Jp ∧
      (∀ m : List Nat, m ∈ Jp ↔ m.length = 2 ∧ m.sum ≤ 3) ∧
      Jp.Pairwise (List.Lex (fun a b : Nat => a < b)) :=
  ComputeIndexSet_lex 3 2 (by decide) (by decide)

section GetChebyshevProofs

variable {K : Type} [CommRing K]

theorem resize_length (T : List K) (m : Nat) : (resize T m).length = m := by
  unfold resize
  rw [List.length_append, List.length_take, List.length_replicate]
  omega

theorem chebyshev_eval_add_two (x : K) (k : Nat) :
    (Polynomial.Chebyshev.T K ((k + 2 : Nat) : ℤ)).eval x
      = 2 * x * (Polynomial.Chebyshev.T K ((k + 1 : Nat) : ℤ)).eval x
        - (Polynomial.Chebyshev.T K (k : ℤ)).eval x := by
  have h := Polynomial.Chebyshev.T_add_two K (k : ℤ)
  have e1 : ((k + 2 : Nat) : ℤ) = (k : ℤ) + 2 := by push_cast; ring
  have e2 : ((k + 1 : Nat) : ℤ) = (k : ℤ) + 1 := by push_cast; ring
  rw [e1, e2, h]
  simp

theorem GetChebyshev_loop (x : K) (n : Nat) (T2 : List K) (hlen : T2.length = n + 1)
    (h0 : T2[0]? = some 1) (h1 : T2[1]? = some x) :
    ∀ m, m + 2 ≤ n + 1 →
      let T := (List.range' 2 m).foldl
        (fun T i => T.set i (2 * x * T.getD (i - 1) 0 - T.getD (i - 2) 0)) T2
      T.length = n + 1 ∧
        ∀ k, k < m + 2 → T[k]? = some ((Polynomial.Chebyshev.T K (k : ℤ)).eval x) := by
  intro m
  induction m with
  | zero =>
    intro _
    refine ⟨hlen, ?_⟩
    intro k hk
    interval_cases k
    · simpa using h0
    · simpa using h1
  | succ m ih =>
    intro hm
    obtain ⟨hl, hk⟩ := ih (by omega)
    rw [List.range'_concat, List.foldl_append]
    simp only [List.foldl_cons, List.foldl_nil, Nat.one_mul]
    refine ⟨by rw [List.length_set]; exact hl, ?_⟩
    intro k hk'
    by_cases hkm : k = 2 + m
    · subst hkm
      rw [List.getElem?_set_self (by rw [hl]; omega)]
      have e1 : 2 + m - 1 = m + 1 := by omega
      have e2 : 2 + m - 2 = m := by omega
      rw [e1, e2, List.getD_eq_getElem?_getD, List.getD_eq_getElem?_getD,
        hk (m + 1) (by omega), hk m (by omega)]
      simp only [Option.getD_some]
      have := chebyshev_eval_add_two x m
      rw [Nat.add_comm 2 m, this]
    · rw [List.getElem?_set_ne (by omega)]
      exact hk k (by omega)

theorem GetChebyshev_entries (T : List K) (n : Nat) (x : K) (hn : 1 ≤ n) :
    (GetChebyshev T n x).length = n + 1 ∧
      ∀ k, k ≤ n →
        (GetChebyshev T n x)[k]? = some ((Polynomial.Chebyshev.T K (k : ℤ)).eval x) := by
  have hlen : (((resize T (n + 1)).set 0 1).set 1 x).length = n + 1 := by
    rw [List.length_set, List.length_set, resize_length]
  have h0 : (((resize T (n + 1)).set 0 1).set 1 x)[0]? = some 1 := by
    rw [List.getElem?_set_ne (by omega), List.getElem?_set_self (by rw [resize_length]; omega)]
  have h1 : (((resize T (n + 1)).set 0 1).set 1 x)[1]? = some x := by
    rw [List.getElem?_set_self (by rw [List.length_set, resize_length]; omega)]
  have h := GetChebyshev_loop x n _ hlen h0 h1 (n + 1 - 2) (by omega)
  exact ⟨h.1, fun k hk => h.2 k (by omega)⟩

/-- For `n ≥ 1` the vector left in `T` does not depend on the vector passed in: it is
resized to `n + 1` entries and every entry is rewritten. -/
theorem GetChebyshev_independent (T T' : List K) (n : Nat) (x : K) (hn : 1 ≤ n) :
    GetChebyshev T n x = GetChebyshev T' n x := by
  obtain ⟨hl, hk⟩ := GetChebyshev_entries T n x hn
  obtain ⟨hl', hk'⟩ := GetChebyshev_entries T' n x hn
  apply List.ext_getElem?
  intro k
  by_cases h : k ≤ n
  · rw [hk k h, hk' k h]
  · rw [List.getElem?_eq_none (by omega), List.getElem?_eq_none (by omega)]

/-- C5. Over exact arithmetic, for every `n ≥ 1`, every `x` and every `k ≤ n` the vector
returned by `GetChebyshev` has length `n + 1` and `T[k]` is the `k`-th Chebyshev polynomial
of the first kind at `x`; in particular `T[0] = 1`, `T[1] = x`, and `T[2] = 2 x² - 1`
whenever `n ≥ 2`. -/
theorem GetChebyshev_eval (T : List K) (n : Nat) (x : K) (hn : 1 ≤ n) :
    (GetChebyshev T n x).length = n + 1 ∧
      (∀ k, k ≤ n →
        (GetChebyshev T n x)[k]? = some ((Polynomial.Chebyshev.T K (k : ℤ)).eval x)) ∧
      (GetChebyshev T n x)[0]? = some 1 ∧
      (GetChebyshev T n x)[1]? = some x ∧
      (2 ≤ n → (GetChebyshev T n x)[2]? = some (2 * x ^ 2 - 1)) := by
  obtain ⟨hlen, hall⟩ := GetChebyshev_entries T n x hn
  refine ⟨hlen, hall, ?_, ?_, ?_⟩
  · have := hall 0 (by omega)
    simpa using this
  · have := hall 1 hn
    simpa using this
  · intro h2
    have := hall 2 h2
    rw [this]
    simp [Polynomial.Chebyshev.T_two]

/-- C5 at the degree of `main`: `GetChebyshev (T, 3, 1/2)` on an empty vector. -/
theorem GetChebyshev_eval_witness :
    (GetChebyshev ([] : List ℚ) 3 (1 / 2)).length = 3 + 1 ∧
      (∀ k : Nat, k ≤ 3 → (GetChebyshev ([] : List ℚ) 3 (1 / 2))[k]?
        = some ((Polynomial.Chebyshev.T ℚ (k : ℤ)).eval (1 / 2))) ∧
      (GetChebyshev ([] : List ℚ) 3 (1 / 2))[0]? = some 1 ∧
      (GetChebyshev ([] : List ℚ) 3 (1 / 2))[1]? = some (1 / 2) ∧
      (2 ≤ 3 → (GetChebyshev ([] : List ℚ) 3 (1 / 2))[2]? = some (2 * (1 / 2) ^ 2 - 1)) :=
  GetChebyshev_eval [] 3 (1 / 2) (by decide)

end GetChebyshevProofs

theorem reduceIndex_eq_mod (m : Nat) (hm : 0 < m) : ∀ jj, reduceIndex m jj = jj % m := by
  intro jj
  induction jj using Nat.strong_induction_on with
  | _ jj ih =>
    rw [reduceIndex]
    by_cases h : m ≤ jj
    · rw [if_pos ⟨hm, h⟩, ih (jj - m) (by omega), Nat.mod_eq_sub_mod h]
    · rw [if_neg (by omega), Nat.mod_eq_of_lt (by omega)]

theorem foldl_set_add (size : Nat) (f : Nat → Nat) (e : List Nat) (he : e.length = size) :
    ∀ m, m ≤ size →
      (List.range m).foldl (fun e j => e.set j (e.getD j 0 + f j)) e
        = (List.range size).map (fun j => if j < m then e.getD j 0 + f j else e.getD j 0) := by
  intro m
  induction m with
  | zero =>
    intro _
    apply List.ext_getElem?
    intro k
    simp only [List.range_zero, List.foldl_nil, List.getElem?_map, List.getElem?_range,
      Nat.not_lt_zero, if_false]
    by_cases hk : k < size
    · rw [List.getElem?_range hk]
      simp [List.getD_eq_getElem?_getD, List.getElem?_eq_getElem (he ▸ hk)]
    · rw [List.getElem?_eq_none (by omega), List.getElem?_eq_none (by simp; omega)]
      rfl
  | succ m ih =>
    intro hm
    rw [List.range_succ, List.foldl_append, ih (by omega)]
    simp only [List.foldl_cons, List.foldl_nil]
    apply List.ext_getElem?
    intro k
    have hmm : ((List.range size).map
        (fun j => if j < m then e.getD j 0 + f j else e.getD j 0)).getD m 0 = e.getD m 0 := by
      rw [List.getD_eq_getElem?_getD, List.getElem?_map, List.getElem?_range (by omega)]
      simp
    rw [hmm]
    by_cases hkm : k = m
    · subst hkm
      rw [List.getElem?_set_self (by simp; omega), List.getElem?_map,
        List.getElem?_range (by omega)]
      simp
    · rw [List.getElem?_set_ne (by omega), List.getElem?_map, List.getElem?_map]
      by_cases hk : k < size
      · rw [List.getElem?_range hk]
        simp only [Option.map_some']
        congr 1
        by_cases h1 : k < m
        · rw [if_pos h1, if_pos (by omega)]
        · rw [if_neg h1, if_neg (by omega)]
      · rw [List.getElem?_eq_none (by simp; omega)]
        rfl

theorem foldl_set_add_full (size : Nat) (f : Nat → Nat) (e : List Nat) (he : e.length = size) :
    (List.range size).foldl (fun e j => e.set j (e.getD j 0 + f j)) e
      = (List.range size).map (fun j => e.getD j 0 + f j) := by
  rw [foldl_set_add size f e he size (le_refl _)]
  apply List.map_congr_left
  intro j hj
  rw [if_pos (List.mem_range.mp hj)]

theorem SetElementDofs_loop (idx : List Nat) (nve1d : Nat) :
    ∀ k, k ≤ idx.length →
      (List.range k).foldl
        (fun (st : List Nat × Nat) d =>
          ((List.range (2 ^ idx.length)).foldl
            (fun e j =>
              let jj := reduceIndex (2 * st.2) j / st.2
              e.set j (e.getD j 0 + (idx.getD d 0 + jj) * nve1d ^ (idx.length - 1 - d)))
            st.1,
           st.2 / 2))
        (List.replicate (2 ^ idx.length) 0, 2 ^ idx.length / 2)
      = ((List.range (2 ^ idx.length)).map (cornerSum idx nve1d k),
          2 ^ idx.length / 2 ^ (k + 1)) := by
  intro k
  induction k with
  | zero =>
    intro _
    simp only [List.range_zero, List.foldl_nil, zero_add, pow_one]
    congr 1
    apply List.ext_getElem?
    intro j
    by_cases hj : j < 2 ^ idx.length
    · rw [List.getElem?_replicate, if_pos hj, List.getElem?_map, List.getElem?_range hj]
      simp [cornerSum]
    · rw [List.getElem?_eq_none (by simp; omega), List.getElem?_eq_none (by simp; omega)]
  | succ k ih =>
    intro hk
    rw [List.range_succ, List.foldl_append, ih (by omega)]
    simp only [List.foldl_cons, List.foldl_nil]
    have hsh : 2 ^ idx.length / 2 ^ (k + 1) = 2 ^ (idx.length - 1 - k) := by
      rw [Nat.pow_div (by omega) (by omega)]
      congr 1
      omega
    have hsh2 : 2 * 2 ^ (idx.length - 1 - k) = 2 ^ (idx.length - 1 - k + 1) := by
      rw [pow_succ']
    congr 1
    · rw [hsh, foldl_set_add_full _
        (fun j => (idx.getD k 0 + reduceIndex (2 * 2 ^ (idx.length - 1 - k)) j
            / 2 ^ (idx.length - 1 - k)) * nve1d ^ (idx.length - 1 - k)) _ (by simp)]
      apply List.map_congr_left
      intro j hj
      have hj := List.mem_range.mp hj
      rw [List.getD_eq_getElem?_getD, List.getElem?_map, List.getElem?_range hj]
      simp only [Option.map_some', Option.getD_some]
      unfold cornerSum
      rw [Finset.sum_range_succ, reduceIndex_eq_mod _ (by positivity), hsh2]
      congr 3
      unfold digit
      rw [← Nat.mod_mul_right_div_self, ← pow_succ]
    · rw [Nat.div_div_eq_div_mul, ← pow_succ]

/-- Closed form of `SetElementDofs`: entry `j` is the sum over the directions `d` of
`(idx[d] + bit (dim - 1 - d) of j) * nve1d ^ (dim - 1 - d)`. -/
theorem SetElementDofs_eq (idx : List Nat) (nve1d : Nat) :
    SetElementDofs idx nve1d
      = (List.range (2 ^ idx.length)).map (cornerSum idx nve1d idx.length) := by
  unfold SetElementDofs
  simp only
  rw [SetElementDofs_loop idx nve1d idx.length (le_refl _)]

theorem ofLeadingDigits_map_range (B : Nat) :
    ∀ (len : Nat) (a : Nat → Nat),
      ofLeadingDigits B ((List.range len).map a)
        = ∑ d in Finset.range len, a d * B ^ (len - 1 - d) := by
  intro len
  induction len with
  | zero => intro a; rfl
  | succ len ih =>
    intro a
    rw [List.range_succ_eq_map, List.map_cons, List.map_map, Finset.sum_range_succ',
      Nat.add_comm]
    simp only [ofLeadingDigits, List.length_map, List.length_range]
    congr 1
    rw [ih]
    apply Finset.sum_congr rfl
    intro d hd
    have hd := Finset.mem_range.mp hd
    show a (d + 1) * B ^ (len - 1 - d) = a (d + 1) * B ^ (len + 1 - 1 - (d + 1))
    congr 2
    omega

theorem GetMultiIndex_eq_digitRow (dim n i : Nat) : GetMultiIndex dim n i = digitRow n dim i := by
  unfold GetMultiIndex digitRow
  apply List.map_congr_left
  intro d hd
  have hd := List.mem_range.mp hd
  unfold digit
  have e : n ^ (dim - d) = n ^ (dim - 1 - d) * n := by
    rw [← pow_succ]; congr 1; omega
  rw [e, Nat.mod_mul_right_div_self]

theorem cornerSum_eq (idx : List Nat) (nve1d j : Nat) :
    cornerSum idx nve1d idx.length j = ofLeadingDigits nve1d (cornerIndex idx j) := by
  unfold cornerSum cornerIndex
  rw [ofLeadingDigits_map_range]

theorem digit_two_le (j k : Nat) : digit 2 j k ≤ 1 := by
  unfold digit
  have := Nat.mod_lt (j / 2 ^ k) (by decide : 2 > 0)
  omega

theorem cornerIndex_lt (idx : List Nat) (nve1d j : Nat) (hidx : ∀ a ∈ idx, a + 1 < nve1d) :
    ∀ a ∈ cornerIndex idx j, a < nve1d := by
  intro a ha
  obtain ⟨d, hd, rfl⟩ := List.mem_map.mp ha
  have hd := List.mem_range.mp hd
  have h1 : idx.getD d 0 ∈ idx := by
    rw [List.getD_eq_getElem _ _ hd]
    exact List.getElem_mem hd
  have := hidx _ h1
  have := digit_two_le j (idx.length - 1 - d)
  omega

theorem cornerIndex_length (idx : List Nat) (j : Nat) : (cornerIndex idx j).length = idx.length := by
  simp [cornerIndex]

theorem GetMultiIndex_cornerSum (idx : List Nat) (nve1d j : Nat)
    (hidx : ∀ a ∈ idx, a + 1 < nve1d) :
    cornerSum idx nve1d idx.length j < nve1d ^ idx.length ∧
      GetMultiIndex idx.length nve1d (cornerSum idx nve1d idx.length j) = cornerIndex idx j := by
  obtain ⟨h1, h2⟩ := leadingDigits_ofLeadingDigits nve1d (cornerIndex idx j)
    (cornerIndex_lt idx nve1d j hidx)
  rw [cornerIndex_length] at h1 h2
  rw [cornerSum_eq, GetMultiIndex_eq_digitRow, digitRow_eq_leadingDigits _ _ _ h1]
  exact ⟨h1, h2⟩

theorem cornerIndex_injective (idx : List Nat) (j j' : Nat) (hj : j < 2 ^ idx.length)
    (hj' : j' < 2 ^ idx.length) (h : cornerIndex idx j = cornerIndex idx j') : j = j' := by
  have hrow : digitRow 2 idx.length j = digitRow 2 idx.length j' := by
    unfold digitRow
    apply List.map_congr_left
    intro d hd
    have hd' := List.mem_range.mp hd
    have := congrArg (fun l => l.getD d 0) h
    simp only [cornerIndex, List.getD_eq_getElem?_getD, List.getElem?_map,
      List.getElem?_range hd', Option.map_some', Option.getD_some] at this
    omega
  rw [digitRow_eq_leadingDigits _ _ _ hj, digitRow_eq_leadingDigits _ _ _ hj'] at hrow
  rw [← ofLeadingDigits_leadingDigits 2 _ j hj, ← ofLeadingDigits_leadingDigits 2 _ j' hj', hrow]

/-- C6, the claim at its own example: for cell `(0, 0)` with `nve1d = 5` the routine returns
`[0, 1, 5, 6]`, not the `[0, 1, 6, 5]` of the commented-out direct formula. -/
theorem SetElementDofs_cell00_ne_direct :
    SetElementDofs [0, 0] 5 = [0, 1, 5, 6] ∧ directElementDofs2 0 0 5 = [0, 1, 6, 5] ∧
      SetElementDofs [0, 0] 5 ≠ directElementDofs2 0 0 5 := by
  have h : SetElementDofs [0, 0] 5 = [0, 1, 5, 6] := by
    rw [SetElementDofs_eq]
    decide
  refine ⟨h, rfl, ?_⟩
  rw [h]
  decide

/-- C6 as amended. For a 2-D cell `idx = (i0, i1)` the routine returns the four corner
indices of the direct formula in the order of the corner number's bits,
`[i0*nve1d + i1, i0*nve1d + (i1+1), (i0+1)*nve1d + i1, (i0+1)*nve1d + (i1+1)]`: the direct
formula's list with its last two entries exchanged. -/
theorem SetElementDofs_two_dim (i0 i1 nve1d : Nat) :
    SetElementDofs [i0, i1] nve1d
        = [i0 * nve1d + i1, i0 * nve1d + (i1 + 1),
           (i0 + 1) * nve1d + i1, (i0 + 1) * nve1d + (i1 + 1)] ∧
      SetElementDofs [i0, i1] nve1d
        = [(directElementDofs2 i0 i1 nve1d).getD 0 0, (directElementDofs2 i0 i1 nve1d).getD 1 0,
           (directElementDofs2 i0 i1 nve1d).getD 3 0, (directElementDofs2 i0 i1 nve1d).getD 2 0] ∧
      SetElementDofs [0, 0] 5 = [0, 1, 5, 6] := by
  have h : ∀ a b n : Nat, SetElementDofs [a, b] n
      = [a * n + b, a * n + (b + 1), (a + 1) * n + b, (a + 1) * n + (b + 1)] := by
    intro a b n
    rw [SetElementDofs_eq]
    simp [cornerSum, digit, Finset.sum_range_succ, List.range_succ]
  refine ⟨h i0 i1 nve1d, ?_, ?_⟩
  · rw [h]; simp [directElementDofs2]
  · rw [h]

/-- C7. For every `dim ≥ 1`, `nve1d ≥ 2` and cell multi-index `idx` of length `dim` with
`idx[d] + 1 < nve1d` for all `d`, the `2 ^ dim` entries returned by `SetElementDofs` are
pairwise distinct, each is below `nve1d ^ dim`, and entry `j` is the global index of the
corner whose multi-index is `idx[d] + (bit dim - 1 - d of j)`. -/
theorem SetElementDofs_corners (idx : List Nat) (nve1d : Nat) (_hdim : 1 ≤ idx.length)
    (_hn : 2 ≤ nve1d) (hidx : ∀ a ∈ idx, a + 1 < nve1d) :
    (SetElementDofs idx nve1d).length = 2 ^ idx.length ∧
      (SetElementDofs idx nve1d).Nodup ∧
      (∀ e ∈ SetElementDofs idx nve1d, e < nve1d ^ idx.length) ∧
      ∀ j, j < 2 ^ idx.length → ∀ d, d < idx.length →
        (GetMultiIndex idx.length nve1d ((SetElementDofs idx nve1d).getD j 0)).getD d 0
          = idx.getD d 0 + j / 2 ^ (idx.length - 1 - d) % 2 := by
  rw [SetElementDofs_eq]
  refine ⟨by simp, ?_, ?_, ?_⟩
  · apply List.Nodup.map_on
    · intro j hj j' hj' h
      have hj := List.mem_range.mp hj
      have hj' := List.mem_range.mp hj'
      apply cornerIndex_injective idx j j' hj hj'
      rw [← (GetMultiIndex_cornerSum idx nve1d j hidx).2,
        ← (GetMultiIndex_cornerSum idx nve1d j' hidx).2, h]
    · exact List.nodup_range _
  · intro e he
    obtain ⟨j, _, rfl⟩ := List.mem_map.mp he
    exact (GetMultiIndex_cornerSum idx nve1d j hidx).1
  · intro j hj d hd
    have e : ((List.range (2 ^ idx.length)).map (cornerSum idx nve1d idx.length)).getD j 0
        = cornerSum idx nve1d idx.length j := by
      rw [List.getD_eq_getElem?_getD, List.getElem?_map, List.getElem?_range hj]
      rfl
    rw [e, (GetMultiIndex_cornerSum idx nve1d j hidx).2]
    simp only [cornerIndex, List.getD_eq_getElem?_getD, List.getElem?_map,
      List.getElem?_range hd, Option.map_some', Option.getD_some, digit]

/-- C7 at the grid of `main` (`dim = 2`, `nve1d = 5`), cell `(3, 2)`. -/
theorem SetElementDofs_corners_witness :
    (SetElementDofs [3, 2] 5).length = 2 ^ [3, 2].length ∧
      (SetElementDofs [3, 2] 5).Nodup ∧
      (∀ e ∈ SetElementDofs [3, 2] 5, e < 5 ^ [3, 2].length) ∧
      ∀ j, j < 2 ^ [3, 2].length → ∀ d, d < [3, 2].length →
        (GetMultiIndex [3, 2].length 5 ((SetElementDofs [3, 2] 5).getD j 0)).getD d 0
          = [3, 2].getD d 0 + j / 2 ^ ([3, 2].length - 1 - d) % 2 :=
  SetElementDofs_corners [3, 2] 5 (by decide) (by decide) (by decide)

section MetricKernelProofs

variable {K : Type} [Field K]

theorem metric_apply (solx_uv : Fin 3 → Fin 2 → K) (i j : Fin 2) :
    metric solx_uv i j
      = 0 + solx_uv 0 i * solx_uv 0 j + solx_uv 1 i * solx_uv 1 j + solx_uv 2 i * solx_uv 2 j :=
  rfl

theorem detg_eq_cross (solx_uv : Fin 3 → Fin 2 → K) :
    detg solx_uv = tangentCross solx_uv 0 ^ 2 + tangentCross solx_uv 1 ^ 2
      + tangentCross solx_uv 2 ^ 2 := by
  simp only [detg, metric_apply, tangentCross, Matrix.cons_val_zero, Matrix.cons_val_one,
    Matrix.head_cons, Matrix.cons_val_two, Matrix.tail_cons]
  ring

/-- C9. Over an exact field, for every `3 × 2` matrix of tangent derivatives with
`detg ≠ 0` the computed `gi` satisfies `g * gi = gi * g = 1`, the `2 × 2` identity (the check
of the commented-out debugging block). -/
theorem metricInverse_mul (solx_uv : Fin 3 → Fin 2 → K) (h : detg solx_uv ≠ 0) :
    metric solx_uv * metricInverse solx_uv = 1 ∧
      metricInverse solx_uv * metric solx_uv = 1 := by
  have hd : metric solx_uv 0 0 * metric solx_uv 1 1 - metric solx_uv 0 1 * metric solx_uv 1 0
      = detg solx_uv := rfl
  constructor
  · ext i j
    fin_cases i <;> fin_cases j <;>
      simp [Matrix.mul_apply, Fin.sum_univ_two, metricInverse] <;>
      field_simp <;> first | (rw [← hd]; ring) | ring
  · ext i j
    fin_cases i <;> fin_cases j <;>
      simp [Matrix.mul_apply, Fin.sum_univ_two, metricInverse] <;>
      field_simp <;> first | (rw [← hd]; ring) | ring

theorem detg_sampleTangents (K : Type) [Field K] : detg (sampleTangents K) = 6 := by
  simp only [detg, metric_apply, sampleTangents, Matrix.cons_val_zero, Matrix.cons_val_one,
    Matrix.head_cons, Matrix.cons_val_two, Matrix.tail_cons]
  norm_num

/-- C9 at the sample tangents over the rationals, where `detg = 6`. -/
theorem metricInverse_mul_witness :
    metric (sampleTangents ℚ) * metricInverse (sampleTangents ℚ) = 1 ∧
      metricInverse (sampleTangents ℚ) * metric (sampleTangents ℚ) = 1 :=
  metricInverse_mul (sampleTangents ℚ) (by rw [detg_sampleTangents]; norm_num)

/-- C10. Over the reals, whenever `detg > 0` the computed vector
`normal = normalSign * (x_u × x_v) / sqrt (detg)` has Euclidean norm exactly `1` and is
orthogonal to both tangent vectors; and `detg` equals `|x_u × x_v|²`. -/
theorem normal_unit_orthogonal (solx_uv : Fin 3 → Fin 2 → ℝ) (h : 0 < detg solx_uv) :
    Real.sqrt (∑ k : Fin 3, normal Real.sqrt solx_uv k ^ 2) = 1 ∧
      (∀ j : Fin 2, ∑ k : Fin 3, normal Real.sqrt solx_uv k * solx_uv k j = 0) ∧
      detg solx_uv = ∑ k : Fin 3, tangentCross solx_uv k ^ 2 ∧
      (∀ k : Fin 3, normal Real.sqrt solx_uv k
        = normalSign * tangentCross solx_uv k / Real.sqrt (detg solx_uv)) := by
  have hs : Real.sqrt (detg solx_uv) ^ 2 = detg solx_uv := Real.sq_sqrt (le_of_lt h)
  have hs0 : Real.sqrt (detg solx_uv) ≠ 0 := (Real.sqrt_pos.mpr h).ne'
  have hcross := detg_eq_cross solx_uv
  have hn : ∀ k : Fin 3, normal Real.sqrt solx_uv k
      = normalSign * tangentCross solx_uv k / Real.sqrt (detg solx_uv) := by
    intro k
    fin_cases k <;> simp [normal, tangentCross]
  refine ⟨?_, ?_, ?_, hn⟩
  · have hsq : ∀ c : ℝ, (normalSign * c / Real.sqrt (detg solx_uv)) ^ 2
        = c ^ 2 / detg solx_uv := by
      intro c
      rw [div_pow, hs, normalSign]
      ring
    have : ∑ k : Fin 3, normal Real.sqrt solx_uv k ^ 2 = 1 := by
      simp only [hn, Fin.sum_univ_three, hsq]
      rw [← add_div, ← add_div, ← hcross, div_self h.ne']
    rw [this, Real.sqrt_one]
  · intro j
    have hz : ∑ k : Fin 3, tangentCross solx_uv k * solx_uv k j = 0 := by
      rw [Fin.sum_univ_three]
      simp only [tangentCross, Matrix.cons_val_zero, Matrix.cons_val_one,
        Matrix.head_cons, Matrix.cons_val_two, Matrix.tail_cons]
      fin_cases j <;> simp <;> ring
    have hfac : ∑ k : Fin 3, normal Real.sqrt solx_uv k * solx_uv k j
        = normalSign / Real.sqrt (detg solx_uv)
          * ∑ k : Fin 3, tangentCross solx_uv k * solx_uv k j := by
      simp only [hn, Fin.sum_univ_three]
      ring
    rw [hfac, hz, mul_zero]
  · rw [hcross, Fin.sum_univ_three]

/-- C10 at the sample tangents over the reals, where `detg = 6 > 0`. -/
theorem normal_unit_orthogonal_witness :
    Real.sqrt (∑ k : Fin 3, normal Real.sqrt (sampleTangents ℝ) k ^ 2) = 1 ∧
      (∀ j : Fin 2, ∑ k : Fin 3, normal Real.sqrt (sampleTangents ℝ) k
        * sampleTangents ℝ k j = 0) ∧
      detg (sampleTangents ℝ) = ∑ k : Fin 3, tangentCross (sampleTangents ℝ) k ^ 2 ∧
      (∀ k : Fin 3, normal Real.sqrt (sampleTangents ℝ) k
        = normalSign * tangentCross (sampleTangents ℝ) k
          / Real.sqrt (detg (sampleTangents ℝ))) :=
  normal_unit_orthogonal (sampleTangents ℝ) (by rw [detg_sampleTangents]; norm_num)

end MetricKernelProofs

namespace ex7

section MovingLeastSquaresProofs

variable {K : Type} [LinearOrderedField K]

theorem foldl_add_sum {α V : Type} [AddCommMonoid V] (L : List α) (step : V → α → V)
    (D : α → V) (h : ∀ M a, a ∈ L → step M a = M + D a) (M0 : V) :
    L.foldl step M0 = M0 + (L.map D).sum := by
  induction L generalizing M0 with
  | nil => simp
  | cons a L ih =>
    rw [List.foldl_cons, ih (fun M b hb => h M b (List.mem_cons_of_mem a hb)),
      h M0 a (List.mem_cons_self a L), List.map_cons, List.sum_cons, add_assoc]

theorem list_sum_map_range {V : Type} [AddCommMonoid V] (n : Nat) (D : Nat → V) :
    ((List.range n).map D).sum = ∑ j in Finset.range n, D j := by
  induction n with
  | zero => simp
  | succ n ih =>
    rw [List.range_succ, List.map_append, List.sum_append, ih, Finset.sum_range_succ]
    simp

theorem foldl_range_add {V : Type} [AddCommMonoid V] (n : Nat) (step : V → Nat → V)
    (D : Nat → V) (h : ∀ M j, j < n → step M j = M + D j) (M0 : V) :
    (List.range n).foldl step M0 = M0 + ∑ j in Finset.range n, D j := by
  rw [foldl_add_sum (List.range n) step D (fun M a ha => h M a (List.mem_range.mp ha)),
    list_sum_map_range]

theorem setEntry_add (A : Nat → Nat → K) (k l : Nat) (v : K) :
    setEntry A k l (A k l + v) = A + fun k' l' => if k' = k ∧ l' = l then v else 0 := by
  funext k' l'
  simp only [setEntry, Pi.add_apply]
  by_cases h : k' = k ∧ l' = l
  · rw [if_pos h, if_pos h, h.1, h.2]
  · rw [if_neg h, if_neg h, add_zero]

theorem accumulate_eq (idxSet : List (List Nat)) (T : Nat → List K) (W : K)
    (A : Nat → Nat → K) :
    accumulate idxSet T W A
      = A + fun k l => if k < idxSet.length ∧ l < idxSet.length then W * TkTl idxSet T k l else 0 := by
  unfold accumulate
  rw [foldl_range_add idxSet.length _
    (fun k => ∑ l in Finset.range idxSet.length,
      fun k' l' => if k' = k ∧ l' = l then W * TkTl idxSet T k l else 0)]
  · congr 1
    funext k' l'
    simp only [Finset.sum_apply]
    by_cases h : k' < idxSet.length ∧ l' < idxSet.length
    · rw [if_pos h, Finset.sum_eq_single k', Finset.sum_eq_single l']
      · simp
      · intro l _ hl; rw [if_neg]; intro hh; exact hl hh.2.symm
      · intro hl; exact absurd (Finset.mem_range.mpr h.2) hl
      · intro k _ hk
        apply Finset.sum_eq_zero
        intro l _; rw [if_neg]; intro hh; exact hk hh.1.symm
      · intro hk; exact absurd (Finset.mem_range.mpr h.1) hk
    · rw [if_neg h]
      apply Finset.sum_eq_zero
      intro k hk
      apply Finset.sum_eq_zero
      intro l hl
      rw [if_neg]
      rintro ⟨rfl, rfl⟩
      exact h ⟨Finset.mem_range.mp hk, Finset.mem_range.mp hl⟩
  · intro B k _
    exact foldl_range_add idxSet.length _ _ (fun C l _ => setEntry_add C k l _) B

theorem update_add {V : Type} [AddCommMonoid V] (M : Nat → V) (i : Nat) (v : V) :
    Function.update M i (M i + v) = M + fun i' => if i' = i then v else 0 := by
  funext i'
  simp only [Pi.add_apply]
  by_cases h : i' = i
  · rw [h, Function.update_same, if_pos rfl]
  · rw [Function.update_noteq h, if_neg h, add_zero]

theorem addMoment_eq (idxSet : List (List Nat)) (Xp : Nat → Nat → Nat → K) (iel p : Nat)
    (M : Nat → Nat → Nat → K) (idof : Nat) :
    addMoment idxSet Xp iel p M idof = M + momentTerm idxSet Xp iel p idof := by
  unfold addMoment
  simp only
  rw [accumulate_eq, update_add]
  congr 1
  funext i k l
  unfold momentTerm dofOf
  by_cases h : i = (elemDofs.getD iel []).getD idof 0
  · by_cases h2 : k < idxSet.length ∧ l < idxSet.length
    · simp only [if_pos h, if_pos h2, if_pos (And.intro h h2)]
    · simp only [if_pos h, if_neg h2, if_neg (fun hh : _ ∧ _ => h2 hh.2)]
  · simp only [if_neg h, if_neg (fun hh : _ ∧ _ => h hh.1)]
    rfl

theorem momentMatrices_eq (idxSet : List (List Nat)) (Xp : Nat → Nat → Nat → K) :
    momentMatrices idxSet Xp
      = initMoments idxSet + ∑ iel in Finset.range nel, ∑ p in Finset.range (idxSet.length + 5),
          ∑ idof in Finset.range nDofs, momentTerm idxSet Xp iel p idof := by
  unfold momentMatrices
  apply foldl_range_add
  intro M iel _
  apply foldl_range_add
  intro M p _
  apply foldl_range_add
  intro M idof _
  exact addMoment_eq idxSet Xp iel p M idof

theorem addReconstruction_eq (idxSet : List (List Nat)) (Xp : Nat → Nat → Nat → K)
    (alpha : Nat → Nat → K) (iel p : Nat) (Ur : Nat → K) (idof : Nat) :
    addReconstruction idxSet Xp alpha iel p Ur idof
      = Ur + reconstructionTerm idxSet Xp alpha iel p idof := by
  unfold addReconstruction
  simp only
  rw [mul_assoc, update_add]
  congr 1
  funext i
  unfold reconstructionTerm dofOf
  by_cases h : i = (elemDofs.getD iel []).getD idof 0
  · rw [if_pos h, if_pos h, mul_assoc]
  · rw [if_neg h, if_neg h]

theorem reconstruct_eq (idxSet : List (List Nat)) (Xp : Nat → Nat → Nat → K)
    (alpha : Nat → Nat → K) :
    reconstruct idxSet Xp alpha
      = ∑ iel in Finset.range nel, ∑ p in Finset.range (idxSet.length + 5),
          ∑ idof in Finset.range nDofs, reconstructionTerm idxSet Xp alpha iel p idof := by
  unfold reconstruct
  have h : (fun _ => 0 : Nat → K) = 0 := rfl
  rw [foldl_range_add nel _ (fun iel => ∑ p in Finset.range (idxSet.length + 5),
    ∑ idof in Finset.range nDofs, reconstructionTerm idxSet Xp alpha iel p idof), h, zero_add]
  intro M iel _
  apply foldl_range_add
  intro M p _
  apply foldl_range_add
  intro M idof _
  exact addReconstruction_eq idxSet Xp alpha iel p M idof

theorem initMoments_inner (idxSet : List (List Nat)) (r : Nat → K) (i : Nat) :
    ∀ m (M : Nat → Nat → Nat → K),
      (List.range m).foldl
        (fun M j => Function.update M i (setEntry (M i) j idxSet.length (r j))) M
      = Function.update M i
          (fun j c => if j < m ∧ c = idxSet.length then r j else M i j c) := by
  intro m
  induction m with
  | zero =>
    intro M
    simp only [List.range_zero, List.foldl_nil, Nat.not_lt_zero, false_and, if_false]
    exact (Function.update_eq_self i M).symm
  | succ m ih =>
    intro M
    rw [List.range_succ, List.foldl_append, ih]
    simp only [List.foldl_cons, List.foldl_nil, Function.update_same, Function.update_idem]
    apply congrArg (Function.update M i)
    funext j c
    unfold setEntry
    by_cases h : j = m ∧ c = idxSet.length
    · simp only [if_pos h]
      rw [if_pos ⟨by omega, h.2⟩, h.1]
    · simp only [if_neg h]
      exact if_congr (by omega) rfl rfl

theorem initMoments_eq (idxSet : List (List Nat)) (i j c : Nat) :
    (initMoments idxSet : Nat → Nat → Nat → K) i j c
      = if i < nve ∧ j < idxSet.length ∧ c = idxSet.length
        then rhsEntry idxSet (GetChebyshev [] pOrder 0) j else 0 := by
  unfold initMoments
  generalize nve = n
  induction n generalizing i j c with
  | zero => simp
  | succ n ih =>
    rw [List.range_succ, List.foldl_append]
    simp only [List.foldl_cons, List.foldl_nil]
    rw [initMoments_inner]
    by_cases hi : i = n
    · subst hi
      rw [Function.update_same]
      by_cases h : j < idxSet.length ∧ c = idxSet.length
      · rw [if_pos h, if_pos ⟨by omega, h⟩]
      · rw [if_neg h, ih, if_neg (by omega), if_neg (fun hh => h hh.2)]
    · rw [Function.update_noteq hi, ih]
      exact if_congr (by omega) rfl rfl

theorem TkTl_eq (idxSet : List (List Nat)) (T : Nat → List K) (k l : Nat) :
    TkTl idxSet T k l = Tk idxSet T k * Tk idxSet T l := by
  simp only [TkTl, Tk, dim, List.range_succ, List.range_zero, List.nil_append,
    List.foldl_append, List.foldl_cons, List.foldl_nil]
  ring

theorem sumAlphaT_eq (idxSet : List (List Nat)) (T : Nat → List K) (a : Nat → K) :
    sumAlphaT idxSet T a = ∑ k in Finset.range idxSet.length, a k * Tk idxSet T k := by
  unfold sumAlphaT
  rw [foldl_range_add idxSet.length _ (fun k => a k * Tk idxSet T k) (fun _ _ _ => rfl),
    zero_add]

/-- Polynomial reproduction of a weighted least-squares fit: if `alpha` solves the normal
equations with moment matrix `∑ w b bᵀ` and right-hand side `rhs`, and the data `f` is the
combination `∑ coef l * b l` of the basis, then the weighted reconstruction of `f` is
`∑ coef l * rhs l`. -/
theorem weighted_fit_reproduces {ι : Type} (S : Finset ι) (w f : ι → K) (b : ι → Nat → K)
    (N : Nat) (coef alpha rhs : Nat → K)
    (hf : ∀ c ∈ S, w c * f c = w c * ∑ l in Finset.range N, coef l * b c l)
    (ha : ∀ k, k < N →
      ∑ l in Finset.range N, (∑ c in S, w c * (b c k * b c l)) * alpha l = rhs k) :
    ∑ c in S, w c * (∑ k in Finset.range N, alpha k * b c k) * f c
      = ∑ l in Finset.range N, coef l * rhs l := by
  have h1 : ∑ c in S, w c * (∑ k in Finset.range N, alpha k * b c k) * f c
      = ∑ c in S, ∑ l in Finset.range N, ∑ k in Finset.range N,
          coef l * (w c * (b c l * b c k) * alpha k) := by
    apply Finset.sum_congr rfl
    intro c hc
    have : w c * (∑ k in Finset.range N, alpha k * b c k) * f c
        = (∑ k in Finset.range N, alpha k * b c k) * (w c * f c) := by ring
    rw [this, hf c hc, Finset.mul_sum, Finset.mul_sum]
    apply Finset.sum_congr rfl
    intro l _
    rw [Finset.sum_mul]
    apply Finset.sum_congr rfl
    intro k _
    ring
  have h2 : ∑ l in Finset.range N, coef l * rhs l
      = ∑ l in Finset.range N, ∑ c in S, ∑ k in Finset.range N,
          coef l * (w c * (b c l * b c k) * alpha k) := by
    apply Finset.sum_congr rfl
    intro l hl
    rw [← ha l (Finset.mem_range.mp hl), Finset.mul_sum, Finset.sum_comm]
    apply Finset.sum_congr rfl
    intro k _
    rw [Finset.sum_mul, Finset.mul_sum]
  rw [h1, h2, Finset.sum_comm]

theorem ComputeIndexSet_main :
    ComputeIndexSet pOrder dim
      = some [[0, 0], [0, 1], [0, 2], [0, 3], [1, 0], [1, 1], [1, 2], [2, 0], [2, 1], [3, 0]] := by
  decide

theorem aIdx_eq :
    aIdx = [[0, 0], [0, 1], [0, 2], [0, 3], [1, 0], [1, 1], [1, 2], [2, 0], [2, 1], [3, 0]] := by
  decide

theorem GetChebyshev_three (z : K) :
    GetChebyshev [] pOrder z = [1, z, 2 * z * z - 1, 2 * z * (2 * z * z - 1) - z] := by
  rfl

theorem sum_cubicCoef (X h : K) (g : Nat → K) :
    ∑ l in Finset.range aIdx.length, cubicCoef X h l * g l
      = cubicCoef X h 0 * g 0 + cubicCoef X h 4 * g 4 + cubicCoef X h 7 * g 7
        + cubicCoef X h 9 * g 9 := by
  rw [aIdx_eq]
  simp [Finset.sum_range_succ, cubicCoef]

theorem Tk_cubic_rows (T : Nat → List K) :
    Tk aIdx T 0 = (T 0).getD 0 0 * (T 1).getD 0 0 ∧
      Tk aIdx T 4 = (T 0).getD 1 0 * (T 1).getD 0 0 ∧
      Tk aIdx T 7 = (T 0).getD 2 0 * (T 1).getD 0 0 ∧
      Tk aIdx T 9 = (T 0).getD 3 0 * (T 1).getD 0 0 := by
  rw [aIdx_eq]
  simp [Tk, dim, List.range_succ]

/-- The cube of the first particle coordinate in the basis evaluated at the particle. -/
theorem cubic_expansion (X h x z1 : K) (hh : h ≠ 0) (T : Nat → List K)
    (hT0 : T 0 = GetChebyshev [] pOrder ((X - x) / h)) (hT1 : T 1 = GetChebyshev [] pOrder z1) :
    ∑ l in Finset.range aIdx.length, cubicCoef X h l * Tk aIdx T l = x ^ 3 := by
  obtain ⟨e0, e4, e7, e9⟩ := Tk_cubic_rows T
  rw [sum_cubicCoef, e0, e4, e7, e9, hT0, hT1, GetChebyshev_three, GetChebyshev_three]
  simp only [cubicCoef, List.getD_cons_zero, List.getD_cons_succ]
  norm_num
  field_simp
  ring

/-- The same combination of the right-hand side: the cube of the node coordinate. -/
theorem cubic_rhs (X h : K) :
    ∑ l in Finset.range aIdx.length,
      cubicCoef X h l * rhsEntry aIdx (GetChebyshev [] pOrder 0) l = X ^ 3 := by
  rw [sum_cubicCoef]
  have hr : ∀ l, rhsEntry aIdx (GetChebyshev [] pOrder (0 : K)) l
      = Tk aIdx (fun _ => GetChebyshev [] pOrder 0) l := by
    intro l; rfl
  obtain ⟨e0, e4, e7, e9⟩ := Tk_cubic_rows (fun _ => GetChebyshev [] pOrder (0 : K))
  rw [hr, hr, hr, hr, e0, e4, e7, e9, GetChebyshev_three]
  simp only [cubicCoef, List.getD_cons_zero, List.getD_cons_succ]
  norm_num

theorem hv_ne_zero (i : Nat) (hi : i < nve) :
    (hv K).getD ((GetMultiIndex dim nve1d i).getD 0 0) 0 ≠ 0 := by
  have h1 : (GetMultiIndex dim nve1d i).getD 0 0 = i % 25 / 5 := by
    simp [GetMultiIndex, dim, nve1d, List.range_succ]
  have h2 : i % 25 / 5 < 5 := by omega
  rw [h1]
  generalize i % 25 / 5 = m at h2
  interval_cases m <;> simp [hv]

theorem momentMatrices_apply (Xp : Nat → Nat → Nat → K) (i k l : Nat) :
    momentMatrices aIdx Xp i k l
      = initMoments aIdx i k l
        + ∑ c in Finset.range nel ×ˢ (Finset.range (aIdx.length + 5) ×ˢ Finset.range nDofs),
            (if i = dofOf c.1 c.2.2 ∧ k < aIdx.length ∧ l < aIdx.length then
              particleW Xp c.1 c.2.1 (GetMultiIndex dim nel1d c.1) (GetMultiIndex dim nve1d i)
                * (Tk aIdx (particleT Xp c.1 c.2.1 (GetMultiIndex dim nve1d i)) k
                    * Tk aIdx (particleT Xp c.1 c.2.1 (GetMultiIndex dim nve1d i)) l)
            else 0) := by
  rw [momentMatrices_eq, Finset.sum_product]
  simp only [Pi.add_apply, Finset.sum_apply]
  congr 1
  apply Finset.sum_congr rfl
  intro iel _
  rw [Finset.sum_product]
  apply Finset.sum_congr rfl
  intro p _
  apply Finset.sum_congr rfl
  intro idof _
  unfold momentTerm
  by_cases h : i = dofOf iel idof ∧ k < aIdx.length ∧ l < aIdx.length
  · rw [if_pos h, if_pos h, ← h.1, TkTl_eq]
  · rw [if_neg h, if_neg h]

theorem reconstruct_apply (Xp : Nat → Nat → Nat → K) (alpha : Nat → Nat → K) (i : Nat) :
    reconstruct aIdx Xp alpha i
      = ∑ c in Finset.range nel ×ˢ (Finset.range (aIdx.length + 5) ×ˢ Finset.range nDofs),
          (if i = dofOf c.1 c.2.2 then
              particleW Xp c.1 c.2.1 (GetMultiIndex dim nel1d c.1) (GetMultiIndex dim nve1d i)
            else 0)
          * (∑ k in Finset.range aIdx.length,
              alpha i k * Tk aIdx (particleT Xp c.1 c.2.1 (GetMultiIndex dim nve1d i)) k)
          * Xp c.1 c.2.1 0 ^ pOrder := by
  rw [reconstruct_eq, Finset.sum_product]
  simp only [Finset.sum_apply]
  apply Finset.sum_congr rfl
  intro iel _
  rw [Finset.sum_product]
  apply Finset.sum_congr rfl
  intro p _
  apply Finset.sum_congr rfl
  intro idof _
  unfold reconstructionTerm
  by_cases h : i = dofOf iel idof
  · rw [if_pos h, if_pos h, ← h, sumAlphaT_eq]
  · rw [if_neg h, if_neg h, zero_mul, zero_mul]

/-- At a node whose coefficients solve the node's normal equations, the reconstruction of
the cubed first coordinate is the cube of the node's first coordinate. -/
theorem reconstruct_of_Sol (Xp : Nat → Nat → Nat → K) (alpha : Nat → Nat → K) (i : Nat)
    (hi : i < nve) (hsol : Sol (momentMatrices aIdx Xp i) aIdx.length (alpha i) 1) :
    reconstruct aIdx Xp alpha i
      = (Xv K).getD ((GetMultiIndex dim nve1d i).getD 0 0) 0 ^ pOrder := by
  have hh := hv_ne_zero (K := K) i hi
  rw [reconstruct_apply]
  refine (weighted_fit_reproduces
    (Finset.range nel ×ˢ (Finset.range (aIdx.length + 5) ×ˢ Finset.range nDofs))
    (fun c => if i = dofOf c.1 c.2.2 then
        particleW Xp c.1 c.2.1 (GetMultiIndex dim nel1d c.1) (GetMultiIndex dim nve1d i)
      else 0)
    (fun c => Xp c.1 c.2.1 0 ^ pOrder)
    (fun c => Tk aIdx (particleT Xp c.1 c.2.1 (GetMultiIndex dim nve1d i))) aIdx.length
    (cubicCoef ((Xv K).getD ((GetMultiIndex dim nve1d i).getD 0 0) 0)
      ((hv K).getD ((GetMultiIndex dim nve1d i).getD 0 0) 0))
    (alpha i) (fun k => rhsEntry aIdx (GetChebyshev [] pOrder 0) k) ?_ ?_).trans ?_
  rotate_left 2
  · exact cubic_rhs _ _
  · intro c _
    congr 1
    exact (cubic_expansion _ _ (Xp c.1 c.2.1 0) _ hh _ rfl rfl).symm
  · intro k hk
    have hrow := hsol k hk
    unfold rowRes at hrow
    rw [one_mul, sub_eq_zero] at hrow
    have hN : momentMatrices aIdx Xp i k aIdx.length
        = rhsEntry aIdx (GetChebyshev [] pOrder 0) k := by
      rw [momentMatrices_apply, initMoments_eq, if_pos ⟨hi, hk, rfl⟩]
      rw [Finset.sum_eq_zero, add_zero]
      intro c _
      rw [if_neg]
      intro hc
      exact absurd hc.2.2 (lt_irrefl _)
    show _ = rhsEntry aIdx (GetChebyshev [] pOrder 0) k
    rw [← hN, ← hrow]
    apply Finset.sum_congr rfl
    intro l hl
    have hl := Finset.mem_range.mp hl
    rw [momentMatrices_apply, initMoments_eq, if_neg (by omega), zero_add]
    congr 1
    apply Finset.sum_congr rfl
    intro c _
    show (if i = dofOf c.1 c.2.2 then _ else 0) * _ = _
    by_cases h : i = dofOf c.1 c.2.2
    · rw [if_pos h, if_pos ⟨h, hk, hl⟩]
    · rw [if_neg h, if_neg (fun hc => h hc.1), zero_mul]

theorem solveNodes_fold (idxSet : List (List Nat)) (M : Nat → Nat → Nat → K) :
    ∀ n,
      match (List.range n).foldlM (solveNode idxSet M) (fun _ _ => 0) with
      | some alpha => ∀ i, i < n →
          ∃ U, GaussianElemination (M i) idxSet.length (fun _ => 0) = some (U, alpha i)
      | none => ∃ i, i < n ∧ GaussianElemination (M i) idxSet.length (fun _ => 0) = none := by
  intro n
  induction n with
  | zero =>
    show ∀ i, i < 0 → _
    intro i hi
    exact absurd hi (Nat.not_lt_zero i)
  | succ n ih =>
    rw [List.range_succ, List.foldlM_append]
    cases h1 : (List.range n).foldlM (solveNode idxSet M) (fun _ _ => 0) with
    | none =>
      rw [h1] at ih
      obtain ⟨i, hi, hg⟩ := ih
      exact ⟨i, by omega, hg⟩
    | some alpha =>
      rw [h1] at ih
      have e : ((some alpha : Option (Nat → Nat → K)) >>= fun a =>
          List.foldlM (solveNode idxSet M) a [n]) = solveNode idxSet M alpha n := by
        show List.foldlM (solveNode idxSet M) alpha [n] = solveNode idxSet M alpha n
        rw [List.foldlM_cons]
        cases solveNode idxSet M alpha n <;> rfl
      rw [e]
      unfold solveNode
      cases hg : GaussianElemination (M n) idxSet.length (fun _ => 0) with
      | none => exact ⟨n, by omega, hg⟩
      | some Ux =>
        obtain ⟨U, x⟩ := Ux
        show ∀ i, i < n + 1 → _
        intro i hi
        by_cases hin : i = n
        · subst hin
          exact ⟨U, by rw [Function.update_same]; exact hg⟩
        · rw [Function.update_noteq hin]
          exact ih i (by omega)

theorem main_eq (Xp : Nat → Nat → Nat → K) :
    main Xp = (solveNodes aIdx (momentMatrices aIdx Xp)).map (fun alpha =>
      (List.range nve).map (fun i =>
        ((Xv K).getD ((GetMultiIndex dim nve1d i).getD 0 0) 0 ^ pOrder,
          reconstruct aIdx Xp alpha i))) := by
  have h : ComputeIndexSet pOrder dim = some aIdx := by
    rw [ComputeIndexSet_main, aIdx_eq]
  unfold main
  rw [h]
  simp only
  cases hs : solveNodes aIdx (momentMatrices aIdx Xp) <;> simp

theorem aIdx_length : aIdx.length = 10 := by
  rw [aIdx_eq]; rfl

/-- C8. Over an exact ordered field and for arbitrary particle positions `Xp`: at every
node `i` whose accumulated moment matrix `M[i]` is non-singular, `GaussianElemination`
returns coefficients `alpha[i]` with which the reconstructed value `Ur[i]` equals
`Xv[ndIdx[0]]^pOrder`; whenever `main` prints, the two numbers of line `i` coincide; and
`main` does print when the moment matrices of all nodes are non-singular. -/
theorem main_reproduces (Xp : Nat → Nat → Nat → K) (i : Nat) (hi : i < nve)
    (hdet : nonsingularNode Xp i) :
    (∃ U a, GaussianElemination (momentMatrices aIdx Xp i) aIdx.length (fun _ => 0)
        = some (U, a) ∧
      ∀ alpha : Nat → Nat → K, alpha i = a →
        reconstruct aIdx Xp alpha i
          = (Xv K).getD ((GetMultiIndex dim nve1d i).getD 0 0) 0 ^ pOrder) ∧
    (∀ lines, main Xp = some lines →
      lines.length = nve ∧
      lines[i]? = some ((Xv K).getD ((GetMultiIndex dim nve1d i).getD 0 0) 0 ^ pOrder,
        (Xv K).getD ((GetMultiIndex dim nve1d i).getD 0 0) 0 ^ pOrder)) ∧
    ((∀ j, j < nve → nonsingularNode Xp j) → ∃ lines, main Xp = some lines) := by
  have hN : 1 ≤ aIdx.length := by rw [aIdx_length]; decide
  have hspec := fun j => GaussianElemination_spec (momentMatrices aIdx Xp j) aIdx.length hN
    (fun _ => 0)
  refine ⟨?_, ?_, ?_⟩
  · have h := hspec i
    cases hg : GaussianElemination (momentMatrices aIdx Xp i) aIdx.length (fun _ => 0) with
    | none => rw [hg] at h; exact absurd h hdet
    | some Ua =>
      obtain ⟨U, a⟩ := Ua
      rw [hg] at h
      refine ⟨U, a, rfl, ?_⟩
      intro alpha ha
      exact reconstruct_of_Sol Xp alpha i hi (by rw [ha]; exact h.2)
  · intro lines hlines
    rw [main_eq] at hlines
    have hfold := solveNodes_fold aIdx (momentMatrices aIdx Xp) nve
    unfold solveNodes at hlines
    cases hs : (List.range nve).foldlM (solveNode aIdx (momentMatrices aIdx Xp))
        (fun _ _ => 0) with
    | none => rw [hs] at hlines; cases hlines
    | some alpha =>
      rw [hs] at hlines hfold
      simp only [Option.map_some', Option.some.injEq] at hlines
      obtain ⟨U, hU⟩ := hfold i hi
      have h := hspec i
      rw [hU] at h
      rw [← hlines]
      refine ⟨by simp, ?_⟩
      rw [List.getElem?_map, List.getElem?_range hi]
      simp only [Option.map_some', Option.some.injEq, Prod.mk.injEq, true_and]
      exact reconstruct_of_Sol Xp alpha i hi h.2
  · intro hall
    rw [main_eq]
    have hfold := solveNodes_fold aIdx (momentMatrices aIdx Xp) nve
    unfold solveNodes
    cases hs : (List.range nve).foldlM (solveNode aIdx (momentMatrices aIdx Xp))
        (fun _ _ => 0) with
    | none =>
      rw [hs] at hfold
      obtain ⟨j, hj, hg⟩ := hfold
      have h := hspec j
      rw [hg] at h
      exact absurd h (hall j hj)
    | some alpha => exact ⟨_, rfl⟩

end MovingLeastSquaresProofs

end ex7

namespace ex7

section SampleRunProofs

variable {K : Type} [LinearOrderedField K]

theorem elemDofs_eq : elemDofs = [[0, 1, 5, 6], [1, 2, 6, 7], [2, 3, 7, 8], [3, 4, 8, 9],
    [5, 6, 10, 11], [6, 7, 11, 12], [7, 8, 12, 13], [8, 9, 13, 14],
    [10, 11, 15, 16], [11, 12, 16, 17], [12, 13, 17, 18], [13, 14, 18, 19],
    [15, 16, 20, 21], [16, 17, 21, 22], [17, 18, 22, 23], [18, 19, 23, 24]] := by
  simp only [elemDofs, SetElementDofs_eq]
  decide

theorem dofOf_eq_zero :
    ∀ iel, iel < nel → ∀ idof, idof < nDofs → (0 = dofOf iel idof ↔ iel = 0 ∧ idof = 0) := by
  simp only [dofOf, elemDofs_eq]
  decide

/-- Only element `0` with its corner `0` contributes to node `0`. -/
theorem sum_node_zero (Np : Nat) (F : Nat × Nat × Nat → K) :
    ∑ c in Finset.range nel ×ˢ (Finset.range Np ×ˢ Finset.range nDofs),
        (if 0 = dofOf c.1 c.2.2 then F c else 0)
      = ∑ p in Finset.range Np, F (0, p, 0) := by
  rw [Finset.sum_product, Finset.sum_eq_single 0]
  · rw [Finset.sum_product]
    apply Finset.sum_congr rfl
    intro p _
    rw [Finset.sum_eq_single 0]
    · rw [if_pos ((dofOf_eq_zero 0 (by decide) 0 (by decide)).mpr ⟨rfl, rfl⟩)]
    · intro idof hidof hne
      rw [if_neg]
      intro h
      exact hne ((dofOf_eq_zero 0 (by decide) idof (Finset.mem_range.mp hidof)).mp h).2
    · intro h
      exact absurd (Finset.mem_range.mpr (by decide : 0 < nDofs)) h
  · intro iel hiel hne
    apply Finset.sum_eq_zero
    intro c hc
    rw [if_neg]
    intro h
    exact hne ((dofOf_eq_zero iel (Finset.mem_range.mp hiel) c.2
      (Finset.mem_range.mp (Finset.mem_product.mp hc).2)).mp h).1
  · intro h
    exact absurd (Finset.mem_range.mpr (by decide : 0 < nel)) h

omit [LinearOrderedField K] in
theorem coeffMatrix_apply (A : Nat → Nat → K) (n : Nat) (i j : Fin n) :
    coeffMatrix A n i j = A i.val j.val :=
  rfl

theorem tableMatrix_apply (t : List (List ℚ)) (k l : Fin 10) :
    tableMatrix t k l = (t.getD k.val []).getD l.val 0 :=
  rfl

theorem sampleMoment_entries :
    ∀ k l : Fin 10,
      ∑ p in Finset.range (aIdx.length + 5),
        particleW sampleXp 0 p (GetMultiIndex dim nel1d 0) (GetMultiIndex dim nve1d 0)
          * (Tk aIdx (particleT sampleXp 0 p (GetMultiIndex dim nve1d 0)) k.val
              * Tk aIdx (particleT sampleXp 0 p (GetMultiIndex dim nve1d 0)) l.val)
      = (sampleMoment.getD k.val []).getD l.val 0 := by
  decide!

theorem sampleMoment_eq :
    coeffMatrix (momentMatrices aIdx sampleXp 0) 10 = tableMatrix sampleMoment := by
  ext k l
  have hk : k.val < aIdx.length := by rw [aIdx_length]; exact k.isLt
  have hl : l.val < aIdx.length := by rw [aIdx_length]; exact l.isLt
  rw [coeffMatrix_apply, tableMatrix_apply, momentMatrices_apply, initMoments_eq,
    if_neg (by omega), zero_add,
    ← sampleMoment_entries k l,
    ← sum_node_zero (aIdx.length + 5) (fun c =>
      particleW sampleXp c.1 c.2.1 (GetMultiIndex dim nel1d c.1) (GetMultiIndex dim nve1d 0)
        * (Tk aIdx (particleT sampleXp c.1 c.2.1 (GetMultiIndex dim nve1d 0)) k.val
            * Tk aIdx (particleT sampleXp c.1 c.2.1 (GetMultiIndex dim nve1d 0)) l.val))]
  apply Finset.sum_congr rfl
  intro c _
  by_cases h : 0 = dofOf c.1 c.2.2
  · rw [if_pos ⟨h, hk, hl⟩, if_pos h]
  · rw [if_neg (fun hc => h hc.1), if_neg h]

theorem sampleMoment_inverse :
    tableMatrix sampleMoment * tableMatrix sampleMomentInverse = 1 := by
  decide!

theorem sampleMoment_det : nonsingularNode sampleXp 0 := by
  unfold nonsingularNode
  rw [aIdx_length, sampleMoment_eq]
  exact Matrix.det_ne_zero_of_right_inverse sampleMoment_inverse

theorem nve_pos : 0 < nve := by
  show 0 < 5 ^ 2
  norm_num

/-- C8 at node `0` for the sample particle positions. -/
theorem main_reproduces_witness :
    nonsingularNode sampleXp 0 ∧
    (∃ U a, GaussianElemination (momentMatrices aIdx sampleXp 0) aIdx.length (fun _ => 0)
        = some (U, a) ∧
      ∀ alpha : Nat → Nat → ℚ, alpha 0 = a →
        reconstruct aIdx sampleXp alpha 0
          = (Xv ℚ).getD ((GetMultiIndex dim nve1d 0).getD 0 0) 0 ^ pOrder) :=
  ⟨sampleMoment_det, (main_reproduces sampleXp 0 nve_pos sampleMoment_det).1⟩

end SampleRunProofs

end ex7

section TangentKernelProofs

variable {K : Type} [Field K]

theorem Jir_apply (solx_uv : Fin 3 → Fin 2 → K) (i : Fin 2) (J : Fin 3) :
    Jir solx_uv i J
      = 0 + metricInverse solx_uv i 0 * solx_uv J 0 + metricInverse solx_uv i 1 * solx_uv J 1 :=
  rfl

theorem Xtan_apply (f_uv solx_uv : Fin 3 → Fin 2 → K) (I J : Fin 3) :
    Xtan f_uv solx_uv I J = 0 + f_uv I 0 * Jir solx_uv 0 J + f_uv I 1 * Jir solx_uv 1 J :=
  rfl

/-- Each row of `Jir` is orthogonal to the cross product of the tangent vectors. -/
theorem Jir_cross (solx_uv : Fin 3 → Fin 2 → K) (i : Fin 2) :
    ∑ J : Fin 3, Jir solx_uv i J * tangentCross solx_uv J = 0 := by
  have h : ∀ m : Fin 2, ∑ J : Fin 3, solx_uv J m * tangentCross solx_uv J = 0 := by
    intro m
    rw [Fin.sum_univ_three]
    simp only [tangentCross, Matrix.cons_val_zero, Matrix.cons_val_one,
      Matrix.head_cons, Matrix.cons_val_two, Matrix.tail_cons]
    fin_cases m <;> simp <;> ring
  have e : ∑ J : Fin 3, Jir solx_uv i J * tangentCross solx_uv J
      = metricInverse solx_uv i 0 * ∑ J : Fin 3, solx_uv J 0 * tangentCross solx_uv J
        + metricInverse solx_uv i 1 * ∑ J : Fin 3, solx_uv J 1 * tangentCross solx_uv J := by
    simp only [Jir_apply, Fin.sum_univ_three]
    ring
  rw [e, h 0, h 1]
  ring

/-- The tangential gradient of any field annihilates the cross product. -/
theorem Xtan_cross (f_uv solx_uv : Fin 3 → Fin 2 → K) (I : Fin 3) :
    ∑ J : Fin 3, Xtan f_uv solx_uv I J * tangentCross solx_uv J = 0 := by
  have e : ∑ J : Fin 3, Xtan f_uv solx_uv I J * tangentCross solx_uv J
      = f_uv I 0 * ∑ J : Fin 3, Jir solx_uv 0 J * tangentCross solx_uv J
        + f_uv I 1 * ∑ J : Fin 3, Jir solx_uv 1 J * tangentCross solx_uv J := by
    simp only [Xtan_apply, Fin.sum_univ_three]
    ring
  rw [e, Jir_cross, Jir_cross]
  ring

/-- The position gradient times `detg` is `detg * δ - (x_u × x_v) (x_u × x_v)ᵀ`. -/
theorem solx_Xtan_mul_detg (solx_uv : Fin 3 → Fin 2 → K) (h : detg solx_uv ≠ 0) (I J : Fin 3) :
    solx_Xtan solx_uv I J * detg solx_uv
      = (if I = J then detg solx_uv else 0) - tangentCross solx_uv I * tangentCross solx_uv J := by
  have e : solx_Xtan solx_uv I J * detg solx_uv
      = solx_uv I 0 * (metric solx_uv 1 1 * solx_uv J 0 - metric solx_uv 0 1 * solx_uv J 1)
        + solx_uv I 1 * (metric solx_uv 0 0 * solx_uv J 1 - metric solx_uv 1 0 * solx_uv J 0) := by
    simp only [solx_Xtan, Xtan_apply, Jir_apply, metricInverse, Matrix.of_apply,
      Matrix.cons_val_zero, Matrix.cons_val_one, Matrix.head_cons, Matrix.cons_val', 
      Matrix.empty_val', Matrix.cons_val_fin_one]
    field_simp
    ring
  rw [e]
  fin_cases I <;> fin_cases J <;>
    simp [detg, metric_apply, tangentCross] <;> ring

theorem normal_eq_cross (sqrt : K → K) (solx_uv : Fin 3 → Fin 2 → K) (k : Fin 3) :
    normal sqrt solx_uv k = normalSign * tangentCross solx_uv k / sqrt (detg solx_uv) := by
  fin_cases k <;> simp [normal, tangentCross]

/-- C11. Over the reals with `detg > 0`: the tangential gradient
`f_Xtan[I][J] = sum_k f_uv[I][k] * Jir[k][J]` of any field has no normal component
(`sum_J f_Xtan[I][J] * normal[J] = 0`), and the tangential gradient of the position field is
the orthogonal projector onto the tangent plane,
`solx_Xtan[I][J] = delta_IJ - normal[I] * normal[J]`. -/
theorem Xtan_tangential_projector (f_uv solx_uv : Fin 3 → Fin 2 → ℝ) (h : 0 < detg solx_uv) :
    (∀ I : Fin 3, ∑ J : Fin 3, Xtan f_uv solx_uv I J * normal Real.sqrt solx_uv J = 0) ∧
      (∀ I J : Fin 3, solx_Xtan solx_uv I J
        = (if I = J then 1 else 0)
          - normal Real.sqrt solx_uv I * normal Real.sqrt solx_uv J) := by
  have hs : Real.sqrt (detg solx_uv) * Real.sqrt (detg solx_uv) = detg solx_uv :=
    Real.mul_self_sqrt (le_of_lt h)
  have hs0 : Real.sqrt (detg solx_uv) ≠ 0 := (Real.sqrt_pos.mpr h).ne'
  constructor
  · intro I
    have e : ∑ J : Fin 3, Xtan f_uv solx_uv I J * normal Real.sqrt solx_uv J
        = normalSign / Real.sqrt (detg solx_uv)
          * ∑ J : Fin 3, Xtan f_uv solx_uv I J * tangentCross solx_uv J := by
      simp only [normal_eq_cross, Fin.sum_univ_three]
      ring
    rw [e, Xtan_cross, mul_zero]
  · intro I J
    have hm := solx_Xtan_mul_detg solx_uv h.ne' I J
    have hn : normal Real.sqrt solx_uv I * normal Real.sqrt solx_uv J
        = tangentCross solx_uv I * tangentCross solx_uv J / detg solx_uv := by
      rw [normal_eq_cross, normal_eq_cross, normalSign, div_mul_div_comm, hs]
      ring
    rw [hn, eq_sub_iff_add_eq, ← mul_right_cancel_iff_of_pos h, add_mul, hm,
      div_mul_cancel₀ _ h.ne']
    split_ifs <;> ring

/-- C11 at the sample tangents `x_u = (1, 0, 1)`, `x_v = (2, 1, 0)` (`detg = 6`) and a
sample field. -/
theorem Xtan_tangential_projector_witness :
    (∀ I : Fin 3, ∑ J : Fin 3, Xtan (sampleField ℝ) (sampleTangents ℝ) I J
        * normal Real.sqrt (sampleTangents ℝ) J = 0) ∧
      (∀ I J : Fin 3, solx_Xtan (sampleTangents ℝ) I J
        = (if I = J then 1 else 0)
          - normal Real.sqrt (sampleTangents ℝ) I * normal Real.sqrt (sampleTangents ℝ) J) :=
  Xtan_tangential_projector (sampleField ℝ) (sampleTangents ℝ)
    (by rw [detg_sampleTangents]; norm_num)

end TangentKernelProofs

section ConstraintKernelProofs

variable {K : Type} [Field K]

theorem solxNewg_apply (nxDofs : Nat) (phix : Nat → K) (solx : Fin 3 → Nat → K) (k : Fin 3) :
    solxNewg nxDofs phix solx k = ∑ i in Finset.range nxDofs, phix i * solx k i := by
  have e := ex7.foldl_range_add nxDofs (fun (s : K) i => s + phix i * solx k i)
    (fun i => phix i * solx k i) (fun _ _ _ => rfl) 0
  rw [zero_add] at e
  exact e

theorem solxNew_uv_apply (nxDofs : Nat) (phix_uv : Fin 2 → Nat → K) (solx : Fin 3 → Nat → K)
    (k : Fin 3) (j : Fin 2) :
    solxNew_uv nxDofs phix_uv solx k j = ∑ i in Finset.range nxDofs, phix_uv j i * solx k i := by
  have e := ex7.foldl_range_add nxDofs (fun (s : K) i => s + phix_uv j i * solx k i)
    (fun i => phix_uv j i * solx k i) (fun _ _ _ => rfl) 0
  rw [zero_add] at e
  exact e

theorem solxMid_uv_apply (nxDofs : Nat) (phix_uv : Fin 2 → Nat → K)
    (solx solxOld : Fin 3 → Nat → K) (k : Fin 3) (j : Fin 2) :
    solxMid_uv nxDofs phix_uv solx solxOld k j
      = ∑ i in Finset.range nxDofs, phix_uv j i * (1 / 2) * (solx k i + solxOld k i) := by
  have e := ex7.foldl_range_add nxDofs
    (fun (s : K) i => s + phix_uv j i * (1 / 2) * (solx k i + solxOld k i))
    (fun i => phix_uv j i * (1 / 2) * (solx k i + solxOld k i)) (fun _ _ _ => rfl) 0
  rw [zero_add] at e
  exact e

/-- With equal nodal positions the two Gauss point values agree. -/
theorem solxNewg_congr (nxDofs : Nat) (phix : Nat → K) (solx solxOld : Fin 3 → Nat → K)
    (h : ∀ k i, i < nxDofs → solx k i = solxOld k i) (k : Fin 3) :
    solxNewg nxDofs phix solx k = solxNewg nxDofs phix solxOld k := by
  rw [solxNewg_apply, solxNewg_apply]
  exact Finset.sum_congr rfl fun i hi => by rw [h k i (Finset.mem_range.mp hi)]

theorem volumeEquation_apply (sqrt : K → K) (volumeConstraint : Bool) (nxDofs : Nat)
    (solx solxOld : Fin 3 → Nat → K) (a : K) (gp : GaussPoint K) :
    volumeEquation sqrt volumeConstraint nxDofs solx solxOld a gp
      = if volumeConstraint then
          a + ∑ k : Fin 3, ((solxNewg nxDofs gp.phix solx k - solxNewg nxDofs gp.phix solxOld k)
              * normal sqrt (solxMid_uv nxDofs gp.phix_uv solx solxOld) k)
            * Area sqrt gp.weight (solxMid_uv nxDofs gp.phix_uv solx solxOld)
        else a := by
  cases volumeConstraint
  · rfl
  · rw [if_pos rfl, Fin.sum_univ_three, ← add_assoc, ← add_assoc]
    rfl

theorem volumeEquation_fixed (sqrt : K → K) (volumeConstraint : Bool) (nxDofs : Nat)
    (solx solxOld : Fin 3 → Nat → K) (h : ∀ k i, i < nxDofs → solx k i = solxOld k i)
    (a : K) (gp : GaussPoint K) :
    volumeEquation sqrt volumeConstraint nxDofs solx solxOld a gp = a := by
  rw [volumeEquation_apply]
  split_ifs
  · have z : ∀ k : Fin 3,
        ((solxNewg nxDofs gp.phix solx k - solxNewg nxDofs gp.phix solxOld k)
            * normal sqrt (solxMid_uv nxDofs gp.phix_uv solx solxOld) k)
          * Area sqrt gp.weight (solxMid_uv nxDofs gp.phix_uv solx solxOld) = 0 := by
      intro k
      rw [solxNewg_congr nxDofs gp.phix solx solxOld h k, sub_self, zero_mul, zero_mul]
    simp only [z, Finset.sum_const_zero, add_zero]
  · rfl

/-- C12. Volume constraint at a fixed point: for every element whose nodal positions satisfy
`solx = solxOld` (and `detg != 0` at every Gauss point), the accumulated volume-constraint
residual `aResLambda1`, the sum over Gauss points and `K` of
`(solxNewg[K] - solxOldg[K]) * normal[K] * Area`, is exactly zero. -/
theorem aResLambda1_fixed_point (sqrt : K → K) (volumeConstraint : Bool) (nxDofs : Nat)
    (solx solxOld : Fin 3 → Nat → K) (gauss : List (GaussPoint K))
    (h : ∀ k i, i < nxDofs → solx k i = solxOld k i)
    (_hdet : ∀ gp ∈ gauss, detg (solxMid_uv nxDofs gp.phix_uv solx solxOld) ≠ 0) :
    aResLambda1 sqrt volumeConstraint nxDofs solx solxOld gauss = 0 := by
  unfold aResLambda1
  generalize (0 : K) = a
  clear _hdet
  induction gauss with
  | nil => rfl
  | cons gp gauss ih =>
    rw [List.foldl_cons, volumeEquation_fixed sqrt volumeConstraint nxDofs solx solxOld h]
    exact ih

theorem detg_sampleNodes (K : Type) [Field K] [CharZero K] :
    detg (solxMid_uv 3 (sampleGauss K).phix_uv (sampleNodes K) (sampleNodes K)) = 1 := by
  simp only [detg, metric_apply, solxMid_uv_apply, Finset.sum_range_succ, Finset.sum_range_zero,
    sampleNodes, sampleGauss]
  norm_num [List.getD]

/-- C12 on the flat sample triangle with the centroid rule, where `detg = 1`. -/
theorem aResLambda1_fixed_point_witness :
    aResLambda1 Real.sqrt true 3 (sampleNodes ℝ) (sampleNodes ℝ) [sampleGauss ℝ] = 0 :=
  aResLambda1_fixed_point Real.sqrt true 3 (sampleNodes ℝ) (sampleNodes ℝ) [sampleGauss ℝ]
    (fun _ _ _ => rfl)
    (fun gp hgp => by
      rw [List.mem_singleton.mp hgp, detg_sampleNodes]
      exact one_ne_zero)

theorem solxNew_uv_sub (nxDofs : Nat) (phix_uv : Fin 2 → Nat → K)
    (solx solxOld : Fin 3 → Nat → K) (k : Fin 3) (j : Fin 2) :
    solxNew_uv nxDofs phix_uv (fun k i => solx k i - solxOld k i) k j
      = solxNew_uv nxDofs phix_uv solx k j - solxNew_uv nxDofs phix_uv solxOld k j := by
  rw [solxNew_uv_apply, solxNew_uv_apply, solxNew_uv_apply, ← Finset.sum_sub_distrib]
  exact Finset.sum_congr rfl fun i _ => mul_sub _ _ _

theorem solxNew_uv_midpoint (nxDofs : Nat) (phix_uv : Fin 2 → Nat → K)
    (solx solxOld : Fin 3 → Nat → K) :
    solxNew_uv nxDofs phix_uv (fun k i => 1 / 2 * (solx k i + solxOld k i))
      = solxMid_uv nxDofs phix_uv solx solxOld := by
  funext k j
  rw [solxNew_uv_apply, solxMid_uv_apply]
  exact Finset.sum_congr rfl fun i _ => (mul_assoc _ _ _).symm

theorem term1t_apply (nxDofs : Nat) (solx solxOld : Fin 3 → Nat → K) (gp : GaussPoint K)
    (k : Fin 3) :
    term1t nxDofs solx solxOld gp k
      = ∑ J : Fin 3, midpointGradient nxDofs solx solxOld gp k J
          * displacementGradient nxDofs solx solxOld gp k J := by
  have hD : ∀ J : Fin 3, displacementGradient nxDofs solx solxOld gp k J
      = Xtan (solxNew_uv nxDofs gp.phix_uv solx)
            (solxMid_uv nxDofs gp.phix_uv solx solxOld) k J
        - Xtan (solxNew_uv nxDofs gp.phix_uv solxOld)
            (solxMid_uv nxDofs gp.phix_uv solx solxOld) k J := by
    intro J
    rw [displacementGradient, Xtan_apply, Xtan_apply, Xtan_apply, solxNew_uv_sub,
      solxNew_uv_sub]
    ring
  have hG : ∀ J : Fin 3, midpointGradient nxDofs solx solxOld gp k J
      = solx_Xtan (solxMid_uv nxDofs gp.phix_uv solx solxOld) k J := by
    intro J
    rw [midpointGradient, solxNew_uv_midpoint, solx_Xtan]
  simp only [hD, hG, Fin.sum_univ_three]
  have e : ∀ t0 t1 t2 : K, (0 : K) + t0 + t1 + t2 = t0 + t1 + t2 := fun t0 t1 t2 => by
    rw [zero_add]
  exact e _ _ _

theorem areaEquation_apply (sqrt : K → K) (nxDofs : Nat) (solx solxOld : Fin 3 → Nat → K)
    (a : K) (gp : GaussPoint K) :
    areaEquation sqrt true nxDofs solx solxOld a gp
      = a + term1t nxDofs solx solxOld gp 0
            * Area sqrt gp.weight (solxMid_uv nxDofs gp.phix_uv solx solxOld)
          + term1t nxDofs solx solxOld gp 1
            * Area sqrt gp.weight (solxMid_uv nxDofs gp.phix_uv solx solxOld)
          + term1t nxDofs solx solxOld gp 2
            * Area sqrt gp.weight (solxMid_uv nxDofs gp.phix_uv solx solxOld) :=
  rfl

theorem displacementGradient_fixed (nxDofs : Nat) (solx solxOld : Fin 3 → Nat → K)
    (gp : GaussPoint K) (h : ∀ k i, i < nxDofs → solx k i = solxOld k i) (k J : Fin 3) :
    displacementGradient nxDofs solx solxOld gp k J = 0 := by
  have z : ∀ j : Fin 2,
      solxNew_uv nxDofs gp.phix_uv (fun k i => solx k i - solxOld k i) k j = 0 := by
    intro j
    rw [solxNew_uv_apply]
    exact Finset.sum_eq_zero fun i hi => by
      rw [h k i (Finset.mem_range.mp hi), sub_self, mul_zero]
  rw [displacementGradient, Xtan_apply, z, z]
  ring

/-- C20. Area constraint residual: at each Gauss point with `detg != 0` the contribution to
`aResLambda2` equals `Area * sum_{K,J} G[K][J] * D[K][J]`, where `G` is the tangential
gradient of the midpoint position `0.5 * (x_new + x_old)` and `D` the tangential gradient
(same midpoint metric) of the displacement `x_new - x_old`; consequently it is zero whenever
`x_new = x_old`. -/
theorem areaEquation_contribution (sqrt : K → K) (nxDofs : Nat)
    (solx solxOld : Fin 3 → Nat → K) (a : K) (gp : GaussPoint K)
    (_hdet : detg (solxMid_uv nxDofs gp.phix_uv solx solxOld) ≠ 0) :
    areaEquation sqrt true nxDofs solx solxOld a gp
        = a + Area sqrt gp.weight (solxMid_uv nxDofs gp.phix_uv solx solxOld)
            * ∑ k : Fin 3, ∑ J : Fin 3, midpointGradient nxDofs solx solxOld gp k J
                * displacementGradient nxDofs solx solxOld gp k J ∧
      ((∀ k i, i < nxDofs → solx k i = solxOld k i) →
        areaEquation sqrt true nxDofs solx solxOld a gp = a) := by
  have e : areaEquation sqrt true nxDofs solx solxOld a gp
      = a + Area sqrt gp.weight (solxMid_uv nxDofs gp.phix_uv solx solxOld)
          * ∑ k : Fin 3, ∑ J : Fin 3, midpointGradient nxDofs solx solxOld gp k J
              * displacementGradient nxDofs solx solxOld gp k J := by
    rw [areaEquation_apply, Fin.sum_univ_three, ← term1t_apply, ← term1t_apply, ← term1t_apply]
    ring
  refine ⟨e, fun h => ?_⟩
  rw [e]
  simp only [displacementGradient_fixed nxDofs solx solxOld gp h, mul_zero,
    Finset.sum_const_zero, add_zero]

theorem detg_sampleNodesOld (K : Type) [Field K] [CharZero K] :
    detg (solxMid_uv 3 (sampleGauss K).phix_uv (sampleNodes K) (sampleNodesOld K)) = 5 / 4 := by
  simp only [detg, metric_apply, solxMid_uv_apply, Finset.sum_range_succ, Finset.sum_range_zero,
    sampleNodes, sampleNodesOld, sampleGauss]
  norm_num [List.getD]

/-- C20 on the sample triangle moving from `sampleNodesOld` to `sampleNodes`, where the
midpoint surface has `detg = 5 / 4`. -/
theorem areaEquation_contribution_witness :
    areaEquation Real.sqrt true 3 (sampleNodes ℝ) (sampleNodesOld ℝ) 0 (sampleGauss ℝ)
        = 0 + Area Real.sqrt (sampleGauss ℝ).weight
              (solxMid_uv 3 (sampleGauss ℝ).phix_uv (sampleNodes ℝ) (sampleNodesOld ℝ))
            * ∑ k : Fin 3, ∑ J : Fin 3,
                midpointGradient 3 (sampleNodes ℝ) (sampleNodesOld ℝ) (sampleGauss ℝ) k J
                * displacementGradient 3 (sampleNodes ℝ) (sampleNodesOld ℝ) (sampleGauss ℝ) k J ∧
      ((∀ k i, i < 3 → sampleNodes ℝ k i = sampleNodesOld ℝ k i) →
        areaEquation Real.sqrt true 3 (sampleNodes ℝ) (sampleNodesOld ℝ) 0 (sampleGauss ℝ) = 0) :=
  areaEquation_contribution Real.sqrt 3 (sampleNodes ℝ) (sampleNodesOld ℝ) 0 (sampleGauss ℝ)
    (by rw [detg_sampleNodesOld]; norm_num)

end ConstraintKernelProofs

section GaussianEleminationLogProofs

variable {K : Type} [Field K] [DecidableEq K]

/-- The pivot search returns the first row at or below `p` with a non-zero entry in
column `i`. -/
theorem findPivot_first (A : Nat → Nat → K) (n i : Nat) :
    ∀ k p q, n - p = k → findPivot A n i p = some q →
      ∀ r, p ≤ r → r < q → A r i = 0 := by
  intro k
  induction k with
  | zero =>
    intro p q _ h r hpr hrq
    rw [findPivot] at h
    by_cases h0 : A p i = 0
    · rw [if_pos h0, if_neg (by omega)] at h; cases h
    · rw [if_neg h0] at h
      cases h
      omega
  | succ k ih =>
    intro p q hk h r hpr hrq
    rw [findPivot] at h
    by_cases h0 : A p i = 0
    · rw [if_pos h0] at h
      by_cases h1 : p + 1 < n
      · rw [if_pos h1] at h
        by_cases hr : r = p
        · rw [hr]; exact h0
        · exact ih (p + 1) q (by omega) h r (by omega) hrq
      · rw [if_neg h1] at h; cases h
    · rw [if_neg h0] at h
      cases h
      omega

omit [DecidableEq K] in
/-- The row loop keeps `x`, computes `elimBelow`, and records only the pivot `A[i][i]`. -/
theorem elimBelowLog_fold (n i m : Nat) (s : GEState K) :
    ((List.range' (i + 1) m).foldl (elimRowLog n i) s).A
        = (List.range' (i + 1) m).foldl (fun B j => elimRow B n i j) s.A ∧
      ((List.range' (i + 1) m).foldl (elimRowLog n i) s).x = s.x ∧
      ∀ d ∈ ((List.range' (i + 1) m).foldl (elimRowLog n i) s).divisors,
        d ∈ s.divisors ∨ d = s.A i i := by
  induction m with
  | zero => exact ⟨rfl, rfl, fun d hd => Or.inl hd⟩
  | succ m ih =>
    obtain ⟨hA, hx, hd⟩ := ih
    rw [List.range'_concat, List.foldl_append, List.foldl_append]
    simp only [List.foldl_cons, List.foldl_nil, Nat.one_mul]
    refine ⟨?_, hx, ?_⟩
    · show elimRow _ n i _ = elimRow _ n i _
      rw [hA]
    · intro d hdm
      have hdm' : d ∈ ((List.range' (i + 1) m).foldl (elimRowLog n i) s).divisors
          ++ [((List.range' (i + 1) m).foldl (elimRowLog n i) s).A i i] := hdm
      rcases List.mem_append.mp hdm' with h | h
      · exact hd d h
      · right
        rw [List.mem_singleton.mp h, hA, elimBelow_fold_apply, if_neg (by omega)]

omit [DecidableEq K] in
theorem elimBelowLog_spec (n i : Nat) (s : GEState K) :
    (elimBelowLog n i s).A = elimBelow s.A n i ∧ (elimBelowLog n i s).x = s.x ∧
      ∀ d ∈ (elimBelowLog n i s).divisors, d ∈ s.divisors ∨ d = s.A i i :=
  elimBelowLog_fold n i (n - (i + 1)) s

/-- One pass of the outer loop: the matrix is that of `elimStep`, `x` is untouched, and
every new divisor is the non-zero pivot. -/
theorem elimStepLog_spec (n i : Nat) (hi : i < n) (s : GEState K) :
    match elimStepLog n s i with
    | Except.ok t => elimStep s.A n i = some t.A ∧ t.x = s.x ∧
        ((∀ d ∈ s.divisors, d ≠ 0) → ∀ d ∈ t.divisors, d ≠ 0)
    | Except.error t => elimStep s.A n i = none ∧ t = s := by
  unfold elimStepLog elimStep
  cases hp : findPivot s.A n i i with
  | none => exact ⟨rfl, rfl⟩
  | some p =>
    obtain ⟨hip, hpn, hne⟩ := findPivot_some s.A n i _ i p rfl hi hp
    obtain ⟨hA, hx, hd⟩ := elimBelowLog_spec n i
      { A := if p ≠ i then swapRows s.A n i p else s.A, x := s.x, divisors := s.divisors }
    refine ⟨by rw [hA], hx, fun h0 d hdm => ?_⟩
    rcases hd d hdm with h | h
    · exact h0 d h
    · rw [h]
      show (if p ≠ i then swapRows s.A n i p else s.A) i i ≠ 0
      by_cases hpi : p = i
      · rw [if_neg (not_not.mpr hpi)]
        rw [hpi] at hne
        exact hne
      · rw [if_pos hpi, swapRows_apply, if_pos (by omega), if_pos rfl]
        exact hne

/-- The elimination loop, step by step: it agrees with `forwardElim`, never touches `x`,
and every recorded divisor is non-zero, on both ways out. -/
theorem forwardElimLog_fold (A : Nat → Nat → K) (x : Nat → K) (n m : Nat) (hm : m ≤ n - 1) :
    match (List.range m).foldlM (elimStepLog n) { A := A, x := x, divisors := [] } with
    | Except.ok s => (List.range m).foldlM (fun B i => elimStep B n i) A = some s.A ∧
        s.x = x ∧ ∀ d ∈ s.divisors, d ≠ 0
    | Except.error s => (List.range m).foldlM (fun B i => elimStep B n i) A = none ∧
        s.x = x ∧ ∀ d ∈ s.divisors, d ≠ 0 := by
  induction m with
  | zero => exact ⟨rfl, rfl, fun d hd => absurd hd (List.not_mem_nil d)⟩
  | succ m ih =>
    have ih := ih (by omega)
    rw [List.range_succ, List.foldlM_append, List.foldlM_append]
    cases h1 : (List.range m).foldlM (elimStepLog n) { A := A, x := x, divisors := [] } with
    | error s =>
      rw [h1] at ih
      obtain ⟨hA, hx, hd⟩ := ih
      rw [hA]
      exact ⟨rfl, hx, hd⟩
    | ok s =>
      rw [h1] at ih
      obtain ⟨hA, hx, hd⟩ := ih
      rw [hA]
      have e : ((Except.ok s : Except (GEState K) (GEState K)) >>= fun t =>
          List.foldlM (elimStepLog n) t [m]) = elimStepLog n s m := by
        show List.foldlM (elimStepLog n) s [m] = elimStepLog n s m
        rw [List.foldlM_cons]
        cases elimStepLog n s m <;> rfl
      have e' : ((some s.A : Option (Nat → Nat → K)) >>= fun C =>
          List.foldlM (fun B i => elimStep B n i) C [m]) = elimStep s.A n m := by
        show List.foldlM (fun B i => elimStep B n i) s.A [m] = elimStep s.A n m
        rw [List.foldlM_cons]
        cases elimStep s.A n m <;> rfl
      rw [e, e']
      have hs := elimStepLog_spec n m (by omega) s
      cases h2 : elimStepLog n s m with
      | error t =>
        rw [h2] at hs
        obtain ⟨hA', ht⟩ := hs
        rw [ht]
        exact ⟨hA', hx, hd⟩
      | ok t =>
        rw [h2] at hs
        obtain ⟨hA', hx', hd'⟩ := hs
        exact ⟨hA', hx'.trans hx, hd' hd⟩

omit [DecidableEq K] in
/-- The back substitution keeps `A`, computes the `x` of `backSubstRow`, and records only
diagonal entries of the rows it visits. -/
theorem backSubstLog_fold (n : Nat) (L : List Nat) (s : GEState K) :
    (L.foldl (backSubstRowLog n) s).A = s.A ∧
      (L.foldl (backSubstRowLog n) s).x = L.foldl (backSubstRow s.A n) s.x ∧
      ∀ d ∈ (L.foldl (backSubstRowLog n) s).divisors,
        d ∈ s.divisors ∨ ∃ i ∈ L, d = s.A i i := by
  induction L generalizing s with
  | nil => exact ⟨rfl, rfl, fun d hd => Or.inl hd⟩
  | cons i L ih =>
    obtain ⟨hA, hx, hd⟩ := ih (backSubstRowLog n s i)
    rw [List.foldl_cons, List.foldl_cons]
    refine ⟨hA, hx, fun d hdm => ?_⟩
    rcases hd d hdm with h | ⟨j, hj, h⟩
    · have h' : d ∈ s.divisors ++ [s.A i i] := h
      rcases List.mem_append.mp h' with h1 | h1
      · exact Or.inl h1
      · exact Or.inr ⟨i, List.mem_cons_self i L, List.mem_singleton.mp h1⟩
    · exact Or.inr ⟨j, List.mem_cons_of_mem i hj, h⟩

/-- The routine with exit state and divisors against `GaussianElemination`: the same
outcome, the same matrix and vector on return, `x` untouched on the singular exit, and
non-zero divisors throughout. -/
theorem GaussianEleminationLog_spec (A : Nat → Nat → K) (n : Nat) (x : Nat → K) :
    match GaussianEleminationLog A n x with
    | Except.ok s => GaussianElemination A n x = some (s.A, s.x) ∧
        ∀ d ∈ s.divisors, d ≠ 0
    | Except.error s => GaussianElemination A n x = none ∧ s.x = x ∧
        ∀ d ∈ s.divisors, d ≠ 0 := by
  unfold GaussianEleminationLog GaussianElemination forwardElimLog forwardElim
  have hf := forwardElimLog_fold A x n (n - 1) (le_refl _)
  have hE := forwardElim_fold A n (n - 1) (Nat.sub_le n 1)
  cases h1 : (List.range (n - 1)).foldlM (elimStepLog n)
      { A := A, x := x, divisors := [] } with
  | error s =>
    rw [h1] at hf
    obtain ⟨hA, hx, hd⟩ := hf
    rw [hA]
    exact ⟨rfl, hx, hd⟩
  | ok s =>
    rw [h1] at hf
    obtain ⟨hA, hx, hd⟩ := hf
    rw [hA] at hE ⊢
    by_cases hlast : s.A (n - 1) (n - 1) = 0
    · simp only [hlast, if_true]
      exact ⟨trivial, hx, hd⟩
    · simp only [hlast, if_false]
      obtain ⟨hA', hx', hd'⟩ := backSubstLog_fold n (List.range (n - 1)).reverse
        { A := s.A
          x := Function.update s.x (n - 1) (s.A (n - 1) n / s.A (n - 1) (n - 1))
          divisors := s.divisors ++ [s.A (n - 1) (n - 1)] }
      refine ⟨?_, fun d hdm => ?_⟩
      · rw [hA', hx', hx]
      · rcases hd' d hdm with h | ⟨i, hi, h⟩
        · have h' : d ∈ s.divisors ++ [s.A (n - 1) (n - 1)] := h
          rcases List.mem_append.mp h' with h2 | h2
          · exact hd d h2
          · rw [List.mem_singleton.mp h2]; exact hlast
        · rw [h]
          exact (hE.1 i (List.mem_range.mp (List.mem_reverse.mp hi))).1

omit [Field K] [DecidableEq K] in
theorem error_of_not_isOk (r : Except (GEState K) (GEState K)) (h : r.isOk = false) :
    r = Except.error (exitState r) := by
  cases r with
  | error s => rfl
  | ok s => cases h

/-- C17. `GaussianElemination` failure is free of partial results: with the exit modelled
as an error result, whenever the routine reports "The Matrix A is singular" no entry of the
output vector `x` has been written (`x` equals its value on entry). -/
theorem GaussianElemination_error_keeps_x (A : Nat → Nat → K) (n : Nat) (x : Nat → K)
    (s : GEState K) (h : GaussianEleminationLog A n x = Except.error s) :
    s.x = x ∧ GaussianElemination A n x = none := by
  have hs := GaussianEleminationLog_spec A n x
  rw [h] at hs
  exact ⟨hs.2.1, hs.1⟩

/-- C17 on the singular system `x + 2y = 3`, `2x + 4y = 6`, entered with `x = (7, 7, ...)`:
the routine stops with an error and `x` is still `(7, 7, ...)`. -/
theorem GaussianElemination_error_keeps_x_witness :
    GaussianEleminationLog singularSystem 2 (fun _ => 7)
        = Except.error (exitState (GaussianEleminationLog singularSystem 2 (fun _ => 7))) ∧
      ((exitState (GaussianEleminationLog singularSystem 2 (fun _ => 7))).x = (fun _ => 7) ∧
        GaussianElemination singularSystem 2 (fun _ => 7) = none) :=
  have h : GaussianEleminationLog singularSystem 2 (fun _ => 7)
      = Except.error (exitState (GaussianEleminationLog singularSystem 2 (fun _ => 7))) :=
    error_of_not_isOk _ (by decide!)
  ⟨h, GaussianElemination_error_keeps_x singularSystem 2 (fun _ => 7) _ h⟩

/-- C18. `GaussianElemination` never divides by zero: for every `n >= 1` and every
`n x (n+1)` input over exact arithmetic, each divisor used (`A[i][i]` in the multiplier `mji`,
`A[n-1][n-1]` and `A[i][i]` during back substitution) is non-zero at the moment of division,
on the normal return and on the singular exit alike; the pivot search stops at the first row
at or below `i` with a non-zero entry in column `i`, and fails only if there is none. -/
theorem GaussianElemination_divisors_ne_zero (A : Nat → Nat → K) (n : Nat) (_hn : 1 ≤ n)
    (x : Nat → K) :
    (∀ d ∈ (exitState (GaussianEleminationLog A n x)).divisors, d ≠ 0) ∧
      ∀ (B : Nat → Nat → K) (i : Nat), i < n - 1 →
        (∀ p, findPivot B n i i = some p →
          i ≤ p ∧ p < n ∧ B p i ≠ 0 ∧ ∀ r, i ≤ r → r < p → B r i = 0) ∧
        (findPivot B n i i = none → ∀ q, i ≤ q → q < n → B q i = 0) := by
  constructor
  · have hs := GaussianEleminationLog_spec A n x
    cases h : GaussianEleminationLog A n x with
    | error s => rw [h] at hs; exact hs.2.2
    | ok s => rw [h] at hs; exact hs.2
  · intro B i hi
    refine ⟨fun p hp => ?_, fun h => findPivot_none B n i _ i rfl h⟩
    obtain ⟨h1, h2, h3⟩ := findPivot_some B n i _ i p rfl (by omega) hp
    exact ⟨h1, h2, h3, findPivot_first B n i _ i p rfl hp⟩

/-- C18 on the sample `3 x 3` system, whose six divisors are `2, 2, 1/2, -1, 1/2, 2`. -/
theorem GaussianElemination_divisors_ne_zero_witness :
    (∀ d ∈ (exitState (GaussianEleminationLog sampleSystem 3 (fun _ => 0))).divisors, d ≠ 0) ∧
      ∀ (B : Nat → Nat → ℚ) (i : Nat), i < 3 - 1 →
        (∀ p, findPivot B 3 i i = some p →
          i ≤ p ∧ p < 3 ∧ B p i ≠ 0 ∧ ∀ r, i ≤ r → r < p → B r i = 0) ∧
        (findPivot B 3 i i = none → ∀ q, i ≤ q → q < 3 → B q i = 0) :=
  GaussianElemination_divisors_ne_zero sampleSystem 3 (by decide) (fun _ => 0)

theorem sampleSystem_divisors :
    (exitState (GaussianEleminationLog sampleSystem 3 (fun _ => 0))).divisors
      = [2, 2, 1 / 2, -1, 1 / 2, 2] := by
  decide!

end GaussianEleminationLogProofs

section LaplacianProofs

variable {K : Type} [Field K]

theorem gaussPoint_fold (assembleMatrix : Bool) (nDof_u : Nat) (sol_u : Nat → K)
    (qp : QuadraturePoint K) (L : List Nat) (loc : LocalSystem K) :
    (L.foldl (fun l i =>
        ({ Res := residualRow nDof_u sol_u qp l.Res i
           Jac := jacobianRow assembleMatrix nDof_u qp l.Jac i } : LocalSystem K)) loc).Res
        = L.foldl (residualRow nDof_u sol_u qp) loc.Res ∧
      (L.foldl (fun l i =>
        ({ Res := residualRow nDof_u sol_u qp l.Res i
           Jac := jacobianRow assembleMatrix nDof_u qp l.Jac i } : LocalSystem K)) loc).Jac
        = L.foldl (jacobianRow assembleMatrix nDof_u qp) loc.Jac := by
  induction L generalizing loc with
  | nil => exact ⟨rfl, rfl⟩
  | cons i L ih => exact ih _

/-- What one Gauss point adds to `Res[i]`, as the source computes it. -/
theorem gaussPoint_Res (assembleMatrix : Bool) (nDof_u : Nat) (sol_u : Nat → K)
    (loc : LocalSystem K) (qp : QuadraturePoint K) (i : Nat) (hi : i < nDof_u) :
    (gaussPoint assembleMatrix nDof_u sol_u loc qp).Res i
      = loc.Res i + -qp.weight * (qp.phi_u i * (-1)
          - laplace_res_du_u_i nDof_u (sol_u_x_gss nDof_u sol_u qp) qp i) := by
  unfold gaussPoint
  rw [(gaussPoint_fold assembleMatrix nDof_u sol_u qp _ loc).1,
    ex7.foldl_range_add nDof_u (residualRow nDof_u sol_u qp)
      (fun i i' => if i' = i then -qp.weight * (qp.phi_u i * (-1)
          - laplace_res_du_u_i nDof_u (sol_u_x_gss nDof_u sol_u qp) qp i) else 0)
      (fun R j hj => by
        unfold residualRow
        rw [if_pos hj, ex7.update_add])]
  simp only [Pi.add_apply, Finset.sum_apply]
  rw [Finset.sum_ite_eq, if_pos (Finset.mem_range.mpr hi)]

theorem laplace_res_du_u_i_apply (nDof_u : Nat) (gss : Nat → K) (qp : QuadraturePoint K)
    (i : Nat) (hi : i < nDof_u) :
    laplace_res_du_u_i nDof_u gss qp i
      = ∑ k in Finset.range space_dim, qp.phi_u_x (i * space_dim + k) * gss k := by
  unfold laplace_res_du_u_i
  rw [ex7.foldl_range_add space_dim _ (fun k => qp.phi_u_x (i * space_dim + k) * gss k)
    (fun s k _ => by rw [if_pos hi]), zero_add]

/-- The local residual as the source assembles it: the source term and the gradient term
carry the same sign. -/
theorem elementSystem_Res (assembleMatrix : Bool) (nDof_u : Nat) (sol_u : Nat → K)
    (gauss : List (QuadraturePoint K)) (i : Nat) (hi : i < nDof_u) :
    (elementSystem assembleMatrix nDof_u sol_u gauss).Res i
      = (gauss.map fun qp => qp.weight * (qp.phi_u i
          + ∑ k in Finset.range space_dim,
              qp.phi_u_x (i * space_dim + k) * sol_u_x_gss nDof_u sol_u qp k)).sum := by
  unfold elementSystem
  have key : ∀ (loc : LocalSystem K),
      (gauss.foldl (gaussPoint assembleMatrix nDof_u sol_u) loc).Res i
        = loc.Res i + (gauss.map fun qp => qp.weight * (qp.phi_u i
          + ∑ k in Finset.range space_dim,
              qp.phi_u_x (i * space_dim + k) * sol_u_x_gss nDof_u sol_u qp k)).sum := by
    induction gauss with
    | nil => intro loc; simp
    | cons qp gauss ih =>
      intro loc
      rw [List.foldl_cons, ih, gaussPoint_Res _ _ _ _ _ _ hi,
        laplace_res_du_u_i_apply _ _ _ _ hi, List.map_cons, List.sum_cons]
      ring
  rw [key]
  exact zero_add _

theorem laplace_mat_du_u_apply (nDof_u : Nat) (qp : QuadraturePoint K) (i j : Nat)
    (hi : i < nDof_u) (hj : j < nDof_u) :
    laplace_mat_du_u nDof_u qp i j
      = ∑ k in Finset.range space_dim,
          qp.phi_u_x (i * space_dim + k) * qp.phi_u_x (j * space_dim + k) := by
  unfold laplace_mat_du_u
  rw [ex7.foldl_range_add space_dim _
    (fun k => qp.phi_u_x (i * space_dim + k) * qp.phi_u_x (j * space_dim + k))
    (fun s k _ => by rw [if_pos ⟨hi, hj⟩]), zero_add]

/-- The row-major index `i * n + j` with `j < n` determines `i` and `j`. -/
theorem rowMajor_inj (n i j i0 j0 : Nat) (hj : j < n) (hj0 : j0 < n)
    (h : i0 * n + j0 = i * n + j) : i = i0 ∧ j = j0 := by
  have hn : 0 < n := by omega
  have h1 : (i0 * n + j0) / n = i0 := by
    rw [Nat.add_comm, Nat.add_mul_div_right _ _ hn, Nat.div_eq_of_lt hj0, Nat.zero_add]
  have h2 : (i * n + j) / n = i := by
    rw [Nat.add_comm, Nat.add_mul_div_right _ _ hn, Nat.div_eq_of_lt hj, Nat.zero_add]
  have hi : i = i0 := by rw [← h1, ← h2, h]
  subst hi
  exact ⟨rfl, by omega⟩

/-- What one Gauss point adds to `Jac[i * nDof_u + j]`. -/
theorem gaussPoint_Jac (nDof_u : Nat) (sol_u : Nat → K) (loc : LocalSystem K)
    (qp : QuadraturePoint K) (i0 j0 : Nat) (hi0 : i0 < nDof_u) (hj0 : j0 < nDof_u) :
    (gaussPoint true nDof_u sol_u loc qp).Jac (i0 * nDof_u + j0)
      = loc.Jac (i0 * nDof_u + j0) + qp.weight * laplace_mat_du_u nDof_u qp i0 j0 := by
  unfold gaussPoint
  rw [(gaussPoint_fold true nDof_u sol_u qp _ loc).2,
    ex7.foldl_range_add nDof_u (jacobianRow true nDof_u qp)
      (fun i => ∑ j in Finset.range nDof_u, fun idx =>
        if idx = i * nDof_u + j then qp.weight * laplace_mat_du_u nDof_u qp i j else 0)
      (fun J i hi => by
        unfold jacobianRow
        rw [if_pos rfl]
        exact ex7.foldl_range_add nDof_u _
          (fun j idx =>
            if idx = i * nDof_u + j then qp.weight * laplace_mat_du_u nDof_u qp i j else 0)
          (fun J' j hj => by rw [if_pos ⟨hi, hj⟩, ex7.update_add]) J)]
  simp only [Pi.add_apply, Finset.sum_apply]
  congr 1
  rw [Finset.sum_eq_single i0, Finset.sum_eq_single j0, if_pos rfl]
  · intro j hj hne
    rw [if_neg]
    intro h
    exact hne (rowMajor_inj nDof_u i0 j i0 j0 (Finset.mem_range.mp hj) hj0 h).2
  · intro h
    exact absurd (Finset.mem_range.mpr hj0) h
  · intro i _ hne
    apply Finset.sum_eq_zero
    intro j hj
    rw [if_neg]
    intro h
    exact hne (rowMajor_inj nDof_u i j i0 j0 (Finset.mem_range.mp hj) hj0 h).1
  · intro h
    exact absurd (Finset.mem_range.mpr hi0) h

/-- The local matrix as the source assembles it: the stiffness bilinear form. -/
theorem elementSystem_Jac (nDof_u : Nat) (sol_u : Nat → K)
    (gauss : List (QuadraturePoint K)) (i j : Nat) (hi : i < nDof_u) (hj : j < nDof_u) :
    (elementSystem true nDof_u sol_u gauss).Jac (i * nDof_u + j)
      = (gauss.map fun qp => qp.weight * ∑ k in Finset.range space_dim,
          qp.phi_u_x (i * space_dim + k) * qp.phi_u_x (j * space_dim + k)).sum := by
  unfold elementSystem
  have key : ∀ (loc : LocalSystem K),
      (gauss.foldl (gaussPoint true nDof_u sol_u) loc).Jac (i * nDof_u + j)
        = loc.Jac (i * nDof_u + j)
          + (gauss.map fun qp => qp.weight * ∑ k in Finset.range space_dim,
              qp.phi_u_x (i * space_dim + k) * qp.phi_u_x (j * space_dim + k)).sum := by
    induction gauss with
    | nil => intro loc; simp
    | cons qp gauss ih =>
      intro loc
      rw [List.foldl_cons, ih, gaussPoint_Jac _ _ _ _ _ _ hi hj,
        laplace_mat_du_u_apply _ _ _ _ hi hj, List.map_cons, List.sum_cons, add_assoc]
  rw [key]
  exact zero_add _

/-- The Gauss point loop never reads `sol_u` on its way to `Jac`. -/
theorem elementSystem_Jac_indep (assembleMatrix : Bool) (nDof_u : Nat) (sol_u sol_u' : Nat → K)
    (gauss : List (QuadraturePoint K)) :
    (elementSystem assembleMatrix nDof_u sol_u gauss).Jac
      = (elementSystem assembleMatrix nDof_u sol_u' gauss).Jac := by
  unfold elementSystem
  have key : ∀ (loc loc' : LocalSystem K), loc.Jac = loc'.Jac →
      (gauss.foldl (gaussPoint assembleMatrix nDof_u sol_u) loc).Jac
        = (gauss.foldl (gaussPoint assembleMatrix nDof_u sol_u') loc').Jac := by
    induction gauss with
    | nil => intro loc loc' h; exact h
    | cons qp gauss ih =>
      intro loc loc' h
      rw [List.foldl_cons, List.foldl_cons]
      apply ih
      unfold gaussPoint
      rw [(gaussPoint_fold assembleMatrix nDof_u sol_u qp _ loc).2,
        (gaussPoint_fold assembleMatrix nDof_u sol_u' qp _ loc').2, h]
  exact key _ _ rfl

end LaplacianProofs

section LaplacianOrdered

variable {K : Type} [LinearOrderedField K]

/-- The quadratic form of one Gauss point's stiffness block is a weighted sum of squares. -/
theorem stiffness_quadratic_form (nDof_u : Nat) (qp : QuadraturePoint K) (v : Nat → K) :
    ∑ i in Finset.range nDof_u, ∑ j in Finset.range nDof_u,
        v i * (qp.weight * ∑ k in Finset.range space_dim,
          qp.phi_u_x (i * space_dim + k) * qp.phi_u_x (j * space_dim + k)) * v j
      = qp.weight * ∑ k in Finset.range space_dim,
          (∑ i in Finset.range nDof_u, v i * qp.phi_u_x (i * space_dim + k)) ^ 2 := by
  have e : ∀ k, (∑ i in Finset.range nDof_u, v i * qp.phi_u_x (i * space_dim + k)) ^ 2
      = ∑ i in Finset.range nDof_u, ∑ j in Finset.range nDof_u,
          v i * (qp.phi_u_x (i * space_dim + k) * qp.phi_u_x (j * space_dim + k)) * v j := by
    intro k
    rw [sq, Finset.sum_mul_sum]
    exact Finset.sum_congr rfl fun i _ => Finset.sum_congr rfl fun j _ => by ring
  calc ∑ i in Finset.range nDof_u, ∑ j in Finset.range nDof_u,
        v i * (qp.weight * ∑ k in Finset.range space_dim,
          qp.phi_u_x (i * space_dim + k) * qp.phi_u_x (j * space_dim + k)) * v j
      = ∑ i in Finset.range nDof_u, ∑ j in Finset.range nDof_u, ∑ k in Finset.range space_dim,
          qp.weight * (v i * (qp.phi_u_x (i * space_dim + k) * qp.phi_u_x (j * space_dim + k))
            * v j) := by
        refine Finset.sum_congr rfl fun i _ => Finset.sum_congr rfl fun j _ => ?_
        rw [Finset.mul_sum, Finset.mul_sum, Finset.sum_mul]
        exact Finset.sum_congr rfl fun k _ => by ring
    _ = ∑ i in Finset.range nDof_u, ∑ k in Finset.range space_dim, ∑ j in Finset.range nDof_u,
          qp.weight * (v i * (qp.phi_u_x (i * space_dim + k) * qp.phi_u_x (j * space_dim + k))
            * v j) := Finset.sum_congr rfl fun i _ => Finset.sum_comm
    _ = ∑ k in Finset.range space_dim, ∑ i in Finset.range nDof_u, ∑ j in Finset.range nDof_u,
          qp.weight * (v i * (qp.phi_u_x (i * space_dim + k) * qp.phi_u_x (j * space_dim + k))
            * v j) := Finset.sum_comm
    _ = qp.weight * ∑ k in Finset.range space_dim,
          (∑ i in Finset.range nDof_u, v i * qp.phi_u_x (i * space_dim + k)) ^ 2 := by
        rw [Finset.mul_sum]
        refine Finset.sum_congr rfl fun k _ => ?_
        rw [e k, Finset.mul_sum]
        refine Finset.sum_congr rfl fun i _ => ?_
        rw [Finset.mul_sum]

/-- C15. Laplacian local Jacobian: the matrix assembled by `AssembleProblem` for one element
is the stiffness bilinear form,
`Jac[i*nDof+j] = sum over Gauss points of weight * sum_{k<3} phi_u_x[i*3+k] * phi_u_x[j*3+k]`;
it does not depend on `sol_u`, is symmetric and, when every weight is non-negative, positive
semi-definite. -/
theorem AssembleProblem_jacobian (nDof_u : Nat) (sol_u : Nat → K)
    (gauss : List (QuadraturePoint K)) :
    (∀ i j, i < nDof_u → j < nDof_u →
        (elementSystem true nDof_u sol_u gauss).Jac (i * nDof_u + j)
          = (gauss.map fun qp => qp.weight * ∑ k in Finset.range 3,
              qp.phi_u_x (i * 3 + k) * qp.phi_u_x (j * 3 + k)).sum) ∧
      (∀ sol_u' : Nat → K, (elementSystem true nDof_u sol_u' gauss).Jac
          = (elementSystem true nDof_u sol_u gauss).Jac) ∧
      (∀ i j, i < nDof_u → j < nDof_u →
        (elementSystem true nDof_u sol_u gauss).Jac (i * nDof_u + j)
          = (elementSystem true nDof_u sol_u gauss).Jac (j * nDof_u + i)) ∧
      ((∀ qp ∈ gauss, 0 ≤ qp.weight) → ∀ v : Nat → K,
        0 ≤ ∑ i in Finset.range nDof_u, ∑ j in Finset.range nDof_u,
          v i * (elementSystem true nDof_u sol_u gauss).Jac (i * nDof_u + j) * v j) := by
  refine ⟨fun i j hi hj => elementSystem_Jac nDof_u sol_u gauss i j hi hj,
    fun sol_u' => elementSystem_Jac_indep true nDof_u sol_u' sol_u gauss, ?_, ?_⟩
  · intro i j hi hj
    rw [elementSystem_Jac nDof_u sol_u gauss i j hi hj,
      elementSystem_Jac nDof_u sol_u gauss j i hj hi]
    congr 1
    apply List.map_congr_left
    intro qp _
    congr 1
    exact Finset.sum_congr rfl fun k _ => mul_comm _ _
  · intro hw v
    have e : ∑ i in Finset.range nDof_u, ∑ j in Finset.range nDof_u,
          v i * (elementSystem true nDof_u sol_u gauss).Jac (i * nDof_u + j) * v j
        = ∑ i in Finset.range nDof_u, ∑ j in Finset.range nDof_u,
          v i * (gauss.map fun qp => qp.weight * ∑ k in Finset.range space_dim,
            qp.phi_u_x (i * space_dim + k) * qp.phi_u_x (j * space_dim + k)).sum * v j :=
      Finset.sum_congr rfl fun i hi => Finset.sum_congr rfl fun j hj => by
        rw [elementSystem_Jac nDof_u sol_u gauss i j (Finset.mem_range.mp hi)
          (Finset.mem_range.mp hj)]
    rw [e]
    clear e
    induction gauss with
    | nil => simp
    | cons qp gauss ih =>
      have split : ∑ i in Finset.range nDof_u, ∑ j in Finset.range nDof_u,
          v i * ((qp :: gauss).map fun qp => qp.weight * ∑ k in Finset.range space_dim,
            qp.phi_u_x (i * space_dim + k) * qp.phi_u_x (j * space_dim + k)).sum * v j
          = (∑ i in Finset.range nDof_u, ∑ j in Finset.range nDof_u,
              v i * (qp.weight * ∑ k in Finset.range space_dim,
                qp.phi_u_x (i * space_dim + k) * qp.phi_u_x (j * space_dim + k)) * v j)
            + ∑ i in Finset.range nDof_u, ∑ j in Finset.range nDof_u,
              v i * (gauss.map fun qp => qp.weight * ∑ k in Finset.range space_dim,
                qp.phi_u_x (i * space_dim + k) * qp.phi_u_x (j * space_dim + k)).sum * v j := by
        rw [← Finset.sum_add_distrib]
        apply Finset.sum_congr rfl
        intro i _
        rw [← Finset.sum_add_distrib]
        apply Finset.sum_congr rfl
        intro j _
        rw [List.map_cons, List.sum_cons]
        ring
      rw [split, stiffness_quadratic_form]
      apply add_nonneg
      · exact mul_nonneg (hw qp (List.mem_cons_self qp gauss))
          (Finset.sum_nonneg fun k _ => sq_nonneg _)
      · exact ih fun qp' h => hw qp' (List.mem_cons_of_mem qp h)

/-- C14, the source at a solution vector that is not zero.  One element with a single
unknown, one Gauss point of weight `1` with `phi_u = (1)`, `grad phi_u = (1, 0, 0)`, and
`sol_u = (1)`: the assembled residual is `2 = weight * (phi_u + grad phi_u . grad u)`, while
the weak form `weight * (phi_u - grad phi_u . grad u)` is `0`, and so is
`Res (0) - Jac * sol_u` for the assembled `Jac`; the assembled residual is
`Res (0) + Jac * sol_u`. -/
theorem AssembleProblem_residual_sign :
    (elementSystem true 1 (fun _ => (1 : ℚ)) [sampleQuadrature ℚ]).Res 0 = 2 ∧
      weakFormResidual 1 (fun _ => (1 : ℚ)) [sampleQuadrature ℚ] 0 = 0 ∧
      (elementSystem true 1 (fun _ => (0 : ℚ)) [sampleQuadrature ℚ]).Res 0
        - jacTimes 1 (elementSystem true 1 (fun _ => (1 : ℚ)) [sampleQuadrature ℚ]).Jac
            (fun _ => 1) 0 = 0 ∧
      (elementSystem true 1 (fun _ => (1 : ℚ)) [sampleQuadrature ℚ]).Res 0
        = (elementSystem true 1 (fun _ => (0 : ℚ)) [sampleQuadrature ℚ]).Res 0
          + jacTimes 1 (elementSystem true 1 (fun _ => (1 : ℚ)) [sampleQuadrature ℚ]).Jac
              (fun _ => 1) 0 := by
  decide!

end LaplacianOrdered

section GlobalAssemblyProofs

variable {K : Type} [Field K]

/-- After both `zero ()` calls nothing of the previous content is left. -/
theorem zero_zero (sys sys' : GlobalSystem K) :
    RES_zero (KK_zero sys) = RES_zero (KK_zero sys') :=
  rfl

/-- The matrix part of the Laplacian element loop depends on the matrix it starts from
only. -/
theorem laplace_fold_KK (assembleMatrix : Bool) (elements : List (LaplaceElement K))
    (s s' : GlobalSystem K) (h : s.KK = s'.KK) :
    (elements.foldl (laplaceElementStep assembleMatrix) s).KK
      = (elements.foldl (laplaceElementStep assembleMatrix) s').KK := by
  induction elements generalizing s s' with
  | nil => exact h
  | cons e elements ih =>
    rw [List.foldl_cons, List.foldl_cons]
    apply ih
    unfold laplaceElementStep
    simp only [h]

/-- C16 as stated fails for the Laplacian: on the one-element sample mesh, starting from the
zero system, `RES[0]` is `1` after one call of `AssembleProblem` and `2` after two. -/
theorem AssembleProblem_RES_accumulates :
    (AssembleProblem true (sampleMesh ℚ) (zeroSystem ℚ)).RES 0 = 1 ∧
      (AssembleProblem true (sampleMesh ℚ)
        (AssembleProblem true (sampleMesh ℚ) (zeroSystem ℚ))).RES 0 = 2 ∧
      AssembleProblem true (sampleMesh ℚ) (AssembleProblem true (sampleMesh ℚ) (zeroSystem ℚ))
        ≠ AssembleProblem true (sampleMesh ℚ) (zeroSystem ℚ) := by
  have h1 : (AssembleProblem true (sampleMesh ℚ) (zeroSystem ℚ)).RES 0 = 1 := by decide!
  have h2 : (AssembleProblem true (sampleMesh ℚ)
      (AssembleProblem true (sampleMesh ℚ) (zeroSystem ℚ))).RES 0 = 2 := by decide!
  refine ⟨h1, h2, fun h => ?_⟩
  rw [h, h1] at h2
  exact absurd h2 (by decide)

/-- C16, amended. For the four routines of ex6.cpp (`AssembleInit`, `AssemblePWillmore`,
`AssemblePWillmore2`, `AssembleO2ConformalMinimization`) and fixed field values, `KK` and
`RES` after two consecutive invocations equal `KK` and `RES` after a single invocation,
whatever they contained before; for `AssembleProblem` of the Laplacian with
`assembleMatrix = true` the same holds for `KK`. -/
theorem assembly_idempotent (rows : List Nat) (c : Nat) (blocks : List (LocalBlock K))
    (elements : List (LaplaceElement K)) (sys : GlobalSystem K) :
    AssembleInit blocks (AssembleInit blocks sys) = AssembleInit blocks sys ∧
      AssemblePWillmore rows c blocks (AssemblePWillmore rows c blocks sys)
        = AssemblePWillmore rows c blocks sys ∧
      AssemblePWillmore2 rows c blocks (AssemblePWillmore2 rows c blocks sys)
        = AssemblePWillmore2 rows c blocks sys ∧
      AssembleO2ConformalMinimization blocks (AssembleO2ConformalMinimization blocks sys)
        = AssembleO2ConformalMinimization blocks sys ∧
      (AssembleProblem true elements (AssembleProblem true elements sys)).KK
        = (AssembleProblem true elements sys).KK := by
  refine ⟨?_, ?_, ?_, ?_, ?_⟩
  · unfold AssembleInit
    rw [zero_zero _ sys]
  · unfold AssemblePWillmore
    rw [zero_zero _ sys]
  · unfold AssemblePWillmore2
    rw [zero_zero _ sys]
  · unfold AssembleO2ConformalMinimization
    rw [zero_zero _ sys]
  · unfold AssembleProblem
    exact laplace_fold_KK true elements _ _ rfl

end GlobalAssemblyProofs

section CurvatureInitProofs

variable {K : Type} [LinearOrderedField K]

/-- With `P = {2, 3, 4}` and `ap = {1, 0, 0}` only `p = 2` contributes, and it contributes
`1 * 1 * 2 * pow (YdotY, 0) = 2`. -/
theorem sumP1_eq_two (pow : K → K → K) (hpow : ∀ y, pow y 0 = 1) (solYg normal : Fin 3 → K) :
    sumP1 pow solYg normal = 2 := by
  have e : sumP1 pow solYg normal
      = 0 + (if P 0 % 2 = 0 then 1 else signYdotN solYg normal) * ap 0 * (P 0 : K)
              * pow (YdotY solYg) (((P 0 : K) - 2) / 2)
          + (if P 1 % 2 = 0 then 1 else signYdotN solYg normal) * ap 1 * (P 1 : K)
              * pow (YdotY solYg) (((P 1 : K) - 2) / 2)
          + (if P 2 % 2 = 0 then 1 else signYdotN solYg normal) * ap 2 * (P 2 : K)
              * pow (YdotY solYg) (((P 2 : K) - 2) / 2) := rfl
  rw [e]
  simp [P, ap, hpow]

theorem aResW_zero_iff_of_pow (pow : K → K → K) (hpow : ∀ y, pow y 0 = 1)
    (solWg solYg normal : Fin 3 → K) (weight : K) (hw : weight ≠ 0) (k : Fin 3) :
    (∀ phiW_i : K, aResW pow solWg solYg normal phiW_i weight k = 0)
      ↔ solWg k = 2 * solYg k := by
  unfold aResW
  rw [sumP1_eq_two pow hpow]
  constructor
  · intro h
    have h1 := h 1
    rw [mul_one] at h1
    rcases mul_eq_zero.mp h1 with h2 | h2
    · exact sub_eq_zero.mp h2
    · exact absurd h2 hw
  · intro h phiW_i
    rw [h, sub_self, zero_mul, zero_mul]

/-- C13 as stated fails: with `solWg = solYg = (1, 0, 0)`, `phiW[i] = 1` and `weight = 1` the
W-residual of `AssembleInit` is `(1 - 2 * 1) * 1 * 1 = -1`, not zero, since `sumP1 = 2`. -/
theorem aResW_at_W_eq_Y :
    aResW Real.rpow ![1, 0, 0] ![1, 0, 0] ![0, 0, 1] 1 1 0 = -1 ∧
      ¬ ((∀ phiW_i : ℝ, aResW Real.rpow ![1, 0, 0] ![1, 0, 0] ![0, 0, 1] phiW_i 1 0 = 0)
          ↔ (![1, 0, 0] : Fin 3 → ℝ) 0 = (![1, 0, 0] : Fin 3 → ℝ) 0) := by
  have h : aResW Real.rpow ![1, 0, 0] ![1, 0, 0] ![0, 0, 1] 1 1 0 = -1 := by
    unfold aResW
    rw [sumP1_eq_two Real.rpow Real.rpow_zero]
    norm_num
  refine ⟨h, fun hiff => ?_⟩
  have h0 := hiff.mpr rfl 1
  rw [h] at h0
  norm_num at h0

/-- C13, amended. In `AssembleInit` the W-residual contribution at a Gauss point,
`(solWg[K] - sumP1 * solYg[K]) * phiW[i] * weight`, has
`sumP1 = sum_p signP * ap[p] * P[p] * |Y|^(P[p] - 2)`, with the factor `P[p]`; for
`P = {2, 3, 4}`, `ap = {1, 0, 0}` this is `sumP1 = 2`, and at a Gauss point of non-zero weight
the residual vanishes for every test function iff `solWg[K] = 2 * solYg[K]`. -/
theorem aResW_zero_iff (solWg solYg normal : Fin 3 → ℝ) (weight : ℝ) (hw : weight ≠ 0)
    (k : Fin 3) :
    sumP1 Real.rpow solYg normal = 2 ∧
      ((∀ phiW_i : ℝ, aResW Real.rpow solWg solYg normal phiW_i weight k = 0)
        ↔ solWg k = 2 * solYg k) :=
  ⟨sumP1_eq_two Real.rpow Real.rpow_zero solYg normal,
    aResW_zero_iff_of_pow Real.rpow Real.rpow_zero solWg solYg normal weight hw k⟩

/-- C13, amended, at `solWg = (2, 4, 6)`, `solYg = (1, 2, 3)`, `normal = (0, 0, 1)`,
`weight = 1 / 2`. -/
theorem aResW_zero_iff_witness :
    sumP1 Real.rpow ![1, 2, 3] ![0, 0, 1] = 2 ∧
      ((∀ phiW_i : ℝ, aResW Real.rpow ![2, 4, 6] ![1, 2, 3] ![0, 0, 1] phiW_i (1 / 2) 1 = 0)
        ↔ (![2, 4, 6] : Fin 3 → ℝ) 1 = 2 * (![1, 2, 3] : Fin 3 → ℝ) 1) :=
  aResW_zero_iff ![2, 4, 6] ![1, 2, 3] ![0, 0, 1] (1 / 2) (by norm_num) 1

end CurvatureInitProofs

section LocalLayoutProofs

theorem range'_glue (s m t n k : Nat) (ht : t = s + m) (hk : k = m + n) :
    List.range' s m ++ List.range' t n = List.range' s k := by
  subst ht hk
  rw [List.range'_append_1, Nat.add_comm]

/-- Three consecutive blocks of `n` consecutive indices, starting at `b`. -/
theorem blocks_eq_range' (b n : Nat) :
    ((List.range 3).flatMap fun K => (List.range n).map fun i => b + K * n + i)
      = List.range' b (3 * n) := by
  have e : ∀ c, (List.range n).map (fun i => c + i) = List.range' c n := fun c =>
    (List.range'_eq_map_range c n).symm
  have h3 : List.range 3 = [0, 1, 2] := rfl
  rw [h3]
  simp only [List.flatMap_cons, List.flatMap_nil, List.append_nil, e]
  rw [range'_glue (b + 1 * n) n (b + 2 * n) n (2 * n) (by omega) (by omega),
    range'_glue (b + 0 * n) n (b + 1 * n) (2 * n) (3 * n) (by omega) (by omega)]
  congr 1
  omega

/-- C19. Local DOF layout of `AssemblePWillmore2` (and `AssemblePWillmore`): for all local
dof counts and both constraint flags, the positions `K*nxDofs+i`, `3*nxDofs+K*nYDofs+i`,
`3*(nxDofs+nYDofs)+K*nWDofs+i` (`K<3`), `sizeAll-1-areaConstraint` (volume multiplier, if
enabled) and `sizeAll-1` (area multiplier, if enabled), taken in the order in which the
unknowns (and the residuals) are declared to the AD tape, are `0, 1, ..., sizeAll-1`: they
cover `0..sizeAll-1` exactly once, in the tape order. -/
theorem tapeOrder_position (nxDofs nYDofs nWDofs : Nat) (volumeConstraint areaConstraint : Bool) :
    (tapeOrder nxDofs nYDofs nWDofs volumeConstraint areaConstraint).map
        (position nxDofs nYDofs nWDofs volumeConstraint areaConstraint)
      = List.range (sizeAll nxDofs nYDofs nWDofs volumeConstraint areaConstraint) := by
  have hx : ((List.range 3).flatMap fun K => (List.range nxDofs).map (LocalUnknown.x K)).map
      (position nxDofs nYDofs nWDofs volumeConstraint areaConstraint)
      = List.range' 0 (3 * nxDofs) := by
    rw [← blocks_eq_range', List.map_flatMap]
    simp only [List.map_map, Function.comp_def, position, Nat.zero_add]
  have hY : ((List.range 3).flatMap fun K => (List.range nYDofs).map (LocalUnknown.Y K)).map
      (position nxDofs nYDofs nWDofs volumeConstraint areaConstraint)
      = List.range' (3 * nxDofs) (3 * nYDofs) := by
    rw [← blocks_eq_range', List.map_flatMap]
    simp only [List.map_map, Function.comp_def, position]
  have hW : ((List.range 3).flatMap fun K => (List.range nWDofs).map (LocalUnknown.W K)).map
      (position nxDofs nYDofs nWDofs volumeConstraint areaConstraint)
      = List.range' (3 * (nxDofs + nYDofs)) (3 * nWDofs) := by
    rw [← blocks_eq_range', List.map_flatMap]
    simp only [List.map_map, Function.comp_def, position]
  unfold tapeOrder
  rw [List.map_append, List.map_append, List.map_append, List.map_append, hx, hY, hW,
    range'_glue 0 (3 * nxDofs) (3 * nxDofs) (3 * nYDofs) (3 * (nxDofs + nYDofs))
      (by omega) (by omega),
    range'_glue 0 (3 * (nxDofs + nYDofs)) (3 * (nxDofs + nYDofs)) (3 * nWDofs)
      (3 * (nxDofs + nYDofs + nWDofs)) (by omega) (by omega),
    List.range_eq_range']
  have one : ∀ a : Nat, [a] = List.range' a 1 := fun _ => rfl
  cases volumeConstraint <;> cases areaConstraint <;>
    simp only [sizeAll, position, Bool.toNat_true, Bool.toNat_false, if_true, List.map_cons,
      List.map_nil, List.append_nil, Nat.add_zero, Bool.false_eq_true, if_false, one]
  · exact range'_glue _ _ _ _ _ (by omega) (by omega)
  · exact range'_glue _ _ _ _ _ (by omega) (by omega)
  · rw [range'_glue 0 (3 * (nxDofs + nYDofs + nWDofs)) _ 1 (3 * (nxDofs + nYDofs + nWDofs) + 1)
      (by omega) (by omega)]
    exact range'_glue _ _ _ _ _ (by omega) (by omega)

end LocalLayoutProofs

/-- The entries of `GetMultiIndex` weighted by the powers of `n` give back `i`. -/
theorem GetMultiIndex_sum (dim n i : Nat) (hi : i < n ^ dim) :
    ∑ d in Finset.range dim, (GetMultiIndex dim n i).getD d 0 * n ^ (dim - 1 - d) = i := by
  have h1 : ofLeadingDigits n (GetMultiIndex dim n i) = i := by
    rw [GetMultiIndex_eq_digitRow, digitRow_eq_leadingDigits n dim i hi,
      ofLeadingDigits_leadingDigits n dim i hi]
  have h2 : ofLeadingDigits n (GetMultiIndex dim n i)
      = ∑ d in Finset.range dim,
          (i % n ^ (dim - d)) / n ^ (dim - 1 - d) * n ^ (dim - 1 - d) :=
    ofLeadingDigits_map_range n dim _
  refine Eq.trans ?_ (h2.symm.trans h1)
  apply Finset.sum_congr rfl
  intro d hd
  have hd := Finset.mem_range.mp hd
  unfold GetMultiIndex
  rw [List.getD_eq_getElem?_getD, List.getElem?_map, List.getElem?_range hd]
  simp only [Option.map_some', Option.getD_some]

theorem GetMultiIndex_lt (dim n i : Nat) (hn : 1 ≤ n) : ∀ a ∈ GetMultiIndex dim n i, a < n := by
  intro a ha
  rw [GetMultiIndex_eq_digitRow] at ha
  obtain ⟨j, _, rfl⟩ := List.mem_map.mp ha
  exact Nat.mod_lt _ (by omega)

/-- C22. `GetMultiIndex` is base-`n` digit extraction: for every `dim >= 1`, `n >= 1` and
`i < n^dim` (powers taken as exact integers), every returned `idx[d]` is `< n` and
`sum_{d<dim} idx[d] * n^(dim-1-d) = i`; hence `i -> idx` is a bijection from
`{0..n^dim-1}` onto `{0..n-1}^dim`, with `idx[0]` the most significant digit. -/
theorem GetMultiIndex_bijection (dim n : Nat) (_hdim : 1 ≤ dim) (hn : 1 ≤ n) :
    (∀ i, i < n ^ dim →
        (∀ a ∈ GetMultiIndex dim n i, a < n) ∧
        ∑ d in Finset.range dim, (GetMultiIndex dim n i).getD d 0 * n ^ (dim - 1 - d) = i) ∧
      Set.BijOn (GetMultiIndex dim n) {i | i < n ^ dim}
        {idx | idx.length = dim ∧ ∀ a ∈ idx, a < n} := by
  refine ⟨fun i hi => ⟨GetMultiIndex_lt dim n i hn, GetMultiIndex_sum dim n i hi⟩, ?_, ?_, ?_⟩
  · intro i _
    exact ⟨by simp [GetMultiIndex], GetMultiIndex_lt dim n i hn⟩
  · intro i hi j hj h
    have e : ∀ v, v < n ^ dim → ofLeadingDigits n (GetMultiIndex dim n v) = v := by
      intro v hv
      rw [GetMultiIndex_eq_digitRow, digitRow_eq_leadingDigits n dim v hv,
        ofLeadingDigits_leadingDigits n dim v hv]
    rw [← e i hi, ← e j hj, h]
  · intro idx hidx
    obtain ⟨hlen, hlt⟩ := hidx
    obtain ⟨h1, h2⟩ := leadingDigits_ofLeadingDigits n idx hlt
    rw [hlen] at h1 h2
    refine ⟨ofLeadingDigits n idx, h1, ?_⟩
    rw [GetMultiIndex_eq_digitRow, digitRow_eq_leadingDigits n dim _ h1, h2]

/-- C22 at the element grid of `main` (`dim = 2`, `nel1d = 4`). -/
theorem GetMultiIndex_bijection_witness :
    (∀ i, i < 4 ^ 2 →
        (∀ a ∈ GetMultiIndex 2 4 i, a < 4) ∧
        ∑ d in Finset.range 2, (GetMultiIndex 2 4 i).getD d 0 * 4 ^ (2 - 1 - d) = i) ∧
      Set.BijOn (GetMultiIndex 2 4) {i | i < 4 ^ 2}
        {idx | idx.length = 2 ∧ ∀ a ∈ idx, a < 4} :=
  GetMultiIndex_bijection 2 4 (by decide) (by decide)

section GetChebyshevCheckedProofs

variable {K : Type} [CommRing K]

omit [CommRing K] in
theorem writeAt_of_lt (T : List K) (i : Nat) (v : K) (h : i < T.length) :
    writeAt T i v = some (T.set i v) :=
  if_pos h

/-- Inside a vector of `m` entries the checked loop succeeds and agrees with the unchecked
one. -/
theorem chebyshev_foldlM (x : K) (m : Nat) (L : List Nat) (hL : ∀ i ∈ L, i < m) :
    ∀ T : List K, T.length = m →
      L.foldlM (chebyshevStep x) T
        = some (L.foldl (fun T i => T.set i (2 * x * T.getD (i - 1) 0 - T.getD (i - 2) 0)) T) := by
  induction L with
  | nil => intro T _; rfl
  | cons i L ih =>
    intro T hT
    have hi : i < T.length := by rw [hT]; exact hL i (List.mem_cons_self i L)
    have h1 : T[i - 1]? = some (T.getD (i - 1) 0) := by
      rw [List.getD_eq_getElem?_getD, List.getElem?_eq_getElem (by omega)]
      rfl
    have h2 : T[i - 2]? = some (T.getD (i - 2) 0) := by
      rw [List.getD_eq_getElem?_getD, List.getElem?_eq_getElem (by omega)]
      rfl
    have hs : chebyshevStep x T i
        = some (T.set i (2 * x * T.getD (i - 1) 0 - T.getD (i - 2) 0)) := by
      unfold chebyshevStep
      rw [h1, h2]
      exact writeAt_of_lt T i _ hi
    rw [List.foldlM_cons, hs, List.foldl_cons]
    exact ih (fun j hj => hL j (List.mem_cons_of_mem i hj)) _
      (by rw [List.length_set]; exact hT)

/-- C30. `GetChebyshev` index safety: every element access of `T` lies inside the `n + 1`
allocated entries if and only if `n >= 1` (the checked routine then returns what
`GetChebyshev` returns); for `n = 0` the assignment `T[0] = 1` is inside and the
unconditional assignment `T[1] = x` writes one past the single allocated entry. -/
theorem GetChebyshev_index_safety (T : List K) (n : Nat) (x : K) :
    ((GetChebyshevChecked T n x).isSome ↔ 1 ≤ n) ∧
      (1 ≤ n → GetChebyshevChecked T n x = some (GetChebyshev T n x)) ∧
      (n = 0 → (resize T (n + 1)).length = 1 ∧
        writeAt (resize T (n + 1)) 0 1 = some ((resize T (n + 1)).set 0 1) ∧
        writeAt ((resize T (n + 1)).set 0 1) 1 x = none) := by
  have h0 : writeAt (resize T (n + 1)) 0 1 = some ((resize T (n + 1)).set 0 1) :=
    writeAt_of_lt _ _ _ (by rw [resize_length]; omega)
  have hok : 1 ≤ n → GetChebyshevChecked T n x = some (GetChebyshev T n x) := by
    intro hn
    unfold GetChebyshevChecked GetChebyshev
    rw [h0]
    simp only
    rw [writeAt_of_lt _ 1 x (by rw [List.length_set, resize_length]; omega)]
    simp only
    apply chebyshev_foldlM x (n + 1)
    · intro i hi
      have := List.mem_range'_1.mp hi
      omega
    · rw [List.length_set, List.length_set, resize_length]
  have hbad : n = 0 → writeAt ((resize T (n + 1)).set 0 1) 1 x = none := by
    intro hn
    unfold writeAt
    rw [if_neg]
    rw [List.length_set, resize_length]
    omega
  refine ⟨⟨fun h => ?_, fun hn => by rw [hok hn]; rfl⟩, hok, fun hn =>
    ⟨by rw [resize_length, hn], h0, hbad hn⟩⟩
  by_contra hn
  have hn0 : n = 0 := by omega
  unfold GetChebyshevChecked at h
  rw [h0] at h
  simp only at h
  rw [hbad hn0] at h
  simp at h

end GetChebyshevCheckedProofs

/-- While some counter differs from `degree` the carry loop stays inside `counters` and does
what `advanceCounters` does. -/
theorem advanceCountersChecked_some (degree : Nat) (counters : List Nat)
    (h : ∃ c ∈ counters, c ≠ degree) :
    advanceCountersChecked degree counters = some (advanceCounters degree counters) := by
  induction counters with
  | nil => obtain ⟨c, hc, _⟩ := h; cases hc
  | cons c cs ih =>
    unfold advanceCountersChecked advanceCounters
    by_cases hc : c = degree
    · rw [if_pos hc, if_pos hc, ih]
      · rfl
      · obtain ⟨a, ha, hne⟩ := h
        rcases List.mem_cons.mp ha with h1 | h1
        · exact absurd (h1 ▸ hc) hne
        · exact ⟨a, h1, hne⟩
    · rw [if_neg hc, if_neg hc]

/-- With `degree = 0` and all counters zero the carry loop reads past the last counter. -/
theorem advanceCountersChecked_zero (m : Nat) :
    advanceCountersChecked 0 (List.replicate m 0) = none := by
  induction m with
  | zero => rfl
  | succ m ih =>
    rw [List.replicate_succ]
    unfold advanceCountersChecked
    rw [if_pos rfl, ih]
    rfl

theorem odometer_top_mem (B d v : Nat) : v / B ^ d ∈ odometer B d v := by
  induction d generalizing v with
  | zero => simp [odometer]
  | succ d ih =>
    simp only [odometer, List.mem_cons]
    right
    have := ih (v / B)
    rwa [Nat.div_div_eq_div_mul, ← pow_succ'] at this

/-- Before the row of odometer value `v` is written, fewer than `dimJp` rows are there. -/
theorem rows_before_lt_dimJp (degree d v : Nat) (hv : v < (degree + 1) ^ d)
    (hp : digitSum (degree + 1) d v ≤ degree) :
    ((List.range v).filter (fun w => decide (digitSum (degree + 1) d w ≤ degree))).length
      < dimJp degree d := by
  have hcard : dimJp degree d
      = ((List.range ((degree + 1) ^ d)).filter
          (fun w => decide (digitSum (degree + 1) d w ≤ degree))).length := by
    rw [length_filter_range]
    exact (card_boundedSums (degree + 1) d degree (by omega)).symm
  have hsplit : List.range ((degree + 1) ^ d)
      = List.range v ++ List.range' v ((degree + 1) ^ d - v) := by
    have e := List.range'_append_1 0 v ((degree + 1) ^ d - v)
    rw [Nat.zero_add] at e
    rw [List.range_eq_range', List.range_eq_range', e]
    congr 1
    omega
  obtain ⟨k, hk⟩ : ∃ k, (degree + 1) ^ d - v = k + 1 := ⟨(degree + 1) ^ d - v - 1, by omega⟩
  rw [hcard, hsplit, List.filter_append, List.length_append, hk, List.range'_succ,
    List.filter_cons, if_pos (by simpa using hp), List.length_cons]
  omega

theorem indexSetLoopChecked_odometer (degree d : Nat) (hdeg : 1 ≤ degree) :
    ∀ k v fuel Jp, (degree + 1) ^ d - v = k → v ≤ (degree + 1) ^ d → k + 1 ≤ fuel →
      Jp.length = ((List.range v).filter
        (fun w => decide (digitSum (degree + 1) d w ≤ degree))).length →
      indexSetLoopChecked degree d fuel (odometer (degree + 1) d v) Jp
        = Run.done (Jp ++ ((List.range' v k).filter
            (fun w => decide (digitSum (degree + 1) d w ≤ degree))).map
              (digitRow (degree + 1) d)) := by
  intro k
  induction k with
  | zero =>
    intro v fuel Jp hk hv hf _
    obtain ⟨f, rfl⟩ : ∃ f, fuel = f + 1 := ⟨fuel - 1, by omega⟩
    have hv' : v = (degree + 1) ^ d := by omega
    simp only [indexSetLoopChecked, odometer_getD_top]
    rw [if_pos]
    · simp
    · rw [hv', Nat.div_self (by positivity)]; omega
  | succ k ih =>
    intro v fuel Jp hk hv hf hJ
    obtain ⟨f, rfl⟩ : ∃ f, fuel = f + 1 := ⟨fuel - 1, by omega⟩
    have hv' : v < (degree + 1) ^ d := by omega
    have hadv : advanceCountersChecked degree (odometer (degree + 1) d v)
        = some (odometer (degree + 1) d (v + 1)) := by
      rw [advanceCountersChecked_some, advanceCounters_odometer degree hdeg d v hv']
      refine ⟨v / (degree + 1) ^ d, odometer_top_mem _ _ _, ?_⟩
      rw [Nat.div_eq_of_lt hv']
      omega
    simp only [indexSetLoopChecked, odometer_getD_top]
    rw [if_neg (by rw [Nat.div_eq_of_lt hv']; simp), entrySum_odometer, indexRow_odometer, hadv]
    by_cases h : digitSum (degree + 1) d v ≤ degree
    · have hlt := rows_before_lt_dimJp degree d v hv' h
      rw [if_neg (by rw [hJ]; omega)]
      simp only [h, if_true]
      rw [ih (v + 1) f _ (by omega) (by omega) (by omega)
        (by rw [List.length_append, hJ, List.range_succ, List.filter_append]; simp [h])]
      rw [List.range'_succ, List.filter_cons]
      simp [h]
    · rw [if_neg (fun hc => h hc.1)]
      simp only [h, if_false]
      rw [ih (v + 1) f _ (by omega) (by omega) (by omega)
        (by rw [hJ, List.range_succ, List.filter_append]; simp [h])]
      rw [List.range'_succ, List.filter_cons]
      simp [h]

theorem ComputeIndexSetChecked_eq (degree dimension : Nat) (hdeg : 1 ≤ degree) :
    ComputeIndexSetChecked degree dimension
      = Run.done (((List.range ((degree + 1) ^ dimension)).filter
          (fun w => decide (digitSum (degree + 1) dimension w ≤ degree))).map
            (digitRow (degree + 1) dimension)) := by
  unfold ComputeIndexSetChecked
  rw [← odometer_zero (degree + 1) dimension,
    indexSetLoopChecked_odometer degree dimension hdeg _ 0 _ [] rfl (Nat.zero_le _) (by omega)
      rfl]
  simp [List.range_eq_range']

/-- With `degree = 0` the first turn of the loop already leaves `counters`. -/
theorem indexSetLoopChecked_zero (dimension fuel : Nat) :
    indexSetLoopChecked 0 dimension (fuel + 1) (List.replicate (dimension + 1) 0) []
      = Run.outOfBounds := by
  have h1 : (List.replicate (dimension + 1) 0).getD dimension 0 = 0 := by
    rw [← odometer_zero 1 dimension, odometer_getD_top]
    simp
  have h2 : dimJp 0 dimension = 1 := by simp [dimJp]
  simp only [indexSetLoopChecked]
  rw [if_neg (by rw [h1]; simp), if_neg (by rw [h2]; simp), advanceCountersChecked_zero]

/-- C29. `ComputeIndexSet` is total and in bounds exactly for positive degree: for every
`dimension >= 1` the odometer loop terminates with every access of the carry loop at an
index `<= dimension` and every row of `Jp` written at an index `< C(dimension+degree, degree)`
if and only if `degree >= 1` (and then returns the rows of `ComputeIndexSet`); for
`degree = 0` the carry loop `for (i = 0; counters[i] == degree; i++)` runs past
`counters[dimension]` in the first turn of the loop. -/
theorem ComputeIndexSet_in_bounds_iff (degree dimension : Nat) (_hdim : 1 ≤ dimension) :
    ((∃ fuel Jp, indexSetLoopChecked degree dimension fuel
          (List.replicate (dimension + 1) 0) [] = Run.done Jp) ↔ 1 ≤ degree) ∧
      (1 ≤ degree → ∃ Jp, ComputeIndexSetChecked degree dimension = Run.done Jp ∧
        ComputeIndexSet degree dimension = some Jp) ∧
      (degree = 0 →
        advanceCountersChecked degree (List.replicate (dimension + 1) 0) = none ∧
        ∀ fuel, 1 ≤ fuel → indexSetLoopChecked degree dimension fuel
          (List.replicate (dimension + 1) 0) [] = Run.outOfBounds) := by
  have hzero : degree = 0 → ∀ fuel, 1 ≤ fuel → indexSetLoopChecked degree dimension fuel
      (List.replicate (dimension + 1) 0) [] = Run.outOfBounds := by
    intro h0 fuel hf
    obtain ⟨f, rfl⟩ : ∃ f, fuel = f + 1 := ⟨fuel - 1, by omega⟩
    rw [h0]
    exact indexSetLoopChecked_zero dimension f
  refine ⟨⟨fun h => ?_, fun hdeg => ?_⟩, fun hdeg => ?_, fun h0 => ⟨?_, hzero h0⟩⟩
  · by_contra hd
    obtain ⟨fuel, Jp, hrun⟩ := h
    cases fuel with
    | zero => simp [indexSetLoopChecked] at hrun
    | succ f =>
      rw [hzero (by omega) (f + 1) (by omega)] at hrun
      cases hrun
  · exact ⟨_, _, ComputeIndexSetChecked_eq degree dimension hdeg⟩
  · exact ⟨_, ComputeIndexSetChecked_eq degree dimension hdeg,
      ComputeIndexSet_eq degree dimension hdeg⟩
  · rw [h0]
    exact advanceCountersChecked_zero (dimension + 1)

/-- C29 at the dimension of `main`, for `degree = 3`. -/
theorem ComputeIndexSet_in_bounds_iff_witness :
    ((∃ fuel Jp, indexSetLoopChecked 3 2 fuel (List.replicate (2 + 1) 0) [] = Run.done Jp)
        ↔ 1 ≤ 3) ∧
      (1 ≤ 3 → ∃ Jp, ComputeIndexSetChecked 3 2 = Run.done Jp ∧
        ComputeIndexSet 3 2 = some Jp) ∧
      (3 = 0 →
        advanceCountersChecked 3 (List.replicate (2 + 1) 0) = none ∧
        ∀ fuel, 1 ≤ fuel → indexSetLoopChecked 3 2 fuel (List.replicate (2 + 1) 0) []
          = Run.outOfBounds) :=
  ComputeIndexSet_in_bounds_iff 3 2 (by decide)

section TriangleConfigurationProofs

variable {K : Type} [Field K]

/-- The seven ways three valences can compare: one strictly smallest, two tied for the
smallest, or all equal. -/
theorem valence_cases (ENVN : Fin 3 → Nat) :
    (ENVN 0 < ENVN 1 ∧ ENVN 0 < ENVN 2) ∨ (ENVN 1 < ENVN 0 ∧ ENVN 1 < ENVN 2) ∨
      (ENVN 2 < ENVN 0 ∧ ENVN 2 < ENVN 1) ∨ (ENVN 0 = ENVN 2 ∧ ENVN 0 < ENVN 1) ∨
      (ENVN 0 = ENVN 1 ∧ ENVN 0 < ENVN 2) ∨ (ENVN 1 = ENVN 2 ∧ ENVN 1 < ENVN 0) ∨
      (ENVN 0 = ENVN 1 ∧ ENVN 0 = ENVN 2) := by
  omega

theorem CTC1_lead0 (pi : K) (ENVN : Fin 3 → Nat) (angle : Fin 3 → K)
    (h : ENVN 0 < ENVN 1 ∧ ENVN 0 < ENVN 2) :
    ChangeTriangleConfiguration1 pi ENVN angle
      = ![angle 0, angle 1 * ((pi - angle 0) / (angle 1 + angle 2)),
          angle 2 * ((pi - angle 0) / (angle 1 + angle 2))] := by
  unfold ChangeTriangleConfiguration1
  rw [if_pos h]

theorem CTC1_lead1 (pi : K) (ENVN : Fin 3 → Nat) (angle : Fin 3 → K)
    (h : ENVN 1 < ENVN 0 ∧ ENVN 1 < ENVN 2) :
    ChangeTriangleConfiguration1 pi ENVN angle
      = ![angle 0 * ((pi - angle 1) / (angle 0 + angle 2)), angle 1,
          angle 2 * ((pi - angle 1) / (angle 0 + angle 2))] := by
  unfold ChangeTriangleConfiguration1
  rw [if_neg (by omega), if_neg (by omega), if_neg (by omega), if_neg (by omega),
    if_neg (by omega)]
  by_cases h6 : ENVN 0 > ENVN 1 ∧ ENVN 0 ≤ ENVN 2
  · rw [if_pos h6]
  · rw [if_neg h6, if_pos (by omega), if_pos h.2]

theorem CTC1_lead2 (pi : K) (ENVN : Fin 3 → Nat) (angle : Fin 3 → K)
    (h : ENVN 2 < ENVN 0 ∧ ENVN 2 < ENVN 1) :
    ChangeTriangleConfiguration1 pi ENVN angle
      = ![angle 0 * ((pi - angle 2) / (angle 1 + angle 0)),
          angle 1 * ((pi - angle 2) / (angle 1 + angle 0)), angle 2] := by
  unfold ChangeTriangleConfiguration1
  rw [if_neg (by omega), if_neg (by omega)]
  by_cases h3 : ENVN 0 ≤ ENVN 1 ∧ ENVN 0 > ENVN 2
  · rw [if_pos h3]
  · rw [if_neg h3, if_neg (by omega), if_neg (by omega), if_neg (by omega), if_pos (by omega),
      if_neg (by omega), if_neg (by omega), if_pos (by omega), add_comm (angle 0) (angle 1)]

theorem CTC1_tie02 (pi : K) (ENVN : Fin 3 → Nat) (angle : Fin 3 → K)
    (h : ENVN 0 = ENVN 2 ∧ ENVN 0 < ENVN 1) :
    ChangeTriangleConfiguration1 pi ENVN angle = ![angle 0, pi - 2 * angle 0, angle 2] := by
  unfold ChangeTriangleConfiguration1
  rw [if_neg (by omega), if_pos (by omega)]

theorem CTC1_tie01 (pi : K) (ENVN : Fin 3 → Nat) (angle : Fin 3 → K)
    (h : ENVN 0 = ENVN 1 ∧ ENVN 0 < ENVN 2) :
    ChangeTriangleConfiguration1 pi ENVN angle = ![angle 0, angle 1, pi - 2 * angle 0] := by
  unfold ChangeTriangleConfiguration1
  rw [if_neg (by omega), if_neg (by omega), if_neg (by omega), if_pos (by omega)]

theorem CTC1_tie12 (pi : K) (ENVN : Fin 3 → Nat) (angle : Fin 3 → K)
    (h : ENVN 1 = ENVN 2 ∧ ENVN 1 < ENVN 0) :
    ChangeTriangleConfiguration1 pi ENVN angle = ![pi - 2 * angle 1, angle 1, angle 2] := by
  unfold ChangeTriangleConfiguration1
  rw [if_neg (by omega), if_neg (by omega), if_neg (by omega), if_neg (by omega),
    if_neg (by omega), if_neg (by omega), if_pos (by omega), if_neg (by omega),
    if_pos (by omega)]

theorem CTC1_equal (pi : K) (ENVN : Fin 3 → Nat) (angle : Fin 3 → K)
    (h : ENVN 0 = ENVN 1 ∧ ENVN 0 = ENVN 2) :
    ChangeTriangleConfiguration1 pi ENVN angle = ![pi / 3, pi / 3, pi / 3] := by
  unfold ChangeTriangleConfiguration1
  rw [if_neg (by omega), if_neg (by omega), if_neg (by omega), if_neg (by omega),
    if_pos (by omega)]

theorem leadingType_lead0 (ENVN : Fin 3 → Nat) (h : ENVN 0 < ENVN 1 ∧ ENVN 0 < ENVN 2) :
    leadingType ENVN = 0 := by
  unfold leadingType
  rw [if_pos h.1, if_pos h.2]

theorem leadingType_lead1 (ENVN : Fin 3 → Nat) (h : ENVN 1 < ENVN 0 ∧ ENVN 1 < ENVN 2) :
    leadingType ENVN = 1 := by
  unfold leadingType
  rw [if_neg (by omega), if_pos h.1, if_pos h.2]

theorem leadingType_lead2 (ENVN : Fin 3 → Nat) (h : ENVN 2 < ENVN 0 ∧ ENVN 2 < ENVN 1) :
    leadingType ENVN = 2 := by
  unfold leadingType
  split_ifs <;> first | rfl | omega

theorem leadingType_tie (ENVN : Fin 3 → Nat)
    (h : (ENVN 0 = ENVN 2 ∧ ENVN 0 < ENVN 1) ∨ (ENVN 0 = ENVN 1 ∧ ENVN 0 < ENVN 2) ∨
      (ENVN 1 = ENVN 2 ∧ ENVN 1 < ENVN 0) ∨ (ENVN 0 = ENVN 1 ∧ ENVN 0 = ENVN 2)) :
    leadingType ENVN = 3 := by
  unfold leadingType
  split_ifs <;> first | rfl | omega

theorem CTC2_lead0 (pi : K) (ENVN : Fin 3 → Nat) (angle : Fin 3 → K)
    (h : ENVN 0 < ENVN 1 ∧ ENVN 0 < ENVN 2) :
    ChangeTriangleConfiguration2 pi ENVN angle
      = ![angle 0, angle 1 * ((pi - angle 0) / (angle 1 + angle 2)),
          angle 2 * ((pi - angle 0) / (angle 1 + angle 2))] := by
  unfold ChangeTriangleConfiguration2
  rw [leadingType_lead0 ENVN h, if_pos rfl]

theorem CTC2_lead1 (pi : K) (ENVN : Fin 3 → Nat) (angle : Fin 3 → K)
    (h : ENVN 1 < ENVN 0 ∧ ENVN 1 < ENVN 2) :
    ChangeTriangleConfiguration2 pi ENVN angle
      = ![angle 0 * ((pi - angle 1) / (angle 0 + angle 2)), angle 1,
          angle 2 * ((pi - angle 1) / (angle 0 + angle 2))] := by
  unfold ChangeTriangleConfiguration2
  rw [leadingType_lead1 ENVN h, if_neg (by decide), if_pos rfl]

theorem CTC2_lead2 (pi : K) (ENVN : Fin 3 → Nat) (angle : Fin 3 → K)
    (h : ENVN 2 < ENVN 0 ∧ ENVN 2 < ENVN 1) :
    ChangeTriangleConfiguration2 pi ENVN angle
      = ![angle 0 * ((pi - angle 2) / (angle 1 + angle 0)),
          angle 1 * ((pi - angle 2) / (angle 1 + angle 0)), angle 2] := by
  unfold ChangeTriangleConfiguration2
  rw [leadingType_lead2 ENVN h, if_neg (by decide), if_neg (by decide), if_pos rfl]

theorem CTC2_tie (pi : K) (ENVN : Fin 3 → Nat) (angle : Fin 3 → K)
    (h : (ENVN 0 = ENVN 2 ∧ ENVN 0 < ENVN 1) ∨ (ENVN 0 = ENVN 1 ∧ ENVN 0 < ENVN 2) ∨
      (ENVN 1 = ENVN 2 ∧ ENVN 1 < ENVN 0) ∨ (ENVN 0 = ENVN 1 ∧ ENVN 0 = ENVN 2)) :
    ChangeTriangleConfiguration2 pi ENVN angle
      = ![angle 0 * (pi / (angle 0 + angle 1 + angle 2)),
          angle 1 * (pi / (angle 0 + angle 1 + angle 2)),
          angle 2 * (pi / (angle 0 + angle 1 + angle 2))] := by
  unfold ChangeTriangleConfiguration2
  rw [leadingType_tie ENVN h, if_neg (by decide), if_neg (by decide), if_neg (by decide)]

/-- Rescaling two angles to fill what the third leaves gives the sum `pi`. -/
theorem rescaled_sum (pi a b c : K) (h : b + c ≠ 0) :
    a + b * ((pi - a) / (b + c)) + c * ((pi - a) / (b + c)) = pi := by
  field_simp
  ring

theorem initialAngle_pos (ENVN : Fin 3 → Nat) (h1 : ∀ j, 1 ≤ ENVN j) (j : Fin 3) :
    0 < initialAngle Real.pi ENVN j := by
  unfold initialAngle
  have : (0 : ℝ) < (ENVN j : ℝ) := by exact_mod_cast h1 j
  have := Real.pi_pos
  positivity

theorem initialAngle_congr (ENVN : Fin 3 → Nat) (i j : Fin 3) (h : ENVN i = ENVN j) :
    initialAngle Real.pi ENVN i = initialAngle Real.pi ENVN j := by
  unfold initialAngle
  rw [h]

theorem initialAngle_lt_pi (ENVN : Fin 3 → Nat) (j : Fin 3) (h3 : 3 ≤ ENVN j) :
    initialAngle Real.pi ENVN j < Real.pi := by
  unfold initialAngle
  have hE : (3 : ℝ) ≤ (ENVN j : ℝ) := by exact_mod_cast h3
  have hpi := Real.pi_pos
  rw [div_lt_iff₀ (by linarith)]
  nlinarith

/-- The angle `pi - 2 * (2 pi / E)` given to the third vertex when two vertices of valence
`E` tie is positive exactly from valence `5` on. -/
theorem tie_angle_pos_iff (ENVN : Fin 3 → Nat) (j : Fin 3) (h1 : 1 ≤ ENVN j) :
    0 < Real.pi - 2 * initialAngle Real.pi ENVN j ↔ 5 ≤ ENVN j := by
  unfold initialAngle
  have hE : (0 : ℝ) < (ENVN j : ℝ) := by exact_mod_cast h1
  have hpi := Real.pi_pos
  have e : Real.pi - 2 * (2 * Real.pi / (ENVN j : ℝ))
      = Real.pi * ((ENVN j : ℝ) - 4) / (ENVN j : ℝ) := by
    field_simp
    ring
  rw [e]
  constructor
  · intro h
    have h' : 0 < Real.pi * ((ENVN j : ℝ) - 4) := by
      by_contra hc
      exact absurd h (not_lt.mpr (div_nonpos_of_nonpos_of_nonneg (not_lt.mp hc) hE.le))
    have h4 : (4 : ℝ) < (ENVN j : ℝ) := by
      by_contra hc
      have : Real.pi * ((ENVN j : ℝ) - 4) ≤ 0 :=
        mul_nonpos_of_nonneg_of_nonpos hpi.le (by linarith [not_lt.mp hc])
      linarith
    have : 4 < ENVN j := by exact_mod_cast h4
    omega
  · intro h
    have h5 : (5 : ℝ) ≤ (ENVN j : ℝ) := by exact_mod_cast h
    exact div_pos (mul_pos hpi (by linarith)) hE

/-- C23. `ChangeTriangleConfiguration2` always returns the angle sum of a Euclidean
triangle: over the reals, for every valence triple `ENVN` and every input angle triple with
strictly positive entries, the three output angles sum to exactly `pi`, and the angle at a
vertex of strictly smallest valence (when one exists) is left unchanged. -/
theorem ChangeTriangleConfiguration2_sum (ENVN : Fin 3 → Nat) (angle : Fin 3 → ℝ)
    (h : ∀ j, 0 < angle j) :
    ∑ j : Fin 3, ChangeTriangleConfiguration2 Real.pi ENVN angle j = Real.pi ∧
      ∀ j : Fin 3, (∀ k, k ≠ j → ENVN j < ENVN k) →
        ChangeTriangleConfiguration2 Real.pi ENVN angle j = angle j := by
  have h0 := h 0
  have h1 := h 1
  have h2 := h 2
  constructor
  · rw [Fin.sum_univ_three]
    rcases valence_cases ENVN with c | c | c | c | c | c | c
    · rw [CTC2_lead0 _ _ _ c]
      simpa using rescaled_sum Real.pi (angle 0) (angle 1) (angle 2) (by positivity)
    · rw [CTC2_lead1 _ _ _ c]
      have := rescaled_sum Real.pi (angle 1) (angle 0) (angle 2) (by positivity)
      simp only [Matrix.cons_val_zero, Matrix.cons_val_one, Matrix.head_cons,
        Matrix.cons_val_two, Matrix.tail_cons]
      linarith
    · rw [CTC2_lead2 _ _ _ c]
      have := rescaled_sum Real.pi (angle 2) (angle 1) (angle 0) (by positivity)
      simp only [Matrix.cons_val_zero, Matrix.cons_val_one, Matrix.head_cons,
        Matrix.cons_val_two, Matrix.tail_cons]
      linarith
    all_goals
      rw [CTC2_tie _ _ _ (by omega)]
      simp only [Matrix.cons_val_zero, Matrix.cons_val_one, Matrix.head_cons,
        Matrix.cons_val_two, Matrix.tail_cons]
      have hs : angle 0 + angle 1 + angle 2 ≠ 0 := by positivity
      field_simp
      ring
  · intro j hj
    fin_cases j
    · have a := hj 1 (by decide)
      have b := hj 2 (by decide)
      rw [CTC2_lead0 _ _ _ ⟨a, b⟩]
      rfl
    · have a := hj 0 (by decide)
      have b := hj 2 (by decide)
      rw [CTC2_lead1 _ _ _ ⟨a, b⟩]
      rfl
    · have a := hj 0 (by decide)
      have b := hj 1 (by decide)
      rw [CTC2_lead2 _ _ _ ⟨a, b⟩]
      rfl

/-- C23 at `ENVN = (5, 6, 7)` and the angles `(1, 1/2, 2)`. -/
theorem ChangeTriangleConfiguration2_sum_witness :
    ∑ j : Fin 3, ChangeTriangleConfiguration2 Real.pi ![5, 6, 7] ![1, 1 / 2, 2] j = Real.pi ∧
      ∀ j : Fin 3, (∀ k, k ≠ j → (![5, 6, 7] : Fin 3 → Nat) j < (![5, 6, 7] : Fin 3 → Nat) k) →
        ChangeTriangleConfiguration2 Real.pi ![5, 6, 7] ![1, 1 / 2, 2] j
          = (![1, 1 / 2, 2] : Fin 3 → ℝ) j :=
  ChangeTriangleConfiguration2_sum ![5, 6, 7] ![1, 1 / 2, 2]
    (fun j => by fin_cases j <;> norm_num)

/-- C24. `ChangeTriangleConfiguration1` covers every case and preserves the angle sum: over
the reals, for every valence triple `ENVN` with entries `>= 1` and input angles
`angle[j] = 2*pi/ENVN[j]`, exactly one branch applies and the three output angles sum to
exactly `pi`. -/
theorem ChangeTriangleConfiguration1_sum (ENVN : Fin 3 → Nat) (h1 : ∀ j, 1 ≤ ENVN j) :
    (branchConditions1 ENVN).count true = 1 ∧
      ∑ j : Fin 3, ChangeTriangleConfiguration1 Real.pi ENVN (initialAngle Real.pi ENVN) j
        = Real.pi := by
  constructor
  · unfold branchConditions1
    generalize ENVN 0 = a
    generalize ENVN 1 = b
    generalize ENVN 2 = c
    simp only [List.count_cons, List.count_nil, beq_iff_eq, decide_eq_true_eq]
    split_ifs <;> omega
  · have p0 := initialAngle_pos ENVN h1 0
    have p1 := initialAngle_pos ENVN h1 1
    have p2 := initialAngle_pos ENVN h1 2
    rw [Fin.sum_univ_three]
    rcases valence_cases ENVN with c | c | c | c | c | c | c
    · rw [CTC1_lead0 _ _ _ c]
      simpa using rescaled_sum Real.pi _ _ _ (by positivity : initialAngle Real.pi ENVN 1
        + initialAngle Real.pi ENVN 2 ≠ 0)
    · rw [CTC1_lead1 _ _ _ c]
      have := rescaled_sum Real.pi (initialAngle Real.pi ENVN 1) (initialAngle Real.pi ENVN 0)
        (initialAngle Real.pi ENVN 2) (by positivity)
      simp only [Matrix.cons_val_zero, Matrix.cons_val_one, Matrix.head_cons,
        Matrix.cons_val_two, Matrix.tail_cons]
      linarith
    · rw [CTC1_lead2 _ _ _ c]
      have := rescaled_sum Real.pi (initialAngle Real.pi ENVN 2) (initialAngle Real.pi ENVN 1)
        (initialAngle Real.pi ENVN 0) (by positivity)
      simp only [Matrix.cons_val_zero, Matrix.cons_val_one, Matrix.head_cons,
        Matrix.cons_val_two, Matrix.tail_cons]
      linarith
    · rw [CTC1_tie02 _ _ _ c]
      simp only [Matrix.cons_val_zero, Matrix.cons_val_one, Matrix.head_cons,
        Matrix.cons_val_two, Matrix.tail_cons]
      rw [initialAngle_congr ENVN 2 0 c.1.symm]
      ring
    · rw [CTC1_tie01 _ _ _ c]
      simp only [Matrix.cons_val_zero, Matrix.cons_val_one, Matrix.head_cons,
        Matrix.cons_val_two, Matrix.tail_cons]
      rw [initialAngle_congr ENVN 1 0 c.1.symm]
      ring
    · rw [CTC1_tie12 _ _ _ c]
      simp only [Matrix.cons_val_zero, Matrix.cons_val_one, Matrix.head_cons,
        Matrix.cons_val_two, Matrix.tail_cons]
      rw [initialAngle_congr ENVN 2 1 c.1.symm]
      ring
    · rw [CTC1_equal _ _ _ c]
      simp only [Matrix.cons_val_zero, Matrix.cons_val_one, Matrix.head_cons,
        Matrix.cons_val_two, Matrix.tail_cons]
      ring

/-- C24 at `ENVN = (6, 5, 6)`. -/
theorem ChangeTriangleConfiguration1_sum_witness :
    (branchConditions1 ![6, 5, 6]).count true = 1 ∧
      ∑ j : Fin 3, ChangeTriangleConfiguration1 Real.pi ![6, 5, 6]
        (initialAngle Real.pi ![6, 5, 6]) j = Real.pi :=
  ChangeTriangleConfiguration1_sum ![6, 5, 6] (fun j => by fin_cases j <;> simp)

/-- Both entries rescaled around a leading angle below `pi` stay positive. -/
theorem rescaled_pos (a b c : ℝ) (ha : a < Real.pi) (hb : 0 < b) (hc : 0 < c) :
    0 < b * ((Real.pi - a) / (b + c)) ∧ 0 < c * ((Real.pi - a) / (b + c)) := by
  have hs : 0 < (Real.pi - a) / (b + c) := div_pos (by linarith) (by linarith)
  exact ⟨mul_pos hb hs, mul_pos hc hs⟩

/-- C25 as stated fails: for the valences `(3, 4, 3)`, all at least `3`, the second output
angle of `ChangeTriangleConfiguration1` is `pi - 2 * (2 pi / 3) = -pi / 3`. -/
theorem ChangeTriangleConfiguration1_negative :
    ChangeTriangleConfiguration1 Real.pi ![3, 4, 3] (initialAngle Real.pi ![3, 4, 3]) 1
        = -(Real.pi / 3) ∧
      ¬ ∀ j : Fin 3,
        0 < ChangeTriangleConfiguration1 Real.pi ![3, 4, 3] (initialAngle Real.pi ![3, 4, 3]) j := by
  have e : ChangeTriangleConfiguration1 Real.pi ![3, 4, 3] (initialAngle Real.pi ![3, 4, 3]) 1
      = -(Real.pi / 3) := by
    rw [CTC1_tie02 _ _ _ (by decide)]
    simp only [Matrix.cons_val_one, Matrix.head_cons, initialAngle, Matrix.cons_val_zero]
    norm_num
    ring
  refine ⟨e, fun h => ?_⟩
  have h1 := h 1
  rw [e] at h1
  linarith [Real.pi_pos]

/-- C25, amended. For every valence triple with all `ENVN[j] >= 3` and input angles
`angle[j] = 2*pi/ENVN[j]`, the three output angles of `ChangeTriangleConfiguration1` are all
strictly positive if and only if, whenever exactly two vertices tie for the smallest
valence, that valence is at least `5`. -/
theorem ChangeTriangleConfiguration1_positive_iff (ENVN : Fin 3 → Nat)
    (h3 : ∀ j, 3 ≤ ENVN j) :
    (∀ j : Fin 3,
        0 < ChangeTriangleConfiguration1 Real.pi ENVN (initialAngle Real.pi ENVN) j) ↔
      ((ENVN 0 = ENVN 2 ∧ ENVN 0 < ENVN 1 → 5 ≤ ENVN 0) ∧
        (ENVN 0 = ENVN 1 ∧ ENVN 0 < ENVN 2 → 5 ≤ ENVN 0) ∧
        (ENVN 1 = ENVN 2 ∧ ENVN 1 < ENVN 0 → 5 ≤ ENVN 1)) := by
  have h1 : ∀ j, 1 ≤ ENVN j := fun j => le_trans (by decide) (h3 j)
  have p0 := initialAngle_pos ENVN h1 0
  have p1 := initialAngle_pos ENVN h1 1
  have p2 := initialAngle_pos ENVN h1 2
  have l0 := initialAngle_lt_pi ENVN 0 (h3 0)
  have l1 := initialAngle_lt_pi ENVN 1 (h3 1)
  have l2 := initialAngle_lt_pi ENVN 2 (h3 2)
  have all3 : ∀ f : Fin 3 → ℝ, (∀ j, 0 < f j) ↔ 0 < f 0 ∧ 0 < f 1 ∧ 0 < f 2 := by
    intro f
    constructor
    · intro h; exact ⟨h 0, h 1, h 2⟩
    · intro h j
      fin_cases j
      · exact h.1
      · exact h.2.1
      · exact h.2.2
  rw [all3]
  rcases valence_cases ENVN with c | c | c | c | c | c | c
  · rw [CTC1_lead0 _ _ _ c]
    have := rescaled_pos _ _ _ l0 p1 p2
    exact ⟨fun _ => ⟨by omega, by omega, by omega⟩, fun _ => ⟨p0, this.1, this.2⟩⟩
  · rw [CTC1_lead1 _ _ _ c]
    have := rescaled_pos _ _ _ l1 p0 p2
    exact ⟨fun _ => ⟨by omega, by omega, by omega⟩, fun _ => ⟨this.1, p1, this.2⟩⟩
  · rw [CTC1_lead2 _ _ _ c]
    have := rescaled_pos _ _ _ l2 p1 p0
    exact ⟨fun _ => ⟨by omega, by omega, by omega⟩, fun _ => ⟨this.2, this.1, p2⟩⟩
  · rw [CTC1_tie02 _ _ _ c]
    have t := tie_angle_pos_iff ENVN 0 (h1 0)
    constructor
    · intro h
      have := t.mp h.2.1
      exact ⟨fun _ => this, fun _ => this, by omega⟩
    · intro h
      exact ⟨p0, t.mpr (h.1 c), p2⟩
  · rw [CTC1_tie01 _ _ _ c]
    have t := tie_angle_pos_iff ENVN 0 (h1 0)
    constructor
    · intro h
      have := t.mp h.2.2
      exact ⟨fun _ => this, fun _ => this, by omega⟩
    · intro h
      exact ⟨p0, p1, t.mpr (h.2.1 c)⟩
  · rw [CTC1_tie12 _ _ _ c]
    have t := tie_angle_pos_iff ENVN 1 (h1 1)
    constructor
    · intro h
      have := t.mp h.1
      exact ⟨by omega, by omega, fun _ => this⟩
    · intro h
      exact ⟨t.mpr (h.2.2 c), p1, p2⟩
  · rw [CTC1_equal _ _ _ c]
    have : 0 < Real.pi / 3 := by positivity
    exact ⟨fun _ => ⟨by omega, by omega, by omega⟩, fun _ => ⟨this, this, this⟩⟩

/-- C25, amended, at `ENVN = (6, 5, 6)`. -/
theorem ChangeTriangleConfiguration1_positive_iff_witness :
    (∀ j : Fin 3,
        0 < ChangeTriangleConfiguration1 Real.pi ![6, 5, 6] (initialAngle Real.pi ![6, 5, 6]) j) ↔
      (((![6, 5, 6] : Fin 3 → Nat) 0 = (![6, 5, 6] : Fin 3 → Nat) 2
          ∧ (![6, 5, 6] : Fin 3 → Nat) 0 < (![6, 5, 6] : Fin 3 → Nat) 1
          → 5 ≤ (![6, 5, 6] : Fin 3 → Nat) 0) ∧
        ((![6, 5, 6] : Fin 3 → Nat) 0 = (![6, 5, 6] : Fin 3 → Nat) 1
          ∧ (![6, 5, 6] : Fin 3 → Nat) 0 < (![6, 5, 6] : Fin 3 → Nat) 2
          → 5 ≤ (![6, 5, 6] : Fin 3 → Nat) 0) ∧
        ((![6, 5, 6] : Fin 3 → Nat) 1 = (![6, 5, 6] : Fin 3 → Nat) 2
          ∧ (![6, 5, 6] : Fin 3 → Nat) 1 < (![6, 5, 6] : Fin 3 → Nat) 0
          → 5 ≤ (![6, 5, 6] : Fin 3 → Nat) 1)) :=
  ChangeTriangleConfiguration1_positive_iff ![6, 5, 6] (fun j => by fin_cases j <;> simp)

/-- C26. The two angle-redistribution heuristics agree when there is a unique leading
vertex: over the reals, for every valence triple `ENVN` (entries `>= 1`) in which one vertex
has strictly smaller valence than both others, and also when all three valences are equal,
`ChangeTriangleConfiguration1` and `ChangeTriangleConfiguration2` return the same three
angles from the input `angle[j] = 2*pi/ENVN[j]`; they can differ only when exactly two
vertices tie for the smallest valence. -/
theorem ChangeTriangleConfiguration_agree (ENVN : Fin 3 → Nat) (h1 : ∀ j, 1 ≤ ENVN j) :
    (((∃ j : Fin 3, ∀ k, k ≠ j → ENVN j < ENVN k) ∨ (ENVN 0 = ENVN 1 ∧ ENVN 0 = ENVN 2)) →
        ChangeTriangleConfiguration1 Real.pi ENVN (initialAngle Real.pi ENVN)
          = ChangeTriangleConfiguration2 Real.pi ENVN (initialAngle Real.pi ENVN)) ∧
      (ChangeTriangleConfiguration1 Real.pi ENVN (initialAngle Real.pi ENVN)
          ≠ ChangeTriangleConfiguration2 Real.pi ENVN (initialAngle Real.pi ENVN) →
        (ENVN 0 = ENVN 2 ∧ ENVN 0 < ENVN 1) ∨ (ENVN 0 = ENVN 1 ∧ ENVN 0 < ENVN 2) ∨
          (ENVN 1 = ENVN 2 ∧ ENVN 1 < ENVN 0)) := by
  have key : (ENVN 0 < ENVN 1 ∧ ENVN 0 < ENVN 2) ∨ (ENVN 1 < ENVN 0 ∧ ENVN 1 < ENVN 2) ∨
      (ENVN 2 < ENVN 0 ∧ ENVN 2 < ENVN 1) ∨ (ENVN 0 = ENVN 1 ∧ ENVN 0 = ENVN 2) →
      ChangeTriangleConfiguration1 Real.pi ENVN (initialAngle Real.pi ENVN)
        = ChangeTriangleConfiguration2 Real.pi ENVN (initialAngle Real.pi ENVN) := by
    rintro (c | c | c | c)
    · rw [CTC1_lead0 _ _ _ c, CTC2_lead0 _ _ _ c]
    · rw [CTC1_lead1 _ _ _ c, CTC2_lead1 _ _ _ c]
    · rw [CTC1_lead2 _ _ _ c, CTC2_lead2 _ _ _ c]
    · rw [CTC1_equal _ _ _ c, CTC2_tie _ _ _ (Or.inr (Or.inr (Or.inr c))),
        initialAngle_congr ENVN 1 0 c.1.symm, initialAngle_congr ENVN 2 0 c.2.symm]
      have p0 := initialAngle_pos ENVN h1 0
      have e : initialAngle Real.pi ENVN 0
          * (Real.pi / (initialAngle Real.pi ENVN 0 + initialAngle Real.pi ENVN 0
            + initialAngle Real.pi ENVN 0)) = Real.pi / 3 := by
        field_simp
        ring
      rw [e]
  constructor
  · rintro (⟨j, hj⟩ | c)
    · apply key
      fin_cases j
      · exact Or.inl ⟨hj 1 (by decide), hj 2 (by decide)⟩
      · exact Or.inr (Or.inl ⟨hj 0 (by decide), hj 2 (by decide)⟩)
      · exact Or.inr (Or.inr (Or.inl ⟨hj 0 (by decide), hj 1 (by decide)⟩))
    · exact key (Or.inr (Or.inr (Or.inr c)))
  · intro hne
    rcases valence_cases ENVN with c | c | c | c | c | c | c
    · exact absurd (key (Or.inl c)) hne
    · exact absurd (key (Or.inr (Or.inl c))) hne
    · exact absurd (key (Or.inr (Or.inr (Or.inl c)))) hne
    · exact Or.inl c
    · exact Or.inr (Or.inl c)
    · exact Or.inr (Or.inr c)
    · exact absurd (key (Or.inr (Or.inr (Or.inr c)))) hne

/-- C26 at `ENVN = (5, 6, 7)`. -/
theorem ChangeTriangleConfiguration_agree_witness :
    (((∃ j : Fin 3, ∀ k, k ≠ j → (![5, 6, 7] : Fin 3 → Nat) j < (![5, 6, 7] : Fin 3 → Nat) k)
          ∨ ((![5, 6, 7] : Fin 3 → Nat) 0 = (![5, 6, 7] : Fin 3 → Nat) 1
            ∧ (![5, 6, 7] : Fin 3 → Nat) 0 = (![5, 6, 7] : Fin 3 → Nat) 2)) →
        ChangeTriangleConfiguration1 Real.pi ![5, 6, 7] (initialAngle Real.pi ![5, 6, 7])
          = ChangeTriangleConfiguration2 Real.pi ![5, 6, 7] (initialAngle Real.pi ![5, 6, 7])) ∧
      (ChangeTriangleConfiguration1 Real.pi ![5, 6, 7] (initialAngle Real.pi ![5, 6, 7])
          ≠ ChangeTriangleConfiguration2 Real.pi ![5, 6, 7] (initialAngle Real.pi ![5, 6, 7]) →
        ((![5, 6, 7] : Fin 3 → Nat) 0 = (![5, 6, 7] : Fin 3 → Nat) 2
            ∧ (![5, 6, 7] : Fin 3 → Nat) 0 < (![5, 6, 7] : Fin 3 → Nat) 1)
          ∨ ((![5, 6, 7] : Fin 3 → Nat) 0 = (![5, 6, 7] : Fin 3 → Nat) 1
            ∧ (![5, 6, 7] : Fin 3 → Nat) 0 < (![5, 6, 7] : Fin 3 → Nat) 2)
          ∨ ((![5, 6, 7] : Fin 3 → Nat) 1 = (![5, 6, 7] : Fin 3 → Nat) 2
            ∧ (![5, 6, 7] : Fin 3 → Nat) 1 < (![5, 6, 7] : Fin 3 → Nat) 0)) :=
  ChangeTriangleConfiguration_agree ![5, 6, 7] (fun j => by fin_cases j <;> simp)

theorem referenceTriangle_apply (sin tan sqrt : K → K) (angle : Fin 3 → K) :
    referenceTriangle sin tan sqrt angle
      = ![![-(1 / 2),
            -(1 / 2) + (1 / 2 - -(1 / 2)) * sqrt ((sqrt 3 / 2) / ((1 / 2 - -(1 / 2))
              * ((1 / 2 - -(1 / 2)) * sin (angle 0) * sin (angle 1) / sin (angle 0 + angle 1)))),
            -(1 / 2) + (1 / 2 - -(1 / 2)) * sin (angle 0) * sin (angle 1)
              / sin (angle 0 + angle 1) * sqrt ((sqrt 3 / 2) / ((1 / 2 - -(1 / 2))
                * ((1 / 2 - -(1 / 2)) * sin (angle 0) * sin (angle 1)
                  / sin (angle 0 + angle 1)))) / tan (angle 0)],
          ![0, 0,
            (1 / 2 - -(1 / 2)) * sin (angle 0) * sin (angle 1) / sin (angle 0 + angle 1)
              * sqrt ((sqrt 3 / 2) / ((1 / 2 - -(1 / 2))
                * ((1 / 2 - -(1 / 2)) * sin (angle 0) * sin (angle 1)
                  / sin (angle 0 + angle 1))))]] :=
  rfl

/-- C27. Reference-triangle construction in `AssembleO2ConformalMinimization`: over the
reals, for all angles `a0 = angle[0]`, `a1 = angle[1]` in `(0, pi)` with `a0 + a1 < pi` and
`a0, a1 != pi/2`, the triangle with vertices `(xT[0][0], 0)`, `(xT[0][1], 0)`,
`(xT[0][2], xT[1][2])` has base and height positive with area exactly `sqrt(3)/4`, and
interior angles `a0` at vertex 0 and `a1` at vertex 1:
`(xT[0][2]-xT[0][0])*tan(a0) = xT[1][2] = (xT[0][1]-xT[0][2])*tan(a1)` and
`(xT[0][1]-xT[0][0])*xT[1][2] = sqrt(3)/2`. -/
theorem referenceTriangle_area_angles (angle : Fin 3 → ℝ)
    (h0 : 0 < angle 0) (h0' : angle 0 < Real.pi) (h1 : 0 < angle 1) (h1' : angle 1 < Real.pi)
    (hsum : angle 0 + angle 1 < Real.pi)
    (hr0 : angle 0 ≠ Real.pi / 2) (hr1 : angle 1 ≠ Real.pi / 2) :
    (referenceTriangle Real.sin Real.tan Real.sqrt angle 0 2
          - referenceTriangle Real.sin Real.tan Real.sqrt angle 0 0) * Real.tan (angle 0)
        = referenceTriangle Real.sin Real.tan Real.sqrt angle 1 2 ∧
      referenceTriangle Real.sin Real.tan Real.sqrt angle 1 2
        = (referenceTriangle Real.sin Real.tan Real.sqrt angle 0 1
            - referenceTriangle Real.sin Real.tan Real.sqrt angle 0 2) * Real.tan (angle 1) ∧
      (referenceTriangle Real.sin Real.tan Real.sqrt angle 0 1
          - referenceTriangle Real.sin Real.tan Real.sqrt angle 0 0)
        * referenceTriangle Real.sin Real.tan Real.sqrt angle 1 2 = Real.sqrt 3 / 2 ∧
      (referenceTriangle Real.sin Real.tan Real.sqrt angle 0 1
          - referenceTriangle Real.sin Real.tan Real.sqrt angle 0 0)
        * referenceTriangle Real.sin Real.tan Real.sqrt angle 1 2 / 2 = Real.sqrt 3 / 4 ∧
      0 < referenceTriangle Real.sin Real.tan Real.sqrt angle 0 1
          - referenceTriangle Real.sin Real.tan Real.sqrt angle 0 0 ∧
      0 < referenceTriangle Real.sin Real.tan Real.sqrt angle 1 2 := by
  have s0 : 0 < Real.sin (angle 0) := Real.sin_pos_of_pos_of_lt_pi h0 h0'
  have s1 : 0 < Real.sin (angle 1) := Real.sin_pos_of_pos_of_lt_pi h1 h1'
  have sS : 0 < Real.sin (angle 0 + angle 1) :=
    Real.sin_pos_of_pos_of_lt_pi (by linarith) hsum
  have c0 : Real.cos (angle 0) ≠ 0 := by
    intro hc
    rcases lt_or_gt_of_ne hr0 with h | h
    · exact absurd hc (Real.cos_pos_of_mem_Ioo ⟨by linarith, h⟩).ne'
    · exact absurd hc (Real.cos_neg_of_pi_div_two_lt_of_lt h (by linarith)).ne
  have c1 : Real.cos (angle 1) ≠ 0 := by
    intro hc
    rcases lt_or_gt_of_ne hr1 with h | h
    · exact absurd hc (Real.cos_pos_of_mem_Ioo ⟨by linarith, h⟩).ne'
    · exact absurd hc (Real.cos_neg_of_pi_div_two_lt_of_lt h (by linarith)).ne
  have hS : Real.sin (angle 0 + angle 1)
      = Real.sin (angle 0) * Real.cos (angle 1) + Real.cos (angle 0) * Real.sin (angle 1) :=
    Real.sin_add _ _
  have hl : (1 / 2 - -(1 / 2) : ℝ) = 1 := by norm_num
  have hd : 0 < Real.sin (angle 0) * Real.sin (angle 1) / Real.sin (angle 0 + angle 1) :=
    div_pos (mul_pos s0 s1) sS
  have h3 : 0 < Real.sqrt 3 := Real.sqrt_pos.mpr (by norm_num)
  have hq : 0 < Real.sqrt 3 / 2
      / (Real.sin (angle 0) * Real.sin (angle 1) / Real.sin (angle 0 + angle 1)) :=
    div_pos (by linarith) hd
  have hsc : 0 < Real.sqrt (Real.sqrt 3 / 2
      / (Real.sin (angle 0) * Real.sin (angle 1) / Real.sin (angle 0 + angle 1))) :=
    Real.sqrt_pos.mpr hq
  have hsq := Real.mul_self_sqrt hq.le
  rw [referenceTriangle_apply]
  simp only [Matrix.cons_val_zero, Matrix.cons_val_one, Matrix.head_cons, Matrix.cons_val_two,
    Matrix.tail_cons, hl, one_mul]
  set sc := Real.sqrt (Real.sqrt 3 / 2
      / (Real.sin (angle 0) * Real.sin (angle 1) / Real.sin (angle 0 + angle 1))) with hsc_def
  have hprod : sc * (Real.sin (angle 0) * Real.sin (angle 1) / Real.sin (angle 0 + angle 1) * sc)
      = Real.sqrt 3 / 2 := by
    have : sc * (Real.sin (angle 0) * Real.sin (angle 1) / Real.sin (angle 0 + angle 1) * sc)
        = Real.sin (angle 0) * Real.sin (angle 1) / Real.sin (angle 0 + angle 1) * (sc * sc) := by
      ring
    rw [this, hsq]
    field_simp
    ring
  refine ⟨?_, ?_, ?_, ?_, ?_, ?_⟩
  · rw [Real.tan_eq_sin_div_cos]
    field_simp
    ring
  · rw [Real.tan_eq_sin_div_cos, Real.tan_eq_sin_div_cos, hS]
    have hS' : Real.sin (angle 0) * Real.cos (angle 1) + Real.cos (angle 0) * Real.sin (angle 1)
        ≠ 0 := by rw [← hS]; exact sS.ne'
    field_simp
    ring
  · have : -(1 / 2) + sc - -(1 / 2) = sc := by ring
    rw [this, hprod]
  · have : -(1 / 2) + sc - -(1 / 2) = sc := by ring
    rw [this, hprod]
    ring
  · have : -(1 / 2) + sc - -(1 / 2) = sc := by ring
    rw [this]
    exact hsc
  · exact mul_pos hd hsc

/-- C27 at the equilateral angles `angle = (pi/3, pi/3, pi/3)`. -/
theorem referenceTriangle_area_angles_witness :
    (referenceTriangle Real.sin Real.tan Real.sqrt (fun _ => Real.pi / 3) 0 2
          - referenceTriangle Real.sin Real.tan Real.sqrt (fun _ => Real.pi / 3) 0 0)
          * Real.tan (Real.pi / 3)
        = referenceTriangle Real.sin Real.tan Real.sqrt (fun _ => Real.pi / 3) 1 2 ∧
      referenceTriangle Real.sin Real.tan Real.sqrt (fun _ => Real.pi / 3) 1 2
        = (referenceTriangle Real.sin Real.tan Real.sqrt (fun _ => Real.pi / 3) 0 1
            - referenceTriangle Real.sin Real.tan Real.sqrt (fun _ => Real.pi / 3) 0 2)
          * Real.tan (Real.pi / 3) ∧
      (referenceTriangle Real.sin Real.tan Real.sqrt (fun _ => Real.pi / 3) 0 1
          - referenceTriangle Real.sin Real.tan Real.sqrt (fun _ => Real.pi / 3) 0 0)
        * referenceTriangle Real.sin Real.tan Real.sqrt (fun _ => Real.pi / 3) 1 2
        = Real.sqrt 3 / 2 ∧
      (referenceTriangle Real.sin Real.tan Real.sqrt (fun _ => Real.pi / 3) 0 1
          - referenceTriangle Real.sin Real.tan Real.sqrt (fun _ => Real.pi / 3) 0 0)
        * referenceTriangle Real.sin Real.tan Real.sqrt (fun _ => Real.pi / 3) 1 2 / 2
        = Real.sqrt 3 / 4 ∧
      0 < referenceTriangle Real.sin Real.tan Real.sqrt (fun _ => Real.pi / 3) 0 1
          - referenceTriangle Real.sin Real.tan Real.sqrt (fun _ => Real.pi / 3) 0 0 ∧
      0 < referenceTriangle Real.sin Real.tan Real.sqrt (fun _ => Real.pi / 3) 1 2 :=
  referenceTriangle_area_angles (fun _ => Real.pi / 3)
    (by have := Real.pi_pos; positivity) (by linarith [Real.pi_pos])
    (by have := Real.pi_pos; positivity) (by linarith [Real.pi_pos])
    (by linarith [Real.pi_pos]) (by linarith [Real.pi_pos]) (by linarith [Real.pi_pos])

end TriangleConfigurationProofs

section SurfaceDiagnosticProofs

variable {K : Type} [Field K]

theorem surfaceGaussPoint_apply (sqrt : K → K) (e : SurfaceElement K) (s : K)
    (gp : GaussPoint K) :
    surfaceGaussPoint sqrt e s gp
      = s + 3 * Area sqrt gp.weight (solxMid_uv e.nxDofs gp.phix_uv e.solx e.solxOld) := by
  have h : surfaceGaussPoint sqrt e s gp
      = s + Area sqrt gp.weight (solxMid_uv e.nxDofs gp.phix_uv e.solx e.solxOld)
          + Area sqrt gp.weight (solxMid_uv e.nxDofs gp.phix_uv e.solx e.solxOld)
          + Area sqrt gp.weight (solxMid_uv e.nxDofs gp.phix_uv e.solx e.solxOld) := rfl
  rw [h]
  ring

/-- The accumulator holds three times the surface area: every Gauss point adds `Area` once
for each `K < DIM`. -/
theorem surface_eq_three_mul (sqrt : K → K) (elements : List (SurfaceElement K)) :
    surface sqrt elements = 3 * surfaceArea sqrt elements := by
  have inner : ∀ (e : SurfaceElement K) (L : List (GaussPoint K)) (s : K),
      L.foldl (surfaceGaussPoint sqrt e) s
        = s + 3 * (L.map fun gp =>
            Area sqrt gp.weight (solxMid_uv e.nxDofs gp.phix_uv e.solx e.solxOld)).sum := by
    intro e L
    induction L with
    | nil => intro s; simp
    | cons gp L ih =>
      intro s
      rw [List.foldl_cons, ih, surfaceGaussPoint_apply, List.map_cons, List.sum_cons]
      ring
  have outer : ∀ (L : List (SurfaceElement K)) (s : K),
      L.foldl (fun s e => e.gauss.foldl (surfaceGaussPoint sqrt e) s) s
        = s + 3 * surfaceArea sqrt L := by
    intro L
    induction L with
    | nil => intro s; simp [surfaceArea]
    | cons e L ih =>
      intro s
      rw [List.foldl_cons, ih, inner]
      unfold surfaceArea
      rw [List.map_cons, List.sum_cons]
      ring
  unfold surface
  rw [outer, zero_add]

/-- C21, the source on one flat triangle.  Nodes `(0,0,0)`, `(1,0,0)`, `(0,1,0)` at both
times and the centroid rule of weight `1/2`: the area element sums to `1/2`, the area of the
triangle, while the accumulator `surface` ends at `3/2`. -/
theorem surface_sample :
    surface Real.sqrt [sampleSurfaceElement ℝ] = 3 / 2 ∧
      surfaceArea Real.sqrt [sampleSurfaceElement ℝ] = 1 / 2 := by
  have h : surfaceArea Real.sqrt [sampleSurfaceElement ℝ] = 1 / 2 := by
    simp only [surfaceArea, sampleSurfaceElement, List.map_cons, List.map_nil, List.sum_cons,
      List.sum_nil, Area, detg_sampleNodes]
    norm_num [sampleGauss]
  refine ⟨?_, h⟩
  rw [surface_eq_three_mul, h]
  norm_num

end SurfaceDiagnosticProofs

section PWillmoreProofs

variable {K : Type} [LinearOrderedField K]

theorem solMidg_apply (n : Nat) (phi : Nat → K) (solOld sol : Fin 3 → Nat → K) (k : Fin 3) :
    solMidg n phi solOld sol k
      = ∑ i in Finset.range n, phi i * (1 / 2) * (solOld k i + sol k i) := by
  have e := ex7.foldl_range_add n
    (fun (s : K) i => s + phi i * (1 / 2) * (solOld k i + sol k i))
    (fun i => phi i * (1 / 2) * (solOld k i + sol k i)) (fun _ _ _ => rfl) 0
  rw [zero_add] at e
  exact e

/-- At equal new and old nodal values the midpoint value is the new value. -/
theorem solMidg_fixed (n : Nat) (phi : Nat → K) (solOld sol : Fin 3 → Nat → K)
    (h : ∀ k i, i < n → sol k i = solOld k i) :
    solMidg n phi solOld sol = solxNewg n phi sol := by
  funext k
  rw [solMidg_apply, solxNewg_apply]
  refine Finset.sum_congr rfl fun i hi => ?_
  rw [h k i (Finset.mem_range.mp hi)]
  ring

theorem solxNewg_fixed (n : Nat) (phi : Nat → K) (solOld sol : Fin 3 → Nat → K)
    (h : ∀ k i, i < n → sol k i = solOld k i) :
    solxNewg n phi solOld = solxNewg n phi sol := by
  funext k
  exact (solxNewg_congr n phi sol solOld h k).symm

/-- At equal new and old nodal values the midpoint derivative is the new derivative. -/
theorem solxMid_uv_fixed (n : Nat) (phi_uv : Fin 2 → Nat → K) (sol solOld : Fin 3 → Nat → K)
    (h : ∀ k i, i < n → sol k i = solOld k i) :
    solxMid_uv n phi_uv sol solOld = solxNew_uv n phi_uv sol := by
  funext k j
  rw [solxMid_uv_apply, solxNew_uv_apply]
  refine Finset.sum_congr rfl fun i hi => ?_
  rw [h k i (Finset.mem_range.mp hi)]
  ring

theorem aResx_fixed (D : WillmoreData K) (e : WillmoreElement K) (gp : WillmoreGauss K)
    (hY : ∀ k i, i < e.nYDofs → e.solY k i = e.solYOld k i) :
    aResx_PWillmore D e gp = aResx_PWillmore2 D e gp := by
  funext k i
  unfold aResx_PWillmore aResx_PWillmore2
  rw [solMidg_fixed e.nYDofs gp.phiY e.solYOld e.solY hY]

theorem aResY_fixed (D : WillmoreData K) (e : WillmoreElement K) (gp : WillmoreGauss K)
    (hY : ∀ k i, i < e.nYDofs → e.solY k i = e.solYOld k i)
    (hW : ∀ k i, i < e.nWDofs → e.solW k i = e.solWOld k i) :
    aResY_PWillmore D e gp = aResY_PWillmore2 D e gp := by
  funext k i
  unfold aResY_PWillmore aResY_PWillmore2
  rw [solMidg_fixed e.nYDofs gp.phiY e.solYOld e.solY hY,
    solMidg_fixed e.nWDofs gp.phiW e.solWOld e.solW hW,
    solxNewg_fixed e.nYDofs gp.phiY e.solYOld e.solY hY]

theorem aResW_fixed (D : WillmoreData K) (e : WillmoreElement K) (gp : WillmoreGauss K)
    (hx : ∀ k i, i < e.nxDofs → e.solx k i = e.solxOld k i)
    (hY : ∀ k i, i < e.nYDofs → e.solY k i = e.solYOld k i)
    (hW : ∀ k i, i < e.nWDofs → e.solW k i = e.solWOld k i) :
    aResW_PWillmore D e gp = aResW_PWillmore2 D e gp := by
  funext k i
  unfold aResW_PWillmore aResW_PWillmore2 solx_Xtan
  rw [solMidg_fixed e.nYDofs gp.phiY e.solYOld e.solY hY,
    solxNewg_fixed e.nYDofs gp.phiY e.solYOld e.solY hY,
    solxMid_uv_fixed e.nWDofs gp.phiW_uv e.solW e.solWOld hW,
    solxMid_uv_fixed e.nxDofs gp.phix_uv e.solx e.solxOld hx]

omit [LinearOrderedField K] in
theorem writeRange_apply (c n : Nat) (v : Nat → K) (R : Nat → K) (idx : Nat) :
    writeRange c n v R idx = if c ≤ idx ∧ idx < c + n then v (idx - c) else R idx := by
  unfold writeRange
  induction n with
  | zero =>
    rw [List.range_zero, List.foldl_nil, if_neg (by omega)]
  | succ n ih =>
    rw [List.range_succ, List.foldl_append, List.foldl_cons, List.foldl_nil,
      Function.update_apply]
    by_cases h : idx = c + n
    · rw [if_pos h, if_pos (by omega)]
      congr 1
      omega
    · rw [if_neg h, ih]
      exact if_congr (by omega) rfl rfl

omit [LinearOrderedField K] in
/-- A copy loop makes two vectors that agree below `c` agree below `c + n`. -/
theorem writeRange_agree (c n : Nat) (v : Nat → K) (R R' : Nat → K)
    (h : ∀ idx, idx < c → R idx = R' idx) :
    ∀ idx, idx < c + n → writeRange c n v R idx = writeRange c n v R' idx := by
  intro idx hidx
  rw [writeRange_apply, writeRange_apply]
  by_cases hc : c ≤ idx ∧ idx < c + n
  · rw [if_pos hc, if_pos hc]
  · rw [if_neg hc, if_neg hc]
    exact h idx (by omega)

theorem writeBlock_agree (base n : Nat) (aRes : Fin 3 → Nat → K) (R R' : Nat → K)
    (h : ∀ idx, idx < base → R idx = R' idx) :
    ∀ idx, idx < base + 3 * n →
      writeBlock base n aRes R idx = writeBlock base n aRes R' idx := by
  have e : ∀ R0 : Nat → K, writeBlock base n aRes R0
      = writeRange (base + 2 * n) n (fun i => -(aRes 2 i))
          (writeRange (base + 1 * n) n (fun i => -(aRes 1 i))
            (writeRange (base + 0 * n) n (fun i => -(aRes 0 i)) R0)) := fun _ => rfl
  intro idx hidx
  rw [e, e]
  have h1 := writeRange_agree (base + 0 * n) n (fun i => -(aRes 0 i)) R R'
    (fun j hj => h j (by omega))
  have h2 := writeRange_agree (base + 1 * n) n (fun i => -(aRes 1 i)) _ _
    (fun j hj => h1 j (by omega))
  exact writeRange_agree (base + 2 * n) n (fun i => -(aRes 2 i)) _ _
    (fun j hj => h2 j (by omega)) idx (by omega)

/-- Every entry of `Res` below `sizeAll` is rewritten: what the vector held before does
not matter. -/
theorem localRes_agree (e : WillmoreElement K) (vc ac : Bool)
    (aResx aResY aResW : Fin 3 → Nat → K) (l1 l2 : K) (Res0 Res0' : Nat → K) :
    ∀ idx, idx < sizeAll e.nxDofs e.nYDofs e.nWDofs vc ac →
      localRes e vc ac aResx aResY aResW l1 l2 Res0 idx
        = localRes e vc ac aResx aResY aResW l1 l2 Res0' idx := by
  have h1 := writeBlock_agree 0 e.nxDofs aResx Res0 Res0' (fun j hj => absurd hj (by omega))
  have h2 := writeBlock_agree (3 * e.nxDofs) e.nYDofs aResY _ _ (fun j hj => h1 j (by omega))
  have h3 := writeBlock_agree (3 * (e.nxDofs + e.nYDofs)) e.nWDofs aResW _ _
    (fun j hj => h2 j (by omega))
  intro idx hidx
  unfold localRes
  cases vc <;> cases ac <;>
    simp only [sizeAll, Bool.toNat_true, Bool.toNat_false, Nat.add_zero, if_true,
      Bool.false_eq_true, if_false, Function.update_apply] at hidx ⊢
  · exact h3 idx (by omega)
  · split_ifs
    · rfl
    · exact h3 idx (by omega)
  · split_ifs
    · rfl
    · exact h3 idx (by omega)
  · split_ifs
    · rfl
    · rfl
    · exact h3 idx (by omega)

/-- C28. The two P-Willmore variants coincide at a fixed point: for every element with
`nYDofs = nWDofs`, every time step `dt` and every pair of multiplier values, if the new and
old nodal values are equal for all of `x`, `Y` and `W`, then `AssemblePWillmore` and
`AssemblePWillmore2` produce the same local residual vector `Res` (position, curvature,
flux and both multiplier rows, all `sizeAll` entries, whatever `Res` held before), read over
exact arithmetic with `detg != 0`. -/
theorem PWillmore_fixed_point (D : WillmoreData K) (e : WillmoreElement K)
    (gauss : List (WillmoreGauss K)) (_hn : e.nYDofs = e.nWDofs)
    (hx : ∀ k i, i < e.nxDofs → e.solx k i = e.solxOld k i)
    (hY : ∀ k i, i < e.nYDofs → e.solY k i = e.solYOld k i)
    (hW : ∀ k i, i < e.nWDofs → e.solW k i = e.solWOld k i)
    (_hdet : ∀ gp ∈ gauss, detg (solxMid_uv e.nxDofs gp.phix_uv e.solx e.solxOld) ≠ 0)
    (Res0 Res0' : Nat → K) :
    ∀ idx, idx < sizeAll e.nxDofs e.nYDofs e.nWDofs D.volumeConstraint D.areaConstraint →
      AssemblePWillmore_Res D e gauss Res0 idx = AssemblePWillmore2_Res D e gauss Res0' idx := by
  intro idx hidx
  have hxe : aResx_PWillmore D e = aResx_PWillmore2 D e :=
    funext fun gp => aResx_fixed D e gp hY
  have hYe : aResY_PWillmore D e = aResY_PWillmore2 D e :=
    funext fun gp => aResY_fixed D e gp hY hW
  have hWe : aResW_PWillmore D e = aResW_PWillmore2 D e :=
    funext fun gp => aResW_fixed D e gp hx hY hW
  unfold AssemblePWillmore_Res AssemblePWillmore2_Res
  rw [hxe, hYe, hWe]
  exact localRes_agree e _ _ _ _ _ _ _ Res0 Res0' idx hidx

/-- C28 on the flat sample triangle at rest with the centroid rule, `dt = 1/100`,
multipliers `1` and `2`: entry `20` of the `29` entries of `Res`, the vector holding `0`
before one routine and `1` before the other. -/
theorem PWillmore_fixed_point_witness :
    AssemblePWillmore_Res (sampleWillmoreData Real.sqrt Real.rpow) (sampleWillmoreElement ℝ)
        [sampleWillmoreGauss ℝ] (fun _ => 0) 20
      = AssemblePWillmore2_Res (sampleWillmoreData Real.sqrt Real.rpow) (sampleWillmoreElement ℝ)
        [sampleWillmoreGauss ℝ] (fun _ => 1) 20 :=
  PWillmore_fixed_point (sampleWillmoreData Real.sqrt Real.rpow) (sampleWillmoreElement ℝ)
    [sampleWillmoreGauss ℝ] rfl (fun _ _ _ => rfl) (fun _ _ _ => rfl) (fun _ _ _ => rfl)
    (fun gp hgp => by
      rw [List.mem_singleton.mp hgp]
      exact (detg_sampleNodes ℝ).trans_ne one_ne_zero)
    (fun _ => 0) (fun _ => 1) 20 (by decide)

end PWillmoreProofs

end Femus
